import Mathlib

/-!
# TLSF allocator — shallow embedding and verification

This file embeds the TLSF (two-level segregated fit) allocator from the
repository (`src/src/utils.h`: the `utils.h` helper macros together with the
`tlsf.c` translation unit that follows them in that file) into Lean 4 and
settles the frozen claims about it.

Modelling conventions:

* Machine integers (`size_t`, `unsigned long`, `uintptr_t`, all 64-bit) are
  `Nat` with explicit `% 2^64` (`W64`) at the places where the C arithmetic
  wraps.  `wsub` is the wrapping subtraction of two values below `2^64`.
* The C `ffsl` macro expands to `__builtin_ffs`, which takes an `int`: the
  argument is truncated to its low 32 bits.  `ffs32` models this faithfully.
  `flsl` is the 64-bit static inline function.
* A block header `tlsf_blk_t` is modelled as `Blk`: its address, its clean
  length, and its free flag.  In the C code the flag is the low bit of the
  length field and every read/write of the length masks it off
  (`block_length`), so splitting the field into `len`/`free` is faithful.
* The physical block chain (INT: implicit, threaded by `prevblk`/address
  arithmetic; EXT: the `blklist` tail queue) is the list `TLSF.blocks` in
  address order.  The segregated free lists `map[fl][sl]` hold block
  addresses, head first, mirroring the intrusive doubly-linked list.
* The ambient heap used for EXT headers (`malloc`) is an oracle `Bool`
  passed to the operations that may call it: `true` means the allocation
  succeeds.
* C branches whose behaviour is undefined (shift by a negative amount or by
  ≥ the word width) are mapped to `none`; no proved claim relies on the
  value chosen for such a branch.
-/

/-- 2^64, the modulus of `size_t` / `unsigned long` / `uintptr_t` arithmetic. -/
def W64 : Nat := 18446744073709551616

/-- Wrapping subtraction on 64-bit words: `(a - b) mod 2^64` for `a b < 2^64`. -/
def wsub (a b : Nat) : Nat := (W64 + a - b) % W64

/-- `TLSF_SLI_SHIFT`: the number of second-level subdivisions, as an exponent. -/
def TLSF_SLI_SHIFT : Nat := 5

/-- `TLSF_SLI_MAX = 1 << TLSF_SLI_SHIFT`. -/
def TLSF_SLI_MAX : Nat := 32

/-- `TLSF_MBS`: minimum block size. -/
def TLSF_MBS : Nat := 32

/-- `TLSF_FLI_MAX`: number of first-level classes (64-bit words). -/
def TLSF_FLI_MAX : Nat := 64

/-- `TLSF_BLKHDR_LEN = offsetof(tlsf_blk_t, next)`: two 8-byte fields. -/
def TLSF_BLKHDR_LEN : Nat := 16

/-- `roundup2(x, m) = ((x + m - 1) & ~(m - 1))` on `size_t` (m a power of two).
`~(m-1)` as a 64-bit word is `2^64 - m`. -/
def roundup2 (x m : Nat) : Nat := ((x + m - 1) % W64) &&& (W64 - m)

/-- Fuelled bit-length helper (structural recursion so that the kernel can
evaluate it). -/
def flsAux : Nat → Nat → Nat
  | 0, _ => 0
  | fuel + 1, x => if x = 0 then 0 else flsAux fuel (x / 2) + 1

/-- `flsl`: find last set on a 64-bit word; `flsl 0 = 0`, otherwise the
1-based index of the highest set bit (`64 - clzl x`). -/
def flsl (x : Nat) : Nat := flsAux 64 (x % W64)

/-- `ilog2(x) = flsl(x) - 1` (meaningful only for `x ≠ 0`; the C value for
`x = 0` is `-1` as an `int`, and every use below is guarded). -/
def ilog2 (x : Nat) : Nat := flsl x - 1

/-- Fuelled count of trailing zeros (structural recursion). -/
def ctzAux : Nat → Nat → Nat
  | 0, _ => 0
  | fuel + 1, x => if x % 2 = 1 then 0 else ctzAux fuel (x / 2) + 1

/-- The C macro `ffsl(x)` expands to `__builtin_ffs(x)`, whose parameter is a
32-bit `int`: the 64-bit argument is truncated to its low 32 bits.  Returns 0
if no (low) bit is set, else 1 + index of the lowest set bit. -/
def ffs32 (x : Nat) : Nat :=
  let y := x % 4294967296
  if y = 0 then 0 else ctzAux 32 y + 1

/-- `~0UL << s` as a 64-bit word (for `s < 64`): `2^64 - 2^s`. -/
def maskGE (s : Nat) : Nat := ((W64 - 1) <<< s) % W64

/-- `get_mapping`: given a size, return the first- and second-level indexes.
`fl = ilog2 size`, `sl = (size ^ (1 << fl)) >> (fl - TLSF_SLI_SHIFT)`.
(The C shift is undefined for `fl < TLSF_SLI_SHIFT`, i.e. `size < 32`; all
uses below have `size ≥ TLSF_MBS`.) -/
def get_mapping (size : Nat) : Nat × Nat :=
  let fl := ilog2 size
  (fl, (size ^^^ (1 <<< fl)) >>> (fl - TLSF_SLI_SHIFT))

/-- A block header (`tlsf_blk_t`): address of the region it describes, clean
length (the C `len` field with the `TLSF_BLK_FREE` bit masked off), and the
free flag (the C `TLSF_BLK_FREE` bit of `len`). -/
structure Blk where
  addr : Nat
  len : Nat
  free : Bool
  deriving Repr, DecidableEq

/-- `block_length(blk) = blk->len & ~TLSF_BLK_FREE`. -/
def block_length (b : Blk) : Nat := b.len

/-- `block_free_p(blk) = (blk->len & TLSF_BLK_FREE) != 0`. -/
def block_free_p (b : Blk) : Bool := b.free

/-- The allocator state (`struct tlsf`).  `blocks` is the physical block
chain in address order (INT: derived from headers laid in the extent;
EXT: the `blklist` tail queue).  `smap fl sl` is the segregated list
`map[fl][sl]` as the list of block addresses, head first. -/
structure TLSF where
  baseptr : Nat
  size : Nat
  free : Nat
  blk_hdr_len : Nat
  blocks : List Blk
  l1_free : Nat
  l2_free : Nat → Nat
  smap : Nat → Nat → List Nat

/-- Look a block up by address. -/
def findBlk (bs : List Blk) (a : Nat) : Option Blk := bs.find? (fun b => b.addr == a)

/-- Replace the length of the block at address `a`. -/
def updLen (bs : List Blk) (a : Nat) (l : Nat) : List Blk :=
  bs.map (fun b => if b.addr == a then { b with len := l } else b)

/-- Set/clear the free flag of the block at address `a`. -/
def setFree (bs : List Blk) (a : Nat) (f : Bool) : List Blk :=
  bs.map (fun b => if b.addr == a then { b with free := f } else b)

/-- Insert a new block right after the block at address `pa` in the physical
chain (`TAILQ_INSERT_AFTER`; in INT mode the new header is laid at its
address inside the extent, which places it at the same chain position). -/
def insertAfter (bs : List Blk) (pa : Nat) (nb : Blk) : List Blk :=
  bs.flatMap (fun b => if b.addr == pa then [b, nb] else [b])

/-- Remove the block at address `a` from the physical chain
(`block_hdr_free`: INT unlinks it by patching the successor's `prevblk`;
EXT `TAILQ_REMOVE`s and frees the record). -/
def eraseBlk (bs : List Blk) (a : Nat) : List Blk :=
  bs.filter (fun b => b.addr != a)

/-- Pointwise update of the second-level bitmap array. -/
def updL2 (f : Nat → Nat) (fl v : Nat) : Nat → Nat :=
  fun i => if i = fl then v else f i

/-- Pointwise update of the segregated list map. -/
def updMap (m : Nat → Nat → List Nat) (fl sl : Nat) (v : List Nat) :
    Nat → Nat → List Nat :=
  fun i j => if i = fl ∧ j = sl then v else m i j

/-- `insert_block`: compute `(fl, sl)` from the block's length, prepend the
block to `map[fl][sl]`, mark it free, add its length to the free counter and
set the two bitmap bits.  (If the address is not a block — never the case at
the call sites — the state is returned unchanged.) -/
def insert_block (t : TLSF) (a : Nat) : TLSF :=
  match findBlk t.blocks a with
  | none => t
  | some b =>
    let fl := (get_mapping b.len).1
    let sl := (get_mapping b.len).2
    { t with
      blocks := setFree t.blocks a true
      smap := updMap t.smap fl sl (a :: t.smap fl sl)
      free := t.free + b.len
      l1_free := t.l1_free ||| (1 <<< fl)
      l2_free := updL2 t.l2_free fl (t.l2_free fl ||| (1 <<< sl)) }

/-- `remove_block`: take `target` (or the head of `map[fl][sl]` when
`target` is `NULL`), unlink it from the segregated list, clear its free flag,
subtract its length from the free counter; and — exactly as the C does — if
the unlinked node's `next` pointer was null (it was the *last node of the
list*), clear `l2_free[fl]` bit `sl`, and clear `l1_free` bit `fl` if
`l2_free[fl]` became zero.  Returns the removed block's address. -/
def remove_block (t : TLSF) (target : Option Nat) (fl sl : Nat) :
    TLSF × Option Nat :=
  let a? := match target with
    | some a => some a
    | none => (t.smap fl sl).head?
  match a? with
  | none => (t, none)
  | some a =>
    match findBlk t.blocks a with
    | none => (t, none)
    | some b =>
      let lst := t.smap fl sl
      let wasLast := lst.getLast? == some a
      let l2' := if wasLast then (t.l2_free fl) &&& (W64 - 1 - (1 <<< sl))
                 else t.l2_free fl
      let l1' := if wasLast ∧ l2' = 0 then t.l1_free &&& (W64 - 1 - (1 <<< fl))
                 else t.l1_free
      ({ t with
          blocks := setFree t.blocks a false
          smap := updMap t.smap fl sl (lst.erase a)
          free := t.free - b.len
          l2_free := updL2 t.l2_free fl l2'
          l1_free := l1' }, some a)

/-- `block_hdr_alloc`: create the header for a block of length `len` laid
immediately after `parent`.  INT: the header is written at
`parent + TLSF_BLKHDR_LEN + block_length(parent)` and the chain pointers are
wired (always succeeds).  EXT: a record is `malloc`ed (modelled by the
`canMalloc` oracle; `none` on failure) and its address is set to
`parent->addr + parent->len`, then it is spliced after `parent`. -/
def block_hdr_alloc (t : TLSF) (pa : Nat) (len : Nat) (canMalloc : Bool) :
    Option (TLSF × Nat) :=
  match findBlk t.blocks pa with
  | none => none
  | some parent =>
    if t.blk_hdr_len ≠ 0 then
      let a := (pa + TLSF_BLKHDR_LEN + block_length parent) % W64
      some ({ t with blocks := insertAfter t.blocks pa ⟨a, len, false⟩ }, a)
    else if canMalloc then
      let a := (parent.addr + parent.len) % W64
      some ({ t with blocks := insertAfter t.blocks pa ⟨a, len, false⟩ }, a)
    else
      none

/-- `split_block`: shrink the block at `a` to `size` and create a remainder
header of length `block_length - blk_hdr_len - size` (size_t arithmetic,
wrapping).  If the EXT header allocation fails, the split is abandoned:
the length is restored to `size + remsize` and `none` is returned for the
remainder. -/
def split_block (t : TLSF) (a : Nat) (size : Nat) (canMalloc : Bool) :
    TLSF × Option Nat :=
  match findBlk t.blocks a with
  | none => (t, none)
  | some b =>
    let remsize := wsub (wsub (block_length b) t.blk_hdr_len) size
    let t1 := { t with blocks := updLen t.blocks a size }
    match block_hdr_alloc t1 a remsize canMalloc with
    | some (t2, ra) => (t2, some ra)
    | none =>
      ({ t1 with blocks := updLen t1.blocks a ((size + remsize) % W64) }, none)

/-- The physical predecessor of the block at address `a`
(`get_prev_physblk`: INT `blk->prevblk`, EXT `TAILQ_PREV`). -/
def prevPhys : List Blk → Nat → Option Blk
  | [], _ => none
  | [_], _ => none
  | b :: c :: rest, a =>
    if b.addr == a then none
    else if c.addr == a then some b
    else prevPhys (c :: rest) a

/-- The physical successor of the block at address `a`
(`get_next_physblk`: INT address arithmetic bounded by the extent end, EXT
`TAILQ_NEXT`). -/
def nextPhys : List Blk → Nat → Option Blk
  | [], _ => none
  | [_], _ => none
  | b :: c :: rest, a => if b.addr == a then some c else nextPhys (c :: rest) a

/-- Current length of the block at address `a` (0 if absent). -/
def blkLenAt (t : TLSF) (a : Nat) : Nat :=
  match findBlk t.blocks a with
  | some b => block_length b
  | none => 0

/-- `merge_blocks`: merge the block at `a` with its physical successor at
`a2`.  Both are removed from their segregated lists if free (the cell is
recomputed from their lengths), the successor's length plus `blk_hdr_len` is
added to the first block (`blk->len += tlsf->blk_hdr_len + addlen`, read
from the live state), and the successor's header is destroyed. -/
def merge_blocks (t : TLSF) (a a2 : Nat) : TLSF :=
  match findBlk t.blocks a, findBlk t.blocks a2 with
  | some b, some b2 =>
    let addlen := block_length b2
    let t1 := if block_free_p b then
        (remove_block t (some a) (get_mapping (block_length b)).1
          (get_mapping (block_length b)).2).1
      else t
    let t2 := if block_free_p b2 then
        (remove_block t1 (some a2) (get_mapping addlen).1
          (get_mapping addlen).2).1
      else t1
    let newLen := (blkLenAt t2 a + t.blk_hdr_len + addlen) % W64
    let t3 := { t2 with blocks := updLen t2.blocks a newLen }
    { t3 with blocks := eraseBlk t3.blocks a2 }
  | _, _ => t

/-- `tlsf_ext_alloc`: round the size up to `TLSF_MBS`, compute the search
target by adding `(1 << (ilog2 size - TLSF_SLI_SHIFT)) - 1`, locate a
non-empty cell via the bitmaps, remove its head block and split it if the
excess is at least `TLSF_MBS + blk_hdr_len`.  Returns the block's address.
`none` models both a `NULL` return and the branches where the C shifts are
undefined (rounded size 0, or a first-level shift by 64). -/
def tlsf_ext_alloc (t : TLSF) (size0 : Nat) (canMalloc : Bool) :
    Option (TLSF × Nat) :=
  let size := roundup2 size0 TLSF_MBS
  if size = 0 then none   -- C: ilog2(0) = -1, negative shift: undefined
  else
    let target := (size + (1 <<< (ilog2 size - TLSF_SLI_SHIFT)) - 1) % W64
    let fli := (get_mapping target).1
    let sli := (get_mapping target).2
    let s1 := ffs32 ((t.l2_free fli) &&& maskGE sli)
    let cell? : Option (Nat × Nat) :=
      if s1 = 0 then
        if fli + 1 ≥ 64 then none   -- C: ~0UL << 64: undefined
        else
          let f1 := ffs32 (t.l1_free &&& maskGE (fli + 1))
          if f1 = 0 then none
          else
            let fli' := f1 - 1
            let s2 := ffs32 (t.l2_free fli')
            if s2 = 0 then none     -- C: ASSERT(sli != 0); map index underflow
            else some (fli', s2 - 1)
      else some (fli, s1 - 1)
    match cell? with
    | none => none
    | some (fl, sl) =>
      match remove_block t none fl sl with
      | (_, none) => none           -- C: ASSERT(blk): empty cell, undefined
      | (t1, some a) =>
        match findBlk t.blocks a with
        | none => none
        | some b =>
          if TLSF_MBS + t.blk_hdr_len ≤ wsub (block_length b) size then
            let (t2, rem?) := split_block t1 a size canMalloc
            match rem? with
            | some ra => some (insert_block t2 ra, a)
            | none => some (t2, a)
          else
            some (t1, a)

/-- `tlsf_alloc` (INT only): allocate and return the payload address
`(uint8_t *)blk + TLSF_BLKHDR_LEN`. -/
def tlsf_alloc (t : TLSF) (size : Nat) (canMalloc : Bool) :
    Option (TLSF × Nat) :=
  match tlsf_ext_alloc t size canMalloc with
  | none => none
  | some (t', a) => some (t', (a + TLSF_BLKHDR_LEN) % W64)

/-- `tlsf_ext_free`: merge the released block with a free physical
predecessor, then with a free physical successor, and insert the result into
the segregated lists. -/
def tlsf_ext_free (t : TLSF) (a : Nat) : TLSF :=
  let prev? := prevPhys t.blocks a
  let next? := nextPhys t.blocks a
  let p1 : TLSF × Nat :=
    match prev? with
    | some pb => if block_free_p pb then (merge_blocks t pb.addr a, pb.addr)
                 else (t, a)
    | none => (t, a)
  let t2 : TLSF :=
    match next? with
    | some nb => if block_free_p nb then merge_blocks p1.1 p1.2 nb.addr
                 else p1.1
    | none => p1.1
  insert_block t2 p1.2

/-- `tlsf_free` (INT only): recover the header address
`ptr - TLSF_BLKHDR_LEN` and release it. -/
def tlsf_free (t : TLSF) (ptr : Nat) : TLSF :=
  tlsf_ext_free t (wsub ptr TLSF_BLKHDR_LEN)

/-- `tlsf_ext_getaddr`: return `blk->addr`, and write `block_length(blk)`
through the length pointer when it is non-null.  The returned pair is
(address, the value written). -/
def tlsf_ext_getaddr (b : Blk) : Nat × Nat := (b.addr, block_length b)

/-- `tlsf_create`: round the size with `roundup2(size + 1, MBS) - MBS`,
zero-initialise the state and insert one free block spanning the whole
extent (EXT: a side record with `addr = baseptr`, `len = size`; INT: a
header at `baseptr` with `len = size - TLSF_BLKHDR_LEN`).  The C returns
`NULL` when `calloc` fails; state-allocation failure is not modelled. -/
def tlsf_create (baseptr size0 : Nat) (exthdr : Bool) : TLSF :=
  let size := wsub (roundup2 ((size0 + 1) % W64) TLSF_MBS) TLSF_MBS
  let blk : Blk := if exthdr then ⟨baseptr, size, false⟩
                   else ⟨baseptr, wsub size TLSF_BLKHDR_LEN, false⟩
  let t0 : TLSF :=
    { baseptr := baseptr
      size := size
      free := 0
      blk_hdr_len := if exthdr then 0 else TLSF_BLKHDR_LEN
      blocks := [blk]
      l1_free := 0
      l2_free := fun _ => 0
      smap := fun _ _ => [] }
  insert_block t0 blk.addr

/-- `tlsf_unused_space`: the free-bytes counter. -/
def tlsf_unused_space (t : TLSF) : Nat := t.free

/-- `tlsf_avail_space`: find the highest set first- and second-level bits
with `flsl`, read the head block of that cell, and return
`(len' + 1) - (1 << (ilog2 len' - TLSF_SLI_SHIFT))` where
`len' = roundup2(len + 1, MBS) - MBS`.  Returns 0 when a bitmap scan finds
nothing (and also, in the model, if the indexed cell is empty — the C would
dereference a null head there). -/
def tlsf_avail_space (t : TLSF) : Nat :=
  let f := flsl t.l1_free
  if f = 0 then 0
  else
    let fli := f - 1
    let s := flsl (t.l2_free fli)
    if s = 0 then 0
    else
      let sli := s - 1
      match (t.smap fli sli).head? with
      | none => 0
      | some a =>
        match findBlk t.blocks a with
        | none => 0
        | some b =>
          let len := wsub (roundup2 ((block_length b + 1) % W64) TLSF_MBS)
                       TLSF_MBS
          wsub ((len + 1) % W64) ((1 <<< (ilog2 len - TLSF_SLI_SHIFT)) % W64)

/-! ## Public-operation traces and the state invariant -/

/-- One public mutating operation: an allocation request (with its ambient
heap oracle) or the release of an allocated block, named by address. -/
inductive Op where
  | alloc (n : Nat) (canMalloc : Bool)
  | free (a : Nat)
  deriving Repr, DecidableEq

/-- One step of the allocator.  `none` marks an invalid trace step:
an allocation request outside `[1, 2^62]` (beyond which the C arithmetic
overflows `size_t` or performs undefined shifts, see the claims about
at-least-requested), or a `free` of an address that is not a currently
allocated block (double free / invalid pointer, a debug-assertion failure in
the C).  A failed in-range allocation returns `NULL` and leaves the state
unchanged, which is a valid step. -/
def TLSF.step (t : TLSF) : Op → Option TLSF
  | Op.alloc n canMalloc =>
    if 1 ≤ n ∧ n ≤ 2 ^ 62 then
      match tlsf_ext_alloc t n canMalloc with
      | some (t', _) => some t'
      | none => some t
    else none
  | Op.free a =>
    match findBlk t.blocks a with
    | some b => if b.free then none else some (tlsf_ext_free t a)
    | none => none

/-- Run a list of public operations. -/
def runOps (t : TLSF) : List Op → Option TLSF
  | [] => some t
  | op :: ops => (t.step op).bind (fun u => runOps u ops)

/-- The aligned size computed by `tlsf_create`. -/
def alignedSize (size0 : Nat) : Nat :=
  wsub (roundup2 ((size0 + 1) % W64) TLSF_MBS) TLSF_MBS

/-- Preconditions of `tlsf_create` under which the initial state is sane:
the size arithmetic does not wrap, the extent fits below `2^64`, and the
initial block is at least `TLSF_MBS` long (INT: after deducting its
header). -/
def createOk (baseptr size0 : Nat) (exthdr : Bool) : Prop :=
  size0 + TLSF_MBS < W64 ∧
  baseptr + size0 < W64 ∧
  (if exthdr then TLSF_MBS ≤ alignedSize size0
   else TLSF_MBS + TLSF_BLKHDR_LEN ≤ alignedSize size0)

instance (baseptr size0 : Nat) (exthdr : Bool) :
    Decidable (createOk baseptr size0 exthdr) := by
  unfold createOk
  infer_instance

/-- The physical chain starts at `a`, each block's address is the running
address, and each block advances it by `hdr + len`; the chain ends exactly
at `stop`. -/
def chainB (hdr stop : Nat) : Nat → List Blk → Bool
  | a, [] => a == stop
  | a, b :: bs => b.addr == a && chainB hdr stop (a + hdr + b.len) bs

/-- No two physically adjacent blocks are both free. -/
def noAdjFree : List Blk → Bool
  | b :: c :: rest => (!(b.free && c.free)) && noAdjFree (c :: rest)
  | _ => true

/-- Sum of the lengths of the free blocks. -/
def freeSum (bs : List Blk) : Nat := ((bs.filter (·.free)).map (·.len)).sum

/-- Length granularity of a single block: at least `TLSF_MBS`, a multiple of
`TLSF_BLKHDR_LEN`, and in EXT mode (`hdr = 0`) a multiple of `TLSF_MBS`. -/
def lenOk (hdr : Nat) (b : Blk) : Prop :=
  TLSF_MBS ≤ b.len ∧ b.len % TLSF_BLKHDR_LEN = 0 ∧
    (hdr = 0 → b.len % TLSF_MBS = 0)

instance (hdr : Nat) (b : Blk) : Decidable (lenOk hdr b) := by
  unfold lenOk; infer_instance

/-- The allocator invariant. -/
structure TlsfInv (t : TLSF) : Prop where
  mode : t.blk_hdr_len = TLSF_BLKHDR_LEN ∨ t.blk_hdr_len = 0
  szlt : t.size < W64
  endlt : t.baseptr + t.size < W64
  nonnil : t.blocks ≠ []
  chain : chainB t.blk_hdr_len (t.baseptr + t.size) t.baseptr t.blocks = true
  lens : ∀ b ∈ t.blocks, lenOk t.blk_hdr_len b
  noadj : noAdjFree t.blocks = true
  ctr : t.free = freeSum t.blocks
  l1lt : t.l1_free < W64
  l2lt : ∀ fl < 64, t.l2_free fl < 2 ^ 32
  bit1 : ∀ fl < 64, (t.l1_free).testBit fl = true → t.l2_free fl ≠ 0
  cells : ∀ fl < 64, ∀ sl < 32,
    ((t.l2_free fl).testBit sl = true → t.smap fl sl ≠ []) ∧
    (t.smap fl sl).Nodup ∧
    (∀ a ∈ t.smap fl sl, ∃ b ∈ t.blocks,
       b.addr = a ∧ b.free = true ∧ get_mapping b.len = (fl, sl))
  freein : ∀ b ∈ t.blocks, b.free = true →
    b.addr ∈ t.smap (get_mapping b.len).1 (get_mapping b.len).2

/-! ## States and traces used by the claims -/

/-- Sum of all block lengths (free or allocated). -/
def sumLens (bs : List Blk) : Nat := (bs.map (·.len)).sum

/-- Every block of the state is free. -/
def allFreeB (t : TLSF) : Bool := t.blocks.all (·.free)

/-- A state is reachable from `t0` if some valid trace of public operations
leads to it. -/
def ReachableFrom (t0 t : TLSF) : Prop := ∃ ops, runOps t0 ops = some t

/-- EXT allocator over a 320-unit extent at base 0. -/
def exState0 : TLSF := tlsf_create 0 320 true

/-- INT allocator over a 96-byte extent at base 0. -/
def intState0 : TLSF := tlsf_create 0 96 false

/-- Carve the 320-unit extent into ten 32-unit blocks, free the blocks at
addresses 32 and 160 (both land in cell (5,0), 160 at the list head, 32 at
the tail), then free the block at 64: its physical predecessor 32 is free,
so `merge_blocks` removes the *tail* of the two-element list (5,0). -/
def c3ops : List Op :=
  List.replicate 10 (Op.alloc 32 true) ++ [Op.free 32, Op.free 160, Op.free 64]

/-- The state after the `c3ops` trace. -/
def c3final : TLSF := (runOps exState0 c3ops).getD exState0

/-- EXT allocator over an extent of `2^57 - 32` units (a large address-space
arena; the initial block lands in cell (56, 31)). -/
def c1state : TLSF := tlsf_create 0 (2 ^ 57 - 32) true

/-- The C1 counterexample request: `2^64 - 2^57` units.  Rounding it up to
the next size class overflows `size_t`: the target wraps to `2^57 - 1`,
which maps to cell (56, 31). -/
def c1req : Nat := 2 ^ 64 - 2 ^ 57

/-- Modelled from the claim's words (C5): locate the highest-indexed cell
via find-last-set on the two bitmaps, read the head block's length, compute
`roundup(len+1, MBS) - MBS` and subtract `1 << (log2 len - SLI_SHIFT)` from
it (without the `+ 1` the code performs). -/
def availClaimValue (t : TLSF) : Nat :=
  let f := flsl t.l1_free
  if f = 0 then 0
  else
    let fli := f - 1
    let s := flsl (t.l2_free fli)
    if s = 0 then 0
    else
      let sli := s - 1
      match (t.smap fli sli).head? with
      | none => 0
      | some a =>
        match findBlk t.blocks a with
        | none => 0
        | some b =>
          let len := roundup2 (block_length b + 1) TLSF_MBS - TLSF_MBS
          len - (1 <<< (ilog2 len - TLSF_SLI_SHIFT))

/-- The allocator's identity fields (base, size, mode) are unchanged from
`t` to `t'`. -/
def SameShape (t t' : TLSF) : Prop :=
  t'.baseptr = t.baseptr ∧ t'.size = t.size ∧ t'.blk_hdr_len = t.blk_hdr_len

/-! ## Bit-scan arithmetic lemmas -/

theorem log2_ge_pow (x : Nat) (h0 : 0 < x) : 2 ^ Nat.log2 x ≤ x :=
  Nat.log2_self_le (Nat.pos_iff_ne_zero.mp h0)

theorem log2_lt_pow (x : Nat) : x < 2 ^ (Nat.log2 x + 1) := Nat.lt_log2_self

theorem log2_unique (x k : Nat) (h1 : 2 ^ k ≤ x) (h2 : x < 2 ^ (k + 1)) :
    Nat.log2 x = k := by
  have hx : x ≠ 0 := by
    have : 0 < 2 ^ k := Nat.pos_pow_of_pos k (by norm_num)
    omega
  have ha : k ≤ Nat.log2 x := (Nat.le_log2 hx).mpr h1
  have hb : Nat.log2 x < k + 1 := (Nat.log2_lt hx).mpr h2
  omega

theorem log2_le_of_le (x y : Nat) (h0 : 0 < x) (h : x ≤ y) :
    Nat.log2 x ≤ Nat.log2 y := by
  have hy : y ≠ 0 := by omega
  exact (Nat.le_log2 hy).mpr (Nat.le_trans (log2_ge_pow x h0) h)

theorem flsAux_zero (fuel : Nat) : flsAux fuel 0 = 0 := by
  cases fuel <;> simp [flsAux]

theorem flsAux_eq_log2 : ∀ fuel x, 0 < x → x < 2 ^ fuel →
    flsAux fuel x = Nat.log2 x + 1 := by
  intro fuel
  induction fuel with
  | zero => intro x h0 h1; omega
  | succ n ih =>
    intro x h0 h1
    have hx : x ≠ 0 := Nat.pos_iff_ne_zero.mp h0
    rw [flsAux, if_neg hx]
    by_cases h2 : 2 ≤ x
    · have hd0 : 0 < x / 2 := Nat.div_pos h2 (by norm_num)
      have hdlt : x / 2 < 2 ^ n := by
        rw [Nat.pow_succ] at h1; omega
      rw [ih (x / 2) hd0 hdlt]
      have hL := log2_ge_pow (x / 2) hd0
      have hU := log2_lt_pow (x / 2)
      have hx2 : Nat.log2 x = Nat.log2 (x / 2) + 1 := by
        apply log2_unique
        · rw [Nat.pow_succ]; omega
        · rw [Nat.pow_succ] at hU ⊢
          rw [Nat.pow_succ]; omega
      omega
    · have hx1 : x = 1 := by omega
      subst hx1
      rw [flsAux_zero]
      have : Nat.log2 1 = 0 := log2_unique 1 0 (by norm_num) (by norm_num)
      omega

theorem flsl_eq_log2 (x : Nat) (h0 : 0 < x) (h : x < W64) :
    flsl x = Nat.log2 x + 1 := by
  have hm : x % W64 = x := Nat.mod_eq_of_lt h
  rw [flsl, hm]
  exact flsAux_eq_log2 64 x h0 h

theorem flsl_zero : flsl 0 = 0 := by decide

theorem ilog2_eq_log2 (x : Nat) (h0 : 0 < x) (h : x < W64) :
    ilog2 x = Nat.log2 x := by
  rw [ilog2, flsl_eq_log2 x h0 h]; omega

theorem W64_eq : W64 = 2 ^ 64 := by norm_num [W64]

theorem W64_pos : 0 < W64 := by norm_num [W64]

theorem ctzAux_spec : ∀ fuel y, 0 < y → y < 2 ^ fuel →
    ctzAux fuel y < fuel ∧ y.testBit (ctzAux fuel y) = true ∧
      ∀ j < ctzAux fuel y, y.testBit j = false := by
  intro fuel
  induction fuel with
  | zero => intro y h0 h1; omega
  | succ n ih =>
    intro y h0 h1
    by_cases hodd : y % 2 = 1
    · rw [ctzAux, if_pos hodd]
      refine ⟨Nat.succ_pos n, ?_, by omega⟩
      simp [Nat.testBit_zero, hodd]
    · rw [ctzAux, if_neg hodd]
      have hd0 : 0 < y / 2 := by omega
      have hdlt : y / 2 < 2 ^ n := by rw [Nat.pow_succ] at h1; omega
      obtain ⟨ha, hb, hc⟩ := ih (y / 2) hd0 hdlt
      refine ⟨by omega, ?_, ?_⟩
      · rw [Nat.testBit_add_one]; exact hb
      · intro j hj
        cases j with
        | zero => simp [Nat.testBit_zero]; omega
        | succ k =>
          rw [Nat.testBit_add_one]
          exact hc k (by omega)

theorem ffs32_eq_zero_iff (x : Nat) : ffs32 x = 0 ↔ x % 4294967296 = 0 := by
  unfold ffs32
  by_cases h : x % 4294967296 = 0 <;> simp [h]

theorem ffs32_spec (x : Nat) (h : x % 4294967296 ≠ 0) :
    ffs32 x - 1 < 32 ∧ x.testBit (ffs32 x - 1) = true ∧
      (∀ j < ffs32 x - 1, x.testBit j = false) ∧ 1 ≤ ffs32 x := by
  have h32 : (4294967296 : Nat) = 2 ^ 32 := by norm_num
  have hlt : x % 4294967296 < 2 ^ 32 := by
    rw [h32]; exact h32 ▸ Nat.mod_lt x (by norm_num)
  obtain ⟨ha, hb, hc⟩ := ctzAux_spec 32 (x % 4294967296) (by omega) hlt
  have hexp : ffs32 x = ctzAux 32 (x % 4294967296) + 1 := by
    unfold ffs32; simp [h]
  have hmod : ∀ j, j < 32 → (x % 4294967296).testBit j = x.testBit j := by
    intro j hj
    rw [h32, Nat.testBit_mod_two_pow]
    simp [hj]
  refine ⟨by omega, ?_, ?_, by omega⟩
  · rw [hexp]; simp only [Nat.add_sub_cancel]
    rw [← hmod _ ha]; exact hb
  · intro j hj
    rw [hexp] at hj; simp only [Nat.add_sub_cancel] at hj
    rw [← hmod _ (by omega)]
    exact hc j hj

theorem testBit_ge_64 (x i : Nat) (hx : x < W64) (hi : 64 ≤ i) :
    x.testBit i = false := by
  apply Nat.testBit_lt_two_pow
  have h1 : (2:Nat) ^ 64 ≤ 2 ^ i := Nat.pow_le_pow_right (by norm_num) hi
  have h2 := W64_eq
  omega

theorem maskGE_eq (s : Nat) (hs : s ≤ 64) : maskGE s = W64 - 2 ^ s := by
  have h1 : (W64 - 1) <<< s = (W64 - 1) * 2 ^ s := Nat.shiftLeft_eq _ _
  have h2 : 2 ^ s ≤ W64 := by
    have hp : (2:Nat) ^ s ≤ 2 ^ 64 := Nat.pow_le_pow_right (by norm_num) hs
    have := W64_eq
    omega
  have hApos : 0 < 2 ^ s := Nat.pos_pow_of_pos s (by norm_num)
  have hB : (W64 - 1) * 2 ^ s = W64 * 2 ^ s - 2 ^ s := by
    rw [Nat.sub_mul, Nat.one_mul]
  have hQ : W64 * (2 ^ s - 1) = W64 * 2 ^ s - W64 := by
    have := Nat.mul_pred W64 (2 ^ s)
    simpa [Nat.pred_eq_sub_one] using this
  have hPW : W64 ≤ W64 * 2 ^ s := Nat.le_mul_of_pos_right W64 hApos
  have key : (W64 - 1) * 2 ^ s = W64 * (2 ^ s - 1) + (W64 - 2 ^ s) := by
    rw [hB, hQ]; omega
  rw [maskGE, h1, key, Nat.mul_add_mod]
  exact Nat.mod_eq_of_lt (by omega)

theorem testBit_maskGE (s i : Nat) (hs : s ≤ 64) :
    (maskGE s).testBit i = (decide (s ≤ i) && decide (i < 64)) := by
  rw [maskGE_eq s hs]
  have hsplit : W64 - 2 ^ s = (2 ^ (64 - s) - 1) <<< s := by
    rw [Nat.shiftLeft_eq, Nat.sub_mul, Nat.one_mul, ← Nat.pow_add]
    have h1 : 64 - s + s = 64 := by omega
    rw [h1, W64_eq]
  rw [hsplit, Nat.testBit_shiftLeft, Nat.testBit_two_pow_sub_one]
  by_cases hsi : s ≤ i
  · by_cases hi64 : i < 64
    · simp [hsi, hi64]; omega
    · simp [hsi, hi64]; omega
  · simp [hsi]

theorem testBit_clearMask (s i : Nat) (hs : s < 64) :
    (W64 - 1 - (1 <<< s)).testBit i = (decide (i < 64) && !(decide (s = i))) := by
  have h1 : (1:Nat) <<< s = 2 ^ s := by rw [Nat.shiftLeft_eq, Nat.one_mul]
  have h2 : 2 ^ s < 2 ^ 64 := Nat.pow_lt_pow_right (by norm_num) hs
  have h3 : W64 - 1 - (1 <<< s) = 2 ^ 64 - (2 ^ s + 1) := by
    rw [h1]
    have := W64_eq
    omega
  rw [h3, Nat.testBit_two_pow_sub_succ h2, Nat.testBit_two_pow]

theorem land_maskGE (y k : Nat) (hy : y < W64) (hk : k ≤ 64) :
    y &&& (W64 - 2 ^ k) = y - y % 2 ^ k := by
  apply Nat.eq_of_testBit_eq
  intro i
  have hsub : y - y % 2 ^ k = (y >>> k) <<< k := by
    rw [Nat.shiftLeft_eq, Nat.shiftRight_eq_div_pow]
    have := Nat.mod_add_div' y (2 ^ k)
    omega
  rw [Nat.testBit_and, hsub, Nat.testBit_shiftLeft, Nat.testBit_shiftRight]
  have hmask := testBit_maskGE k i hk
  rw [maskGE_eq k hk] at hmask
  rw [hmask]
  by_cases hki : k ≤ i
  · have hplus : k + (i - k) = i := by omega
    rw [hplus]
    by_cases hi64 : i < 64
    · simp [hki, hi64]
    · simp [hki, hi64, testBit_ge_64 y i hy (by omega)]
  · simp [hki]

theorem wsub_eq_sub (a b : Nat) (hb : b ≤ a) (ha : a < W64) :
    wsub a b = a - b := by
  rw [wsub]
  have h1 : W64 + a - b = W64 + (a - b) := by omega
  rw [h1, Nat.add_mod_left]
  exact Nat.mod_eq_of_lt (by omega)

theorem wsub_lt (a b : Nat) : wsub a b < W64 := by
  rw [wsub]; exact Nat.mod_lt _ W64_pos

/-! ## `roundup2`, `get_mapping` and the size-class geometry -/

theorem roundup2_MBS (x : Nat) (h : x + 31 < W64) :
    roundup2 x TLSF_MBS = (x + 31) - (x + 31) % 32 := by
  have h1 : (x + TLSF_MBS - 1) % W64 = x + 31 := by
    rw [TLSF_MBS]
    have : x + 32 - 1 = x + 31 := by omega
    rw [this]
    exact Nat.mod_eq_of_lt h
  have h2 : W64 - TLSF_MBS = W64 - 2 ^ 5 := by norm_num [TLSF_MBS]
  rw [roundup2, h1, h2, land_maskGE (x + 31) 5 h (by norm_num)]
  norm_num

theorem roundup2_MBS_spec (x : Nat) (h : x + 31 < W64) :
    roundup2 x TLSF_MBS % 32 = 0 ∧ x ≤ roundup2 x TLSF_MBS ∧
      roundup2 x TLSF_MBS < x + 32 := by
  rw [roundup2_MBS x h]
  have h1 := Nat.mod_add_div' (x + 31) 32
  have h2 : (x + 31) % 32 < 32 := Nat.mod_lt _ (by norm_num)
  constructor
  · have : x + 31 - (x + 31) % 32 = (x + 31) / 32 * 32 := by omega
    rw [this, Nat.mul_mod_left]
  · omega

theorem alignedSize_spec (size0 : Nat) (h : size0 + TLSF_MBS < W64) :
    alignedSize size0 % 32 = 0 ∧ alignedSize size0 ≤ size0 ∧
      size0 < alignedSize size0 + 32 := by
  have hW := W64_eq
  have hm : (size0 + 1) % W64 = size0 + 1 := Nat.mod_eq_of_lt (by norm_num [TLSF_MBS] at h; omega)
  have hb : size0 + 1 + 31 < W64 := by norm_num [TLSF_MBS] at h; omega
  obtain ⟨ha, hble, hlt⟩ := roundup2_MBS_spec (size0 + 1) hb
  have h32 : 32 ≤ roundup2 (size0 + 1) TLSF_MBS := by omega
  have hrlt : roundup2 (size0 + 1) TLSF_MBS < W64 := by omega
  rw [alignedSize, hm, wsub_eq_sub _ _ (by rw [TLSF_MBS]; exact h32) hrlt,
    TLSF_MBS]
  rw [TLSF_MBS] at ha hble hlt
  omega

theorem xor_two_pow_sub (f r : Nat) (hr : r < 2 ^ f) :
    (2 ^ f + r) ^^^ 2 ^ f = r := by
  apply Nat.eq_of_testBit_eq
  intro i
  rw [Nat.testBit_xor, Nat.testBit_two_pow]
  rcases Nat.lt_trichotomy i f with hif | hif | hif
  · rw [Nat.testBit_two_pow_add_gt hif]
    simp [Nat.ne_of_gt hif]
  · subst hif
    rw [Nat.testBit_two_pow_add_eq]
    simp [Nat.testBit_lt_two_pow hr]
  · have hbig : 2 ^ f + r < 2 ^ i := by
      have : (2:Nat) ^ (f + 1) ≤ 2 ^ i := Nat.pow_le_pow_right (by norm_num) (by omega)
      rw [Nat.pow_succ] at this
      omega
    rw [Nat.testBit_lt_two_pow hbig, Nat.testBit_lt_two_pow (by omega : r < 2 ^ i)]
    simp [Nat.ne_of_lt hif]

theorem get_mapping_eq (len : Nat) (h32 : 32 ≤ len) (h64 : len < W64) :
    get_mapping len =
      (Nat.log2 len, (len - 2 ^ Nat.log2 len) / 2 ^ (Nat.log2 len - 5)) := by
  have h0 : 0 < len := by omega
  have hfl : ilog2 len = Nat.log2 len := ilog2_eq_log2 len h0 h64
  have hle := log2_ge_pow len h0
  have hlt := log2_lt_pow len
  rw [get_mapping, hfl]
  have h1 : (1:Nat) <<< Nat.log2 len = 2 ^ Nat.log2 len := by
    rw [Nat.shiftLeft_eq, Nat.one_mul]
  have hxor : len ^^^ (1 <<< Nat.log2 len) = len - 2 ^ Nat.log2 len := by
    rw [h1]
    have hr : len - 2 ^ Nat.log2 len < 2 ^ Nat.log2 len := by
      rw [Nat.pow_succ] at hlt; omega
    have hsum : 2 ^ Nat.log2 len + (len - 2 ^ Nat.log2 len) = len := by omega
    calc len ^^^ 2 ^ Nat.log2 len
        = (2 ^ Nat.log2 len + (len - 2 ^ Nat.log2 len)) ^^^ 2 ^ Nat.log2 len := by
          rw [hsum]
      _ = len - 2 ^ Nat.log2 len := xor_two_pow_sub _ _ hr
  rw [hxor, TLSF_SLI_SHIFT, Nat.shiftRight_eq_div_pow]

theorem get_mapping_bounds (len : Nat) (h32 : 32 ≤ len) (h64 : len < W64) :
    5 ≤ (get_mapping len).1 ∧ (get_mapping len).1 < 64 ∧
      (get_mapping len).2 < 32 := by
  have h0 : 0 < len := by omega
  rw [get_mapping_eq len h32 h64]
  have hfl5 : 5 ≤ Nat.log2 len := by
    apply (Nat.le_log2 (by omega)).mpr
    norm_num
    omega
  have hfl64 : Nat.log2 len < 64 := by
    apply (Nat.log2_lt (by omega)).mpr
    have := W64_eq
    omega
  refine ⟨hfl5, hfl64, ?_⟩
  have hle := log2_ge_pow len h0
  have hlt := log2_lt_pow len
  have hd : len - 2 ^ Nat.log2 len < 2 ^ Nat.log2 len := by
    rw [Nat.pow_succ] at hlt; omega
  apply Nat.div_lt_of_lt_mul
  have hsplit : 2 ^ (Nat.log2 len - 5) * 32 = 2 ^ Nat.log2 len := by
    have h5 : (32:Nat) = 2 ^ 5 := by norm_num
    rw [h5, ← Nat.pow_add]
    congr 1
    omega
  omega

/-- A length's position within its cell: the cell base
`2^fl + sl * 2^(fl-5)` is a lower bound, and the next cell base a strict
upper bound. -/
theorem cell_bounds (len : Nat) (h32 : 32 ≤ len) (h64 : len < W64) :
    2 ^ (get_mapping len).1 + (get_mapping len).2 * 2 ^ ((get_mapping len).1 - 5) ≤ len ∧
      len < 2 ^ (get_mapping len).1 + ((get_mapping len).2 + 1) * 2 ^ ((get_mapping len).1 - 5) := by
  have h0 : 0 < len := by omega
  rw [get_mapping_eq len h32 h64]
  have hle := log2_ge_pow len h0
  have hlt := log2_lt_pow len
  set f := Nat.log2 len with hf
  set d := len - 2 ^ f with hd
  set g := 2 ^ (f - 5) with hg
  have hgpos : 0 < g := Nat.pos_pow_of_pos _ (by norm_num)
  have h1 := Nat.mod_add_div' d g
  have h2 : d % g < g := Nat.mod_lt _ hgpos
  have h3 : (d / g + 1) * g = d / g * g + g := by ring
  simp only
  constructor
  · omega
  · omega

/-- Cell bases are monotone in the lexicographic order on (fl, sl). -/
theorem cellBase_mono (f1 s1 f2 s2 : Nat) (hf5 : 5 ≤ f1) (hs1 : s1 < 32)
    (hlex : f1 < f2 ∨ (f1 = f2 ∧ s1 ≤ s2)) :
    2 ^ f1 + s1 * 2 ^ (f1 - 5) ≤ 2 ^ f2 + s2 * 2 ^ (f2 - 5) := by
  have hg1 : 2 ^ (f1 - 5) * 32 = 2 ^ f1 := by
    have h5 : (32:Nat) = 2 ^ 5 := by norm_num
    rw [h5, ← Nat.pow_add]
    congr 1
    omega
  rcases hlex with hlt | ⟨heq, hle⟩
  · have h1 : s1 * 2 ^ (f1 - 5) < 2 ^ f1 := by
      have hpos : 0 < 2 ^ (f1 - 5) := Nat.pos_pow_of_pos _ (by norm_num)
      have hm : s1 * 2 ^ (f1 - 5) ≤ 31 * 2 ^ (f1 - 5) :=
        Nat.mul_le_mul_right _ (by omega)
      have h31 : 31 * 2 ^ (f1 - 5) + 2 ^ (f1 - 5) = 2 ^ (f1 - 5) * 32 := by ring
      omega
    have h2 : 2 ^ f1 + 2 ^ f1 ≤ 2 ^ f2 := by
      have : (2:Nat) ^ (f1 + 1) ≤ 2 ^ f2 := Nat.pow_le_pow_right (by norm_num) (by omega)
      rw [Nat.pow_succ] at this
      omega
    omega
  · subst heq
    have := Nat.mul_le_mul_right (2 ^ (f1 - 5)) hle
    omega

/-- The rounding step of allocation: any length in the cell of
`target = size + 2^(log2 size - 5) - 1` (or any higher cell) is at least
`size`. -/
theorem target_cell_base_ge (size : Nat) (h32 : 32 ≤ size) (hb : size ≤ 2 ^ 62) :
    let tgt := size + 2 ^ (Nat.log2 size - 5) - 1
    32 ≤ tgt ∧ tgt < 2 ^ 63 ∧
      size ≤ 2 ^ (get_mapping tgt).1 +
        (get_mapping tgt).2 * 2 ^ ((get_mapping tgt).1 - 5) := by
  intro tgt
  have h0 : 0 < size := by omega
  have hf5 : 5 ≤ Nat.log2 size := by
    apply (Nat.le_log2 (by omega)).mpr
    norm_num
    omega
  have hfb : Nat.log2 size ≤ 62 := by
    have := log2_ge_pow size h0
    by_contra hcon
    push_neg at hcon
    have : (2:Nat) ^ 63 ≤ 2 ^ Nat.log2 size := Nat.pow_le_pow_right (by norm_num) (by omega)
    have hx : (2:Nat) ^ 62 < 2 ^ 63 := by norm_num
    omega
  have hgle : 2 ^ (Nat.log2 size - 5) ≤ 2 ^ 57 :=
    Nat.pow_le_pow_right (by norm_num) (by omega)
  have hgpos : 0 < 2 ^ (Nat.log2 size - 5) := Nat.pos_pow_of_pos _ (by norm_num)
  have htlt : tgt < 2 ^ 63 := by
    show size + 2 ^ (Nat.log2 size - 5) - 1 < 2 ^ 63
    have h62 : (2:Nat) ^ 62 + 2 ^ 57 ≤ 2 ^ 63 := by norm_num
    omega
  have ht32 : 32 ≤ tgt := by show 32 ≤ size + 2 ^ (Nat.log2 size - 5) - 1; omega
  have htW : tgt < W64 := by
    have := W64_eq
    have hx : (2:Nat) ^ 63 < 2 ^ 64 := by norm_num
    omega
  refine ⟨ht32, htlt, ?_⟩
  obtain ⟨hcl, hcu⟩ := cell_bounds tgt ht32 htW
  set ft := (get_mapping tgt).1 with hft
  set st := (get_mapping tgt).2 with hst
  have hftval : ft = Nat.log2 tgt := by
    rw [hft, get_mapping_eq tgt ht32 htW]
  have hf0le : Nat.log2 size ≤ Nat.log2 tgt := by
    apply log2_le_of_le size tgt h0
    show size ≤ size + 2 ^ (Nat.log2 size - 5) - 1
    omega
  rcases Nat.lt_or_ge (Nat.log2 tgt) (Nat.log2 size + 1) with hcase | hcase
  · -- same first level: ft = log2 size
    have hfteq : ft = Nat.log2 size := by omega
    have hgeq : 2 ^ (ft - 5) = 2 ^ (Nat.log2 size - 5) := by rw [hfteq]
    -- tgt < base + (st+1)*g  ⇒  base > tgt - g = size - 1
    have hsplit : (st + 1) * 2 ^ (ft - 5) = st * 2 ^ (ft - 5) + 2 ^ (ft - 5) := by ring
    have : tgt = size + 2 ^ (Nat.log2 size - 5) - 1 := rfl
    omega
  · -- strictly higher first level: cell base at least 2^(log2 size + 1) > size
    have h1 : (2:Nat) ^ (Nat.log2 size + 1) ≤ 2 ^ ft := by
      apply Nat.pow_le_pow_right (by norm_num)
      omega
    have h2 := log2_lt_pow size
    omega

/-- `ffs32` applied to a word masked with `~0 << s` (as the allocation fast
path does): a non-zero result names a set bit of the word at position
in `[s, 32)`. -/
theorem ffs32_land_spec (x s : Nat) (hs : s ≤ 64)
    (hne : ffs32 (x &&& maskGE s) ≠ 0) :
    s ≤ ffs32 (x &&& maskGE s) - 1 ∧ ffs32 (x &&& maskGE s) - 1 < 32 ∧
      x.testBit (ffs32 (x &&& maskGE s) - 1) = true := by
  set y := x &&& maskGE s with hy
  have hmod : y % 4294967296 ≠ 0 := by
    intro hcon
    exact hne ((ffs32_eq_zero_iff y).mpr hcon)
  obtain ⟨hk32, hbit, _, _⟩ := ffs32_spec y hmod
  set k := ffs32 y - 1 with hk
  rw [hy, Nat.testBit_and, testBit_maskGE s k hs] at hbit
  have h1 : x.testBit k = true := by
    cases hx : x.testBit k
    · rw [hx] at hbit; simp at hbit
    · rfl
  have h2 : s ≤ k := by
    by_contra hcon
    push_neg at hcon
    rw [h1] at hbit
    simp at hbit
    omega
  exact ⟨h2, hk32, h1⟩

/-- Plain `ffs32`: a non-zero result names a set bit below 32. -/
theorem ffs32_plain_spec (x : Nat) (hne : ffs32 x ≠ 0) :
    ffs32 x - 1 < 32 ∧ x.testBit (ffs32 x - 1) = true := by
  have hmod : x % 4294967296 ≠ 0 := by
    intro hcon
    exact hne ((ffs32_eq_zero_iff x).mpr hcon)
  obtain ⟨h1, h2, _, _⟩ := ffs32_spec x hmod
  exact ⟨h1, h2⟩

/-! ## Block-list surgery toolkit -/

theorem findBlk_decomp (bs : List Blk) (a : Nat) (b : Blk)
    (h : findBlk bs a = some b) :
    b.addr = a ∧ ∃ u v, bs = u ++ b :: v ∧ ∀ x ∈ u, x.addr ≠ a := by
  induction bs with
  | nil => simp [findBlk] at h
  | cons c rest ih =>
    rw [findBlk, List.find?] at h
    by_cases hc : c.addr = a
    · have : (c.addr == a) = true := beq_iff_eq.mpr hc
      rw [this] at h
      simp at h
      subst h
      exact ⟨hc, [], rest, rfl, by simp⟩
    · have : (c.addr == a) = false := beq_eq_false_iff_ne.mpr hc
      rw [this] at h
      obtain ⟨haddr, u, v, hbs, hu⟩ := ih h
      refine ⟨haddr, c :: u, v, by simp [hbs], ?_⟩
      intro x hx
      rcases List.mem_cons.mp hx with hx | hx
      · subst hx; exact hc
      · exact hu x hx

theorem findBlk_eq_none_iff (bs : List Blk) (a : Nat) :
    findBlk bs a = none ↔ ∀ b ∈ bs, b.addr ≠ a := by
  rw [findBlk, List.find?_eq_none]
  constructor
  · intro h b hb
    have := h b hb
    simpa using this
  · intro h b hb
    simpa using h b hb

theorem findBlk_mem (bs : List Blk) (a : Nat) (b : Blk)
    (h : findBlk bs a = some b) : b ∈ bs := by
  obtain ⟨_, u, v, hbs, _⟩ := findBlk_decomp bs a b h
  rw [hbs]
  simp

theorem map_upd_noop (l : List Blk) (g : Blk → Blk) (a : Nat)
    (h : ∀ x ∈ l, x.addr ≠ a) :
    l.map (fun b => if b.addr == a then g b else b) = l := by
  induction l with
  | nil => rfl
  | cons c rest ih =>
    rw [List.map_cons, ih (fun x hx => h x (List.mem_cons_of_mem c hx))]
    have hc : (c.addr == a) = false :=
      beq_eq_false_iff_ne.mpr (h c (List.mem_cons_self c rest))
    rw [hc]
    rfl

theorem setFree_noop (l : List Blk) (a : Nat) (f : Bool)
    (h : ∀ x ∈ l, x.addr ≠ a) : setFree l a f = l := by
  rw [setFree]
  exact map_upd_noop l _ a h

theorem updLen_noop (l : List Blk) (a : Nat) (v : Nat)
    (h : ∀ x ∈ l, x.addr ≠ a) : updLen l a v = l := by
  rw [updLen]
  exact map_upd_noop l _ a h

theorem insertAfter_noop (l : List Blk) (a : Nat) (nb : Blk)
    (h : ∀ x ∈ l, x.addr ≠ a) : insertAfter l a nb = l := by
  rw [insertAfter]
  induction l with
  | nil => rfl
  | cons c rest ih =>
    have hc : (c.addr == a) = false := beq_eq_false_iff_ne.mpr (h c (by simp))
    rw [List.flatMap_cons, hc, if_neg (by simp)]
    rw [ih (fun x hx => h x (by simp [hx]))]
    rfl

theorem eraseBlk_noop (l : List Blk) (a : Nat)
    (h : ∀ x ∈ l, x.addr ≠ a) : eraseBlk l a = l := by
  rw [eraseBlk]
  apply List.filter_eq_self.mpr
  intro x hx
  simpa using h x hx

theorem setFree_decomp (u v : List Blk) (b : Blk) (a : Nat) (f : Bool)
    (hb : b.addr = a)
    (hu : ∀ x ∈ u, x.addr ≠ a) (hv : ∀ x ∈ v, x.addr ≠ a) :
    setFree (u ++ b :: v) a f = u ++ { b with free := f } :: v := by
  rw [setFree, List.map_append, List.map_cons]
  rw [← setFree, ← setFree, setFree_noop u a f hu, setFree_noop v a f hv]
  have : (b.addr == a) = true := beq_iff_eq.mpr hb
  rw [this]
  rfl

theorem updLen_decomp (u v : List Blk) (b : Blk) (a : Nat) (l : Nat)
    (hb : b.addr = a)
    (hu : ∀ x ∈ u, x.addr ≠ a) (hv : ∀ x ∈ v, x.addr ≠ a) :
    updLen (u ++ b :: v) a l = u ++ { b with len := l } :: v := by
  rw [updLen, List.map_append, List.map_cons]
  rw [← updLen, ← updLen, updLen_noop u a l hu, updLen_noop v a l hv]
  have : (b.addr == a) = true := beq_iff_eq.mpr hb
  rw [this]
  rfl

theorem insertAfter_decomp (u v : List Blk) (b nb : Blk) (a : Nat)
    (hb : b.addr = a)
    (hu : ∀ x ∈ u, x.addr ≠ a) (hv : ∀ x ∈ v, x.addr ≠ a) :
    insertAfter (u ++ b :: v) a nb = u ++ b :: nb :: v := by
  rw [insertAfter, List.flatMap_append, List.flatMap_cons]
  rw [← insertAfter, ← insertAfter, insertAfter_noop u a nb hu,
    insertAfter_noop v a nb hv]
  have : (b.addr == a) = true := beq_iff_eq.mpr hb
  rw [this]
  rfl

theorem eraseBlk_decomp (u v : List Blk) (b : Blk) (a : Nat)
    (hb : b.addr = a)
    (hu : ∀ x ∈ u, x.addr ≠ a) (hv : ∀ x ∈ v, x.addr ≠ a) :
    eraseBlk (u ++ b :: v) a = u ++ v := by
  rw [eraseBlk, List.filter_append, List.filter_cons]
  rw [← eraseBlk, ← eraseBlk, eraseBlk_noop u a hu, eraseBlk_noop v a hv]
  have : (b.addr != a) = false := by simp [hb]
  rw [this]
  simp

theorem chainB_nil_iff (h stop x : Nat) : chainB h stop x [] = true ↔ x = stop := by
  simp [chainB]

theorem chainB_cons_iff (h stop x : Nat) (b : Blk) (bs : List Blk) :
    chainB h stop x (b :: bs) = true ↔
      b.addr = x ∧ chainB h stop (x + h + b.len) bs = true := by
  simp [chainB]

theorem chainB_append (h stop : Nat) (u w : List Blk) :
    ∀ x, (chainB h stop x (u ++ w) = true ↔
      ∃ y, chainB h y x u = true ∧ chainB h stop y w = true) := by
  induction u with
  | nil =>
    intro x
    constructor
    · intro hw
      exact ⟨x, (chainB_nil_iff h x x).mpr rfl, by simpa using hw⟩
    · rintro ⟨y, hy, hw⟩
      have : x = y := (chainB_nil_iff h y x).mp hy
      subst this
      simpa using hw
  | cons b rest ih =>
    intro x
    rw [List.cons_append]
    simp only [chainB_cons_iff]
    constructor
    · rintro ⟨haddr, hrest⟩
      obtain ⟨y, h1, h2⟩ := (ih (x + h + b.len)).mp hrest
      exact ⟨y, ⟨haddr, h1⟩, h2⟩
    · rintro ⟨y, ⟨haddr, h1⟩, h2⟩
      exact ⟨haddr, (ih (x + h + b.len)).mpr ⟨y, h1, h2⟩⟩

theorem chain_start_le_stop (h : Nat) (stop : Nat) :
    ∀ bs x, chainB h stop x bs = true → x ≤ stop := by
  intro bs
  induction bs with
  | nil => intro x hx; have := (chainB_nil_iff h stop x).mp hx; omega
  | cons b rest ih =>
    intro x hx
    obtain ⟨_, hrest⟩ := (chainB_cons_iff h stop x b rest).mp hx
    have := ih (x + h + b.len) hrest
    omega

theorem chain_mem_bounds (h stop : Nat) :
    ∀ bs x, chainB h stop x bs = true →
      ∀ b ∈ bs, x ≤ b.addr ∧ b.addr + h + b.len ≤ stop := by
  intro bs
  induction bs with
  | nil => intro x _ b hb; simp at hb
  | cons c rest ih =>
    intro x hx b hb
    obtain ⟨haddr, hrest⟩ := (chainB_cons_iff h stop x c rest).mp hx
    rcases List.mem_cons.mp hb with hb | hb
    · subst hb
      have := chain_start_le_stop h stop rest (x + h + b.len) hrest
      omega
    · have := ih (x + h + c.len) hrest b hb
      omega

theorem chain_pairwise_lt (h stop : Nat) :
    ∀ bs x, chainB h stop x bs = true → (∀ b ∈ bs, 0 < b.len) →
      bs.Pairwise (fun b c => b.addr < c.addr) := by
  intro bs
  induction bs with
  | nil => intro x _ _; exact List.Pairwise.nil
  | cons c rest ih =>
    intro x hx hlen
    obtain ⟨haddr, hrest⟩ := (chainB_cons_iff h stop x c rest).mp hx
    refine List.Pairwise.cons ?_ (ih (x + h + c.len) hrest
      (fun b hb => hlen b (List.mem_cons_of_mem c hb)))
    intro b hb
    have hge := (chain_mem_bounds h stop rest (x + h + c.len) hrest b hb).1
    have hcpos := hlen c (List.mem_cons_self c rest)
    omega

/-- Decompose the physical chain at the block found at address `a`:
the two chain halves and the fact that no other block carries `a`. -/
theorem chain_find_decomp (h stop x a : Nat) (bs : List Blk) (b : Blk)
    (hch : chainB h stop x bs = true)
    (hlen : ∀ c ∈ bs, 0 < c.len)
    (hfind : findBlk bs a = some b) :
    b.addr = a ∧ ∃ u v, bs = u ++ b :: v ∧
      (∀ c ∈ u, c.addr ≠ a) ∧ (∀ c ∈ v, c.addr ≠ a) ∧
      chainB h b.addr x u = true ∧
      chainB h stop (b.addr + h + b.len) v = true := by
  obtain ⟨haddr, u, v, hbs, hu⟩ := findBlk_decomp bs a b hfind
  subst hbs
  obtain ⟨y, hcu, hcv⟩ := (chainB_append h stop u (b :: v) x).mp hch
  obtain ⟨hby, hcv'⟩ := (chainB_cons_iff h stop y b v).mp hcv
  subst hby
  have hpw := chain_pairwise_lt h stop (u ++ b :: v) x hch hlen
  have hv : ∀ c ∈ v, c.addr ≠ a := by
    have h1 : (b :: v).Pairwise (fun b c => b.addr < c.addr) :=
      (List.pairwise_append.mp hpw).2.1
    have h2 : ∀ c ∈ v, b.addr < c.addr := (List.pairwise_cons.mp h1).1
    intro c hc
    have := h2 c hc
    omega
  exact ⟨haddr, u, v, rfl, hu, hv, hcu, hcv'⟩

theorem chain_reassemble (h stop x : Nat) (u v : List Blk) (c : Blk)
    (hcu : chainB h c.addr x u = true)
    (hcv : chainB h stop (c.addr + h + c.len) v = true) :
    chainB h stop x (u ++ c :: v) = true := by
  apply (chainB_append h stop u (c :: v) x).mpr
  exact ⟨c.addr, hcu, (chainB_cons_iff h stop c.addr c v).mpr ⟨rfl, hcv⟩⟩

theorem chain_reassemble_two (h stop x : Nat) (u v : List Blk) (c d : Blk)
    (hcu : chainB h c.addr x u = true)
    (hd : d.addr = c.addr + h + c.len)
    (hcv : chainB h stop (d.addr + h + d.len) v = true) :
    chainB h stop x (u ++ c :: d :: v) = true := by
  apply chain_reassemble h stop x u (d :: v) c hcu
  refine (chainB_cons_iff h stop (c.addr + h + c.len) d v).mpr ⟨hd, ?_⟩
  rw [← hd]
  exact hcv

theorem noAdjFree_iff_chain' (bs : List Blk) :
    noAdjFree bs = true ↔
      List.Chain' (fun b c : Blk => ¬(b.free = true ∧ c.free = true)) bs := by
  induction bs with
  | nil => simp [noAdjFree, List.chain'_nil]
  | cons b rest ih =>
    cases rest with
    | nil => simp [noAdjFree, List.chain'_singleton]
    | cons c rest' =>
      rw [noAdjFree, Bool.and_eq_true, List.chain'_cons, ih]
      constructor
      · rintro ⟨h1, h2⟩
        refine ⟨?_, h2⟩
        rintro ⟨hb, hc⟩
        rw [hb, hc] at h1
        simp at h1
      · rintro ⟨h1, h2⟩
        refine ⟨?_, h2⟩
        cases hb : b.free <;> cases hc : c.free <;> simp_all

theorem freeSum_append (u v : List Blk) :
    freeSum (u ++ v) = freeSum u + freeSum v := by
  simp [freeSum, List.filter_append]

theorem freeSum_cons (b : Blk) (bs : List Blk) :
    freeSum (b :: bs) = (if b.free then b.len else 0) + freeSum bs := by
  rw [freeSum, List.filter_cons]
  cases hb : b.free
  · simp [freeSum]
  · simp [freeSum]

theorem nextPhys_decomp (u : List Blk) (v : List Blk) (b : Blk) (a : Nat)
    (hb : b.addr = a) (hu : ∀ x ∈ u, x.addr ≠ a) :
    nextPhys (u ++ b :: v) a = v.head? := by
  induction u with
  | nil =>
    cases v with
    | nil => simp [nextPhys]
    | cons c rest =>
      have : (b.addr == a) = true := beq_iff_eq.mpr hb
      simp [nextPhys, this]
  | cons x u' ih =>
    have hx : (x.addr == a) = false :=
      beq_eq_false_iff_ne.mpr (hu x (List.mem_cons_self x u'))
    have hrest : u' ++ b :: v ≠ [] := by simp
    obtain ⟨c, rest, hcr⟩ := List.exists_cons_of_ne_nil hrest
    rw [List.cons_append, hcr, nextPhys, hx]
    simp only [Bool.false_eq_true, if_false]
    rw [← hcr]
    exact ih (fun y hy => hu y (List.mem_cons_of_mem x hy))

theorem prevPhys_decomp (u : List Blk) (v : List Blk) (b : Blk) (a : Nat)
    (hb : b.addr = a) (hu : ∀ x ∈ u, x.addr ≠ a) :
    prevPhys (u ++ b :: v) a = u.getLast? := by
  induction u with
  | nil =>
    cases v with
    | nil => simp [prevPhys, beq_iff_eq.mpr hb]
    | cons c rest => simp [prevPhys, beq_iff_eq.mpr hb]
  | cons x u' ih =>
    have hx : (x.addr == a) = false :=
      beq_eq_false_iff_ne.mpr (hu x (List.mem_cons_self x u'))
    cases hu' : u' with
    | nil =>
      have : (b.addr == a) = true := beq_iff_eq.mpr hb
      simp [prevPhys, hx, this]
    | cons y u'' =>
      have hy : (y.addr == a) = false := by
        apply beq_eq_false_iff_ne.mpr
        apply hu y
        apply List.mem_cons_of_mem x
        rw [hu']
        exact List.mem_cons_self y u''
      rw [List.cons_append, List.cons_append, prevPhys, hx]
      simp only [Bool.false_eq_true, if_false]
      rw [hy]
      simp only [Bool.false_eq_true, if_false]
      have hih := ih (fun z hz => hu z (List.mem_cons_of_mem x hz))
      rw [hu'] at hih
      rw [List.cons_append] at hih
      rw [hih]
      simp [List.getLast?_cons_cons]

/-! ## State-level utilities -/

theorem mem_setFree_of_ne (bs : List Blk) (a : Nat) (f : Bool) (b : Blk)
    (hb : b ∈ bs) (hne : b.addr ≠ a) : b ∈ setFree bs a f := by
  rw [setFree]
  have : b = (fun c => if c.addr == a then { c with free := f } else c) b := by
    have : (b.addr == a) = false := beq_eq_false_iff_ne.mpr hne
    simp [this]
  rw [this]
  exact List.mem_map_of_mem _ hb

theorem mem_setFree_elim (bs : List Blk) (a : Nat) (f : Bool) (c : Blk)
    (hc : c ∈ setFree bs a f) :
    ∃ b ∈ bs, (b.addr = a ∧ c = { b with free := f }) ∨ (b.addr ≠ a ∧ c = b) := by
  rw [setFree] at hc
  obtain ⟨b, hb, hbc⟩ := List.mem_map.mp hc
  refine ⟨b, hb, ?_⟩
  by_cases hba : b.addr = a
  · left
    refine ⟨hba, ?_⟩
    have : (b.addr == a) = true := beq_iff_eq.mpr hba
    rw [this] at hbc
    simp at hbc
    exact hbc.symm
  · right
    refine ⟨hba, ?_⟩
    have : (b.addr == a) = false := beq_eq_false_iff_ne.mpr hba
    rw [this] at hbc
    simp at hbc
    exact hbc.symm

theorem chainB_setFree (h stop : Nat) (a : Nat) (f : Bool) :
    ∀ bs x, chainB h stop x (setFree bs a f) = chainB h stop x bs := by
  intro bs
  induction bs with
  | nil => intro x; rfl
  | cons c rest ih =>
    intro x
    rw [setFree, List.map_cons, ← setFree]
    by_cases hc : c.addr = a
    · have hb : (c.addr == a) = true := beq_iff_eq.mpr hc
      rw [hb]
      show chainB h stop x ({ c with free := f } :: setFree rest a f) = _
      rw [chainB, chainB]
      simp only
      rw [ih]
    · have hb : (c.addr == a) = false := beq_eq_false_iff_ne.mpr hc
      rw [hb]
      show chainB h stop x (c :: setFree rest a f) = _
      rw [chainB, chainB, ih]

theorem setFree_ne_nil (bs : List Blk) (a : Nat) (f : Bool) (h : bs ≠ []) :
    setFree bs a f ≠ [] := by
  rw [setFree]
  simpa using h

theorem noAdjFree_map_mono (g : Blk → Blk)
    (hg : ∀ b, (g b).free = true → b.free = true) :
    ∀ bs, noAdjFree bs = true → noAdjFree (bs.map g) = true := by
  intro bs
  induction bs with
  | nil => intro; rfl
  | cons b rest ih =>
    cases rest with
    | nil => intro; rfl
    | cons c rest' =>
      intro hn
      rw [noAdjFree, Bool.and_eq_true] at hn
      rw [List.map_cons, List.map_cons, noAdjFree, Bool.and_eq_true]
      refine ⟨?_, ih hn.2⟩
      cases hgb : (g b).free
      · simp
      · cases hgc : (g c).free
        · simp
        · have h1 := hg b hgb
          have h2 := hg c hgc
          rw [h1, h2] at hn
          simp at hn

theorem noadj_setFree_false (bs : List Blk) (a : Nat)
    (h : noAdjFree bs = true) : noAdjFree (setFree bs a false) = true := by
  rw [setFree]
  apply noAdjFree_map_mono _ _ bs h
  intro b hb
  by_cases hba : (b.addr == a) = true
  · rw [hba] at hb; simp at hb
  · rw [Bool.not_eq_true] at hba
    rw [hba] at hb
    exact hb

theorem freeSum_setFree_false (u v : List Blk) (b : Blk) (a : Nat)
    (hb : b.addr = a) (hfree : b.free = true)
    (hu : ∀ x ∈ u, x.addr ≠ a) (hv : ∀ x ∈ v, x.addr ≠ a) :
    freeSum (setFree (u ++ b :: v) a false) = freeSum (u ++ b :: v) - b.len ∧
      b.len ≤ freeSum (u ++ b :: v) := by
  rw [setFree_decomp u v b a false hb hu hv]
  rw [freeSum_append, freeSum_append, freeSum_cons, freeSum_cons, hfree]
  simp only [if_pos, if_neg, Bool.false_eq_true, if_false, if_true]
  omega

theorem findBlk_of_mem_pw (bs : List Blk) (b : Blk)
    (hpw : bs.Pairwise (fun x y => x.addr < y.addr)) (hb : b ∈ bs) :
    findBlk bs b.addr = some b := by
  induction bs with
  | nil => simp at hb
  | cons c rest ih =>
    rcases List.mem_cons.mp hb with hb | hb
    · subst hb
      rw [findBlk, List.find?]
      simp
    · have hlt : c.addr < b.addr := (List.pairwise_cons.mp hpw).1 b hb
      rw [findBlk, List.find?]
      have : (c.addr == b.addr) = false := beq_eq_false_iff_ne.mpr (by omega)
      rw [this]
      exact ih (List.pairwise_cons.mp hpw).2 hb

theorem erase_ne_nil_of_not_last (l : List Nat) (a : Nat)
    (hmem : a ∈ l) (hlast : l.getLast? ≠ some a) : l.erase a ≠ [] := by
  cases l with
  | nil => simp at hmem
  | cons x rest =>
    cases rest with
    | nil =>
      rcases List.mem_singleton.mp hmem with rfl
      simp at hlast
    | cons y rest' =>
      intro hcon
      have hlen := List.length_erase_of_mem hmem
      rw [hcon] at hlen
      simp at hlen

theorem sameShape_refl (t : TLSF) : SameShape t t := ⟨rfl, rfl, rfl⟩

theorem sameShape_trans (t1 t2 t3 : TLSF)
    (h1 : SameShape t1 t2) (h2 : SameShape t2 t3) : SameShape t1 t3 := by
  obtain ⟨a1, b1, c1⟩ := h1
  obtain ⟨a2, b2, c2⟩ := h2
  exact ⟨a2.trans a1, b2.trans b1, c2.trans c1⟩

theorem inv_len_facts (t : TLSF) (hinv : TlsfInv t) (b : Blk)
    (hb : b ∈ t.blocks) : 32 ≤ b.len ∧ b.len < W64 := by
  have h1 := (hinv.lens b hb).1
  rw [TLSF_MBS] at h1
  have h2 := (chain_mem_bounds t.blk_hdr_len (t.baseptr + t.size)
    t.blocks t.baseptr hinv.chain b hb).2
  have h3 := hinv.endlt
  exact ⟨h1, by omega⟩

theorem inv_lens_pos (t : TLSF) (hinv : TlsfInv t) :
    ∀ c ∈ t.blocks, 0 < c.len := by
  intro c hc
  have := (inv_len_facts t hinv c hc).1
  omega

theorem inv_pairwise (t : TLSF) (hinv : TlsfInv t) :
    t.blocks.Pairwise (fun x y => x.addr < y.addr) :=
  chain_pairwise_lt t.blk_hdr_len (t.baseptr + t.size) t.blocks t.baseptr
    hinv.chain (inv_lens_pos t hinv)

theorem mem_addr_inj (bs : List Blk)
    (hpw : bs.Pairwise (fun x y => x.addr < y.addr)) :
    ∀ b1 ∈ bs, ∀ b2 ∈ bs, b1.addr = b2.addr → b1 = b2 := by
  induction bs with
  | nil => intro b1 h1; simp at h1
  | cons c rest ih =>
    intro b1 h1 b2 h2 heq
    obtain ⟨hc, hrest⟩ := List.pairwise_cons.mp hpw
    rcases List.mem_cons.mp h1 with rfl | h1'
    · rcases List.mem_cons.mp h2 with rfl | h2'
      · rfl
      · have := hc b2 h2'
        omega
    · rcases List.mem_cons.mp h2 with rfl | h2'
      · have := hc b1 h1'
        omega
      · exact ih hrest b1 h1' b2 h2' heq

/-- Anatomy and invariant preservation of `remove_block` on an explicit
free target. -/
theorem remove_block_target (t : TLSF) (hinv : TlsfInv t) (a : Nat) (b : Blk)
    (fl sl : Nat) (hfl : get_mapping b.len = (fl, sl))
    (hfind : findBlk t.blocks a = some b) (hfree : b.free = true) :
    (remove_block t (some a) fl sl).2 = some a ∧
    (remove_block t (some a) fl sl).1.blocks = setFree t.blocks a false ∧
    (remove_block t (some a) fl sl).1.free = t.free - b.len ∧
    b.len ≤ t.free ∧
    SameShape t (remove_block t (some a) fl sl).1 ∧
    (remove_block t (some a) fl sl).1.smap fl sl = (t.smap fl sl).erase a ∧
    (∀ f s, ¬(f = fl ∧ s = sl) →
      (remove_block t (some a) fl sl).1.smap f s = t.smap f s) ∧
    TlsfInv (remove_block t (some a) fl sl).1 := by
  have hbmem : b ∈ t.blocks := findBlk_mem t.blocks a b hfind
  obtain ⟨hb32, hbW⟩ := inv_len_facts t hinv b hbmem
  have hbounds := get_mapping_bounds b.len hb32 hbW
  rw [hfl] at hbounds
  obtain ⟨hfl5, hfl64, hsl32⟩ := hbounds
  obtain ⟨hba, u, v, hbs, hu, hv, hcu, hcv⟩ :=
    chain_find_decomp t.blk_hdr_len (t.baseptr + t.size) t.baseptr a
      t.blocks b hinv.chain (inv_lens_pos t hinv) hfind
  have hpw := inv_pairwise t hinv
  have hmem_a : a ∈ t.smap fl sl := by
    have hf := hinv.freein b hbmem hfree
    rw [hfl] at hf
    simpa [hba] using hf
  obtain ⟨hbit2, hnodup, hmapinv⟩ := hinv.cells fl hfl64 sl hsl32
  -- explicit shape of the result
  have hshape : remove_block t (some a) fl sl =
      ({ t with
          blocks := setFree t.blocks a false
          smap := updMap t.smap fl sl ((t.smap fl sl).erase a)
          free := t.free - b.len
          l2_free := updL2 t.l2_free fl
            (if (t.smap fl sl).getLast? == some a then
              t.l2_free fl &&& (W64 - 1 - (1 <<< sl))
            else t.l2_free fl)
          l1_free :=
            (if ((t.smap fl sl).getLast? == some a) ∧
                (if (t.smap fl sl).getLast? == some a then
                  t.l2_free fl &&& (W64 - 1 - (1 <<< sl))
                else t.l2_free fl) = 0 then
              t.l1_free &&& (W64 - 1 - (1 <<< fl))
            else t.l1_free) }, some a) := by
    rw [remove_block]
    simp only [hfind]
  rw [hshape]
  simp only
  -- abbreviations
  set lst := t.smap fl sl with hlst
  set l2n : Nat := if lst.getLast? == some a then
      t.l2_free fl &&& (W64 - 1 - (1 <<< sl)) else t.l2_free fl with hl2n
  set l1n : Nat := if (lst.getLast? == some a) ∧ l2n = 0 then
      t.l1_free &&& (W64 - 1 - (1 <<< fl)) else t.l1_free with hl1n
  have hl2nle : l2n ≤ t.l2_free fl := by
    rw [hl2n]
    split
    · exact Nat.and_le_left
    · exact Nat.le_refl _
  have hl1nle : l1n ≤ t.l1_free := by
    rw [hl1n]
    split
    · exact Nat.and_le_left
    · exact Nat.le_refl _
  have hsum : freeSum (setFree t.blocks a false) = freeSum t.blocks - b.len ∧
      b.len ≤ freeSum t.blocks := by
    rw [hbs]
    exact freeSum_setFree_false u v b a hba hfree hu hv
  have hctr := hinv.ctr
  -- l2 bit transfer
  have hl2bit : ∀ f s, f < 64 → s < 32 →
      ((updL2 t.l2_free fl l2n) f).testBit s = true →
      (t.l2_free f).testBit s = true ∧
        ¬(lst.getLast? = some a ∧ f = fl ∧ s = sl) := by
    intro f s hf hs hbit
    simp only [updL2] at hbit
    by_cases hffl : f = fl
    · subst hffl
      rw [if_pos rfl] at hbit
      by_cases hq : lst.getLast? = some a
      · rw [hl2n, if_pos (beq_iff_eq.mpr hq)] at hbit
        rw [Nat.testBit_and, testBit_clearMask sl s (by omega),
          Bool.and_eq_true] at hbit
        obtain ⟨h1, h2⟩ := hbit
        simp at h2
        refine ⟨h1, ?_⟩
        rintro ⟨_, _, rfl⟩
        omega
      · rw [hl2n, if_neg (by simpa using hq)] at hbit
        exact ⟨hbit, by rintro ⟨hq', _, _⟩; exact hq hq'⟩
    · rw [if_neg hffl] at hbit
      exact ⟨hbit, by rintro ⟨_, rfl, _⟩; exact hffl rfl⟩
  refine ⟨by trivial, by trivial, by trivial, ?_, ⟨rfl, rfl, rfl⟩, ?_, ?_, ?_⟩
  · rw [hctr]; exact hsum.2
  · simp [updMap]
  · intro f s hne
    simp only [updMap, if_neg hne]
  refine ⟨hinv.mode, hinv.szlt, hinv.endlt, ?_, ?_, ?_, ?_, ?_, ?_, ?_, ?_, ?_, ?_⟩
  · exact setFree_ne_nil t.blocks a false hinv.nonnil
  · rw [chainB_setFree]
    exact hinv.chain
  · intro c hc
    obtain ⟨b0, hb0, hcase⟩ := mem_setFree_elim t.blocks a false c hc
    have hl := hinv.lens b0 hb0
    rcases hcase with ⟨_, rfl⟩ | ⟨_, rfl⟩
    · exact hl
    · exact hl
  · exact noadj_setFree_false t.blocks a hinv.noadj
  · rw [hctr, hsum.1]
  · exact Nat.lt_of_le_of_lt hl1nle hinv.l1lt
  · intro f hf
    have h1 := hinv.l2lt f hf
    simp only [updL2]
    by_cases hffl : f = fl
    · subst hffl
      rw [if_pos rfl]
      exact Nat.lt_of_le_of_lt hl2nle h1
    · rw [if_neg hffl]
      exact h1
  · -- bit1
    intro f hf hbit
    simp only [updL2]
    by_cases hffl : f = fl
    · subst hffl
      rw [if_pos rfl]
      intro h0
      rw [hl1n] at hbit
      by_cases hc : (lst.getLast? == some a) ∧ l2n = 0
      · rw [if_pos hc] at hbit
        rw [Nat.testBit_and, testBit_clearMask f f (by omega),
          Bool.and_eq_true] at hbit
        simp at hbit
      · rw [if_neg hc] at hbit
        exact hc ⟨by
          by_contra hql
          -- if not last, l2n = l2 and l2 bit for f is nonzero via bit1? no:
          -- directly: l2n = t.l2_free f, but h0 : l2n = 0 and bit1 gives ≠ 0
          rw [hl2n, if_neg hql] at h0
          exact hinv.bit1 f hf hbit h0, h0⟩
    · rw [if_neg hffl]
      have hl1b : t.l1_free.testBit f = true := by
        rw [hl1n] at hbit
        by_cases hc : (lst.getLast? == some a) ∧ l2n = 0
        · rw [if_pos hc] at hbit
          rw [Nat.testBit_and, testBit_clearMask fl f (by omega),
            Bool.and_eq_true] at hbit
          exact hbit.1
        · rw [if_neg hc] at hbit
          exact hbit
      exact hinv.bit1 f hf hl1b
  · -- cells
    intro f' hf' s' hs'
    refine ⟨?_, ?_, ?_⟩
    · intro hbit
      obtain ⟨hold, hnl⟩ := hl2bit f' s' hf' hs' hbit
      by_cases hcell : f' = fl ∧ s' = sl
      · obtain ⟨rfl, rfl⟩ := hcell
        simp only [updMap, and_self, if_true]
        have hlast : lst.getLast? ≠ some a := by
          intro hcon
          exact hnl ⟨hcon, rfl, rfl⟩
        exact erase_ne_nil_of_not_last lst a hmem_a hlast
      · simp only [updMap]
        rw [if_neg hcell]
        exact (hinv.cells f' hf' s' hs').1 hold
    · by_cases hcell : f' = fl ∧ s' = sl
      · obtain ⟨rfl, rfl⟩ := hcell
        simp only [updMap, and_self, if_true]
        exact hnodup.erase a
      · simp only [updMap]
        rw [if_neg hcell]
        exact (hinv.cells f' hf' s' hs').2.1
    · intro a' ha'
      by_cases hcell : f' = fl ∧ s' = sl
      · obtain ⟨rfl, rfl⟩ := hcell
        simp only [updMap, and_self, if_true] at ha'
        obtain ⟨hne', hmem'⟩ := (List.Nodup.mem_erase_iff hnodup).mp ha'
        obtain ⟨b', hb'mem, hb'addr, hb'free, hb'cell⟩ := hmapinv a' hmem'
        exact ⟨b', mem_setFree_of_ne _ _ _ _ hb'mem (by omega), hb'addr,
          hb'free, hb'cell⟩
      · simp only [updMap] at ha'
        rw [if_neg hcell] at ha'
        obtain ⟨b', hb'mem, hb'addr, hb'free, hb'cell⟩ :=
          (hinv.cells f' hf' s' hs').2.2 a' ha'
        have hne' : a' ≠ a := by
          intro hcon
          subst hcon
          have hbb : b' = b := mem_addr_inj t.blocks hpw b' hb'mem b hbmem
            (by rw [hb'addr, hba])
          subst hbb
          rw [hfl] at hb'cell
          have h1 : fl = f' ∧ sl = s' := by
            have hp := hb'cell
            simp [Prod.ext_iff] at hp
            exact hp
          exact hcell ⟨h1.1.symm, h1.2.symm⟩
        exact ⟨b', mem_setFree_of_ne _ _ _ _ hb'mem (by omega), hb'addr,
          hb'free, hb'cell⟩
  · -- freein
    intro c hc hcfree
    obtain ⟨b0, hb0, hcase⟩ := mem_setFree_elim t.blocks a false c hc
    rcases hcase with ⟨hb0a, hc0⟩ | ⟨hb0a, hc0⟩
    · rw [hc0] at hcfree
      simp at hcfree
    · rw [hc0] at hcfree ⊢
      have hold := hinv.freein b0 hb0 hcfree
      by_cases hcell : (get_mapping b0.len).1 = fl ∧ (get_mapping b0.len).2 = sl
      · obtain ⟨h1, h2⟩ := hcell
        rw [h1, h2] at hold ⊢
        simp only [updMap, and_self, if_true]
        exact (List.Nodup.mem_erase_iff hnodup).mpr ⟨hb0a, hold⟩
      · simp only [updMap]
        rw [if_neg hcell]
        exact hold

theorem setFree_id (bs : List Blk) (a : Nat) (f : Bool)
    (h : ∀ c ∈ bs, c.addr = a → c.free = f) : setFree bs a f = bs := by
  rw [setFree]
  induction bs with
  | nil => rfl
  | cons c rest ih =>
    rw [List.map_cons, ih (fun x hx hxa => h x (List.mem_cons_of_mem c hx) hxa)]
    by_cases hc : c.addr = a
    · have hcf := h c (List.mem_cons_self c rest) hc
      have : (c.addr == a) = true := beq_iff_eq.mpr hc
      rw [this]
      simp only [if_true]
      rw [← hcf]
    · have : (c.addr == a) = false := beq_eq_false_iff_ne.mpr hc
      rw [this]
      rfl

theorem nextPhys_mem : ∀ (bs : List Blk) (a : Nat) (nb : Blk),
    nextPhys bs a = some nb → nb ∈ bs := by
  intro bs
  induction bs with
  | nil => intro a nb h; simp [nextPhys] at h
  | cons c rest ih =>
    intro a nb h
    cases rest with
    | nil => simp [nextPhys] at h
    | cons d rest' =>
      rw [nextPhys] at h
      by_cases hc : (c.addr == a) = true
      · rw [if_pos hc] at h
        simp at h
        subst h
        exact List.mem_cons_of_mem c (List.mem_cons_self d rest')
      · rw [if_neg hc] at h
        exact List.mem_cons_of_mem c (ih a nb h)

/-- In an invariant state, the physical successor of the block at `a`
is physically adjacent, and the two are not both free. -/
theorem inv_next_facts (t : TLSF) (hinv : TlsfInv t) (a : Nat) (b nb : Blk)
    (hfind : findBlk t.blocks a = some b)
    (hnext : nextPhys t.blocks a = some nb) :
    nb.addr = b.addr + t.blk_hdr_len + b.len ∧
      ¬(b.free = true ∧ nb.free = true) ∧ findBlk t.blocks nb.addr = some nb := by
  obtain ⟨hba, u, v, hbs, hu, hv, hcu, hcv⟩ :=
    chain_find_decomp t.blk_hdr_len (t.baseptr + t.size) t.baseptr a
      t.blocks b hinv.chain (inv_lens_pos t hinv) hfind
  have hnv : nextPhys t.blocks a = v.head? := by
    rw [hbs]
    exact nextPhys_decomp u v b a hba hu
  rw [hnv] at hnext
  cases v with
  | nil => simp at hnext
  | cons c w =>
    have hcnb : nb = c := by
      simp at hnext
      exact hnext.symm
    subst hcnb
    obtain ⟨hcaddr, _⟩ := (chainB_cons_iff _ _ _ _ _).mp hcv
    have hnoadj := hinv.noadj
    rw [hbs, noAdjFree_iff_chain'] at hnoadj
    obtain ⟨_, hcbv, _⟩ := List.chain'_append.mp hnoadj
    have hpair := (List.chain'_cons.mp hcbv).1
    refine ⟨hcaddr, hpair, ?_⟩
    apply findBlk_of_mem_pw t.blocks _ (inv_pairwise t hinv)
    rw [hbs]
    simp

theorem inv_prev_not_both_free (t : TLSF) (hinv : TlsfInv t) (a : Nat)
    (b pb : Blk) (hfind : findBlk t.blocks a = some b)
    (hprev : prevPhys t.blocks a = some pb) :
    ¬(pb.free = true ∧ b.free = true) := by
  obtain ⟨hba, u, v, hbs, hu, hv, hcu, hcv⟩ :=
    chain_find_decomp t.blk_hdr_len (t.baseptr + t.size) t.baseptr a
      t.blocks b hinv.chain (inv_lens_pos t hinv) hfind
  have hpv : prevPhys t.blocks a = u.getLast? := by
    rw [hbs]
    exact prevPhys_decomp u v b a hba hu
  rw [hpv] at hprev
  have hnoadj := hinv.noadj
  rw [hbs, noAdjFree_iff_chain'] at hnoadj
  obtain ⟨_, _, hlink⟩ := List.chain'_append.mp hnoadj
  exact hlink pb hprev b (by simp)

/-- Invariant preservation for the structural phase of a merge:
the first block's length is extended and the second block's header is
destroyed.  `t2` is the state after both blocks have left the segregated
lists. -/
theorem merge_phase2 (t2 : TLSF) (hinv2 : TlsfInv t2) (a a2 newLen : Nat)
    (u w : List Blk) (bF b2F : Blk)
    (hblocks : t2.blocks = u ++ bF :: b2F :: w)
    (haF : bF.addr = a) (ha2F : b2F.addr = a2)
    (hfF : bF.free = false) (hf2F : b2F.free = false)
    (hadj : b2F.addr = bF.addr + t2.blk_hdr_len + bF.len)
    (hnew : newLen = bF.len + t2.blk_hdr_len + b2F.len) :
    let t' : TLSF := { t2 with blocks := eraseBlk (updLen t2.blocks a newLen) a2 }
    t'.blocks = u ++ { bF with len := newLen } :: w ∧
    TlsfInv t' := by
  intro t'
  have hpw := inv_pairwise t2 hinv2
  rw [hblocks] at hpw
  -- u-side and w-side addresses differ from a and a2
  have haa2 : a < a2 := by
    have h1 : bF.addr < b2F.addr := by
      have := List.pairwise_append.mp hpw
      exact (List.pairwise_cons.mp this.2.1).1 b2F (by simp)
    omega
  have hu2 : ∀ x ∈ u, x.addr ≠ a ∧ x.addr ≠ a2 := by
    intro x hx
    have h1 := (List.pairwise_append.mp hpw).2.2 x hx bF (by simp)
    have h2 := (List.pairwise_append.mp hpw).2.2 x hx b2F (by simp)
    omega
  have hw2 : ∀ x ∈ w, x.addr ≠ a ∧ x.addr ≠ a2 := by
    intro x hx
    have hcons := (List.pairwise_append.mp hpw).2.1
    have h1 := (List.pairwise_cons.mp hcons).1 x (List.mem_cons_of_mem b2F hx)
    have h2 := (List.pairwise_cons.mp (List.pairwise_cons.mp hcons).2).1 x hx
    omega
  -- the shape of the final block list
  have hshape : eraseBlk (updLen t2.blocks a newLen) a2 =
      u ++ { bF with len := newLen } :: w := by
    rw [hblocks]
    have h1 : updLen (u ++ bF :: b2F :: w) a newLen =
        u ++ { bF with len := newLen } :: b2F :: w :=
      updLen_decomp u (b2F :: w) bF a newLen haF
        (fun x hx => (hu2 x hx).1)
        (by
          intro x hx
          rcases List.mem_cons.mp hx with rfl | hx'
          · omega
          · exact (hw2 x hx').1)
    rw [h1]
    have h2 : eraseBlk (u ++ { bF with len := newLen } :: b2F :: w) a2 =
        (u ++ [{ bF with len := newLen }]) ++ w := by
      have := eraseBlk_decomp (u ++ [{ bF with len := newLen }]) w b2F a2 ha2F
        (by
          intro x hx
          rcases List.mem_append.mp hx with hx' | hx'
          · exact (hu2 x hx').2
          · rcases List.mem_singleton.mp hx' with rfl
            simp only
            omega)
        (fun x hx => (hw2 x hx).2)
      rw [← this]
      congr 1
      simp
    rw [h2]
    simp
  -- chain pieces of t2
  have hch := hinv2.chain
  rw [hblocks] at hch
  obtain ⟨y, hcu, hcv⟩ :=
    (chainB_append t2.blk_hdr_len (t2.baseptr + t2.size) u (bF :: b2F :: w)
      t2.baseptr).mp hch
  obtain ⟨hby, hcv1⟩ := (chainB_cons_iff _ _ _ _ _).mp hcv
  obtain ⟨hb2y, hcv2⟩ := (chainB_cons_iff _ _ _ _ _).mp hcv1
  refine ⟨hshape, ?_⟩
  refine ⟨hinv2.mode, hinv2.szlt, hinv2.endlt, ?_, ?_, ?_, ?_, ?_,
    hinv2.l1lt, hinv2.l2lt, hinv2.bit1, ?_, ?_⟩
  · show eraseBlk (updLen t2.blocks a newLen) a2 ≠ []
    rw [hshape]
    simp
  · show chainB _ _ _ (eraseBlk (updLen t2.blocks a newLen) a2) = true
    rw [hshape]
    apply chain_reassemble t2.blk_hdr_len (t2.baseptr + t2.size) t2.baseptr u w
    · simpa using hby ▸ hcu
    · show chainB _ _ ({ bF with len := newLen }.addr + t2.blk_hdr_len +
        { bF with len := newLen }.len) w = true
      simp only
      have : bF.addr + t2.blk_hdr_len + newLen =
          b2F.addr + t2.blk_hdr_len + b2F.len := by
        rw [hnew]
        omega
      rw [this]
      have hb2ad : b2F.addr = y + t2.blk_hdr_len + bF.len := by
        rw [hadj, hby]
      rw [hb2ad]
      exact hcv2
  · -- lengths
    intro c hc
    change c ∈ eraseBlk (updLen t2.blocks a newLen) a2 at hc
    show lenOk t2.blk_hdr_len c
    rw [hshape] at hc
    rcases List.mem_append.mp hc with hc' | hc'
    · exact hinv2.lens c (by rw [hblocks]; exact List.mem_append_left _ hc')
    · rcases List.mem_cons.mp hc' with rfl | hc''
      · have hl1 := hinv2.lens bF (by rw [hblocks]; simp)
        have hl2 := hinv2.lens b2F (by rw [hblocks]; simp)
        obtain ⟨ha1, hb1, hc1⟩ := hl1
        obtain ⟨ha2', hb2', hc2'⟩ := hl2
        refine ⟨?_, ?_, ?_⟩
        · show TLSF_MBS ≤ newLen
          rw [hnew]
          rw [TLSF_MBS] at *
          omega
        · show newLen % TLSF_BLKHDR_LEN = 0
          rw [hnew]
          rcases hinv2.mode with hm | hm <;>
            rw [hm] <;> rw [TLSF_BLKHDR_LEN] at * <;> omega
        · intro hz
          show newLen % TLSF_MBS = 0
          rw [hnew, hz]
          have := hc1 hz
          have := hc2' hz
          rw [TLSF_MBS] at *
          omega
      · exact hinv2.lens c (by rw [hblocks]; simp [hc''])
  · -- no adjacent free
    show noAdjFree (eraseBlk (updLen t2.blocks a newLen) a2) = true
    rw [hshape]
    have hna := hinv2.noadj
    rw [hblocks] at hna
    rw [noAdjFree_iff_chain'] at hna ⊢
    obtain ⟨hcu', hcbv, hlink⟩ := List.chain'_append.mp hna
    apply List.chain'_append.mpr
    refine ⟨hcu', ?_, ?_⟩
    · apply List.chain'_cons'.mpr
      constructor
      · intro y' hy'
        rintro ⟨hf, _⟩
        simp only at hf
        rw [hfF] at hf
        exact Bool.false_ne_true hf
      · exact (List.chain'_cons'.mp (List.chain'_cons'.mp hcbv).2).2
    · intro x hx y' hy'
      simp only [List.head?_cons, Option.mem_def, Option.some.injEq] at hy'
      subst hy'
      rintro ⟨_, hf⟩
      simp only at hf
      rw [hfF] at hf
      exact Bool.false_ne_true hf
  · -- counter
    show t2.free = freeSum (eraseBlk (updLen t2.blocks a newLen) a2)
    rw [hshape, hinv2.ctr, hblocks]
    rw [freeSum_append, freeSum_append, freeSum_cons, freeSum_cons,
      freeSum_cons, hfF, hf2F]
    simp
  · -- cells
    intro f hf s hs
    obtain ⟨hbit2, hnodup, hmapinv⟩ := hinv2.cells f hf s hs
    refine ⟨hbit2, hnodup, ?_⟩
    intro a' ha'
    obtain ⟨b', hb'mem, hb'addr, hb'free, hb'cell⟩ := hmapinv a' ha'
    refine ⟨b', ?_, hb'addr, hb'free, hb'cell⟩
    show b' ∈ eraseBlk (updLen t2.blocks a newLen) a2
    rw [hshape]
    rw [hblocks] at hb'mem
    rcases List.mem_append.mp hb'mem with h' | h'
    · exact List.mem_append_left _ h'
    · rcases List.mem_cons.mp h' with rfl | h''
      · rw [hb'free] at hfF
        simp at hfF
      · rcases List.mem_cons.mp h'' with rfl | h''' 
        · rw [hb'free] at hf2F
          simp at hf2F
        · exact List.mem_append_right _ (List.mem_cons_of_mem _ h''')
  · -- freein
    intro c hc hcfree
    change c ∈ eraseBlk (updLen t2.blocks a newLen) a2 at hc
    show c.addr ∈ t2.smap (get_mapping c.len).1 (get_mapping c.len).2
    apply hinv2.freein c _ hcfree
    rw [hblocks]
    rw [hshape] at hc
    rcases List.mem_append.mp hc with h' | h'
    · exact List.mem_append_left _ h'
    · rcases List.mem_cons.mp h' with rfl | h''
      · rw [hcfree] at hfF
        simp at hfF
      · simp [h'']

theorem blk_set_free_self (b : Blk) (f : Bool) (h : b.free = f) :
    { b with free := f } = b := by
  cases b
  simp only at h
  rw [h]

theorem merge_from_t2 (t T2 : TLSF) (a a2 : Nat) (b b2 : Blk)
    (u w : List Blk)
    (hinv2 : TlsfInv T2) (hsh : SameShape t T2)
    (hM : merge_blocks t a a2 =
      { T2 with blocks := eraseBlk (updLen T2.blocks a
          ((b.len + t.blk_hdr_len + b2.len) % W64)) a2 })
    (hblocks : T2.blocks =
      u ++ { b with free := false } :: { b2 with free := false } :: w)
    (hba : b.addr = a) (hb2a : b2.addr = a2)
    (hadj : b2.addr = b.addr + t.blk_hdr_len + b.len)
    (hfree2 : T2.free = t.free -
      ((if b.free then b.len else 0) + (if b2.free then b2.len else 0)))
    (hprevT : prevPhys t.blocks a = u.getLast?)
    (hnextT : nextPhys t.blocks a2 = w.head?)
    (hnlW : b.len + t.blk_hdr_len + b2.len < W64) :
    SameShape t (merge_blocks t a a2) ∧
    (merge_blocks t a a2).free = t.free -
      ((if b.free then b.len else 0) + (if b2.free then b2.len else 0)) ∧
    findBlk (merge_blocks t a a2).blocks a =
      some ⟨b.addr, b.len + t.blk_hdr_len + b2.len, false⟩ ∧
    prevPhys (merge_blocks t a a2).blocks a = prevPhys t.blocks a ∧
    nextPhys (merge_blocks t a a2).blocks a = nextPhys t.blocks a2 ∧
    TlsfInv (merge_blocks t a a2) := by
  have hmod : (b.len + t.blk_hdr_len + b2.len) % W64 =
      b.len + t.blk_hdr_len + b2.len := Nat.mod_eq_of_lt hnlW
  obtain ⟨hsh1, hsh2, hsh3⟩ := hsh
  have hph := merge_phase2 T2 hinv2 a a2 (b.len + t.blk_hdr_len + b2.len)
    u w { b with free := false } { b2 with free := false } hblocks
    (by simpa using hba) (by simpa using hb2a) rfl rfl
    (by simp only; rw [hsh3]; exact hadj)
    (by simp only; rw [hsh3])
  obtain ⟨hblocks', hinv'⟩ := hph
  have hMeq : merge_blocks t a a2 =
      { T2 with blocks := eraseBlk (updLen T2.blocks a
          (b.len + t.blk_hdr_len + b2.len)) a2 } := by
    rw [hM, hmod]
  have hblocksF : (merge_blocks t a a2).blocks =
      u ++ ⟨b.addr, b.len + t.blk_hdr_len + b2.len, false⟩ :: w := by
    rw [hMeq]
    exact hblocks'
  -- u-addresses are below a
  have hpw2 := inv_pairwise T2 hinv2
  rw [hblocks] at hpw2
  have huA : ∀ x ∈ u, x.addr ≠ a := by
    intro x hx
    have := (List.pairwise_append.mp hpw2).2.2 x hx { b with free := false }
      (by simp)
    simp only at this
    omega
  refine ⟨?_, ?_, ?_, ?_, ?_, ?_⟩
  · rw [hMeq]
    exact ⟨hsh1, hsh2, hsh3⟩
  · rw [hMeq]
    exact hfree2
  · rw [hblocksF]
    have hinvF : TlsfInv (merge_blocks t a a2) := by
      rw [hMeq]; exact hinv'
    have hpwF := inv_pairwise _ hinvF
    rw [hblocksF] at hpwF
    rw [← hba]
    exact findBlk_of_mem_pw _ ⟨b.addr, b.len + t.blk_hdr_len + b2.len, false⟩
      hpwF (by simp)
  · rw [hblocksF, hprevT]
    exact prevPhys_decomp u w _ a hba huA
  · rw [hblocksF, hnextT]
    exact nextPhys_decomp u w _ a hba huA
  · rw [hMeq]
    exact hinv'

/-- `merge_blocks` on a block and its physical successor: anatomy and
invariant preservation. -/
theorem merge_blocks_inv (t : TLSF) (hinv : TlsfInv t) (a a2 : Nat)
    (b b2 : Blk) (hfind : findBlk t.blocks a = some b)
    (hnext : nextPhys t.blocks a = some b2) (ha2 : b2.addr = a2) :
    SameShape t (merge_blocks t a a2) ∧
    (merge_blocks t a a2).free = t.free -
      ((if b.free then b.len else 0) + (if b2.free then b2.len else 0)) ∧
    findBlk (merge_blocks t a a2).blocks a =
      some ⟨b.addr, b.len + t.blk_hdr_len + b2.len, false⟩ ∧
    prevPhys (merge_blocks t a a2).blocks a = prevPhys t.blocks a ∧
    nextPhys (merge_blocks t a a2).blocks a = nextPhys t.blocks a2 ∧
    TlsfInv (merge_blocks t a a2) := by
  obtain ⟨hadj, hnboth, hfind2⟩ := inv_next_facts t hinv a b b2 hfind hnext
  rw [ha2] at hfind2
  -- chain decomposition with the successor made explicit
  obtain ⟨hba, u, v, hbs, hu, hv, hcu, hcv⟩ :=
    chain_find_decomp t.blk_hdr_len (t.baseptr + t.size) t.baseptr a
      t.blocks b hinv.chain (inv_lens_pos t hinv) hfind
  have hnv : nextPhys t.blocks a = v.head? := by
    rw [hbs]
    exact nextPhys_decomp u v b a hba hu
  rw [hnv] at hnext
  obtain ⟨w, rfl⟩ : ∃ w, v = b2 :: w := by
    cases v with
    | nil => simp at hnext
    | cons c w =>
      simp at hnext
      exact ⟨w, by rw [hnext]⟩
  -- bounds
  have hb2mem : b2 ∈ t.blocks := by rw [hbs]; simp
  have hbmem : b ∈ t.blocks := findBlk_mem _ _ _ hfind
  have hstop := (chain_mem_bounds t.blk_hdr_len (t.baseptr + t.size)
    t.blocks t.baseptr hinv.chain b2 hb2mem).2
  have hnlW : b.len + t.blk_hdr_len + b2.len < W64 := by
    have := hinv.endlt
    omega
  have hpw := inv_pairwise t hinv
  rw [hbs] at hpw
  have hprevT : prevPhys t.blocks a = u.getLast? := by
    rw [hbs]
    exact prevPhys_decomp u (b2 :: w) b a hba hu
  have hnextT : nextPhys t.blocks a2 = w.head? := by
    rw [hbs]
    have : u ++ b :: b2 :: w = (u ++ [b]) ++ b2 :: w := by simp
    rw [this]
    apply nextPhys_decomp (u ++ [b]) w b2 a2 ha2
    intro x hx
    rcases List.mem_append.mp hx with hx' | hx'
    · have h1 := (List.pairwise_append.mp hpw).2.2 x hx' b2 (by simp)
      omega
    · rcases List.mem_singleton.mp hx' with rfl
      have h1 := (List.pairwise_cons.mp (List.pairwise_append.mp hpw).2.1).1
        b2 (by simp)
      omega
  -- case split on the free flags
  by_cases hbf : b.free = true
  · have hb2f : b2.free = false := by
      cases h2 : b2.free
      · rfl
      · exact absurd ⟨hbf, h2⟩ hnboth
    -- remove b from its list
    obtain ⟨_, hblk1, hfree1, hlen1, hshp1, _, _, hinv1⟩ :=
      remove_block_target t hinv a b (get_mapping b.len).1
        (get_mapping b.len).2 Prod.mk.eta.symm hfind hbf
    set T2 := (remove_block t (some a) (get_mapping b.len).1
      (get_mapping b.len).2).1 with hT2
    have hblocks2 : T2.blocks =
        u ++ { b with free := false } :: { b2 with free := false } :: w := by
      rw [hblk1, hbs]
      rw [setFree_decomp u (b2 :: w) b a false hba hu hv]
      rw [blk_set_free_self b2 false hb2f]
    have hfindT2 : findBlk T2.blocks a = some { b with free := false } := by
      have hpw2 := inv_pairwise T2 hinv1
      have : ({ b with free := false } : Blk).addr = a := by simpa using hba
      rw [← this]
      apply findBlk_of_mem_pw _ _ hpw2
      rw [hblocks2]
      simp
    have hM : merge_blocks t a a2 =
        { T2 with blocks := eraseBlk (updLen T2.blocks a
            ((b.len + t.blk_hdr_len + b2.len) % W64)) a2 } := by
      rw [merge_blocks]
      simp only [hfind, hfind2]
      simp only [block_free_p, block_length, hbf, hb2f, if_true,
        Bool.false_eq_true, if_false]
      rw [blkLenAt]
      rw [← hT2, hfindT2]
      rfl
    exact merge_from_t2 t T2 a a2 b b2 u w hinv1 hshp1 hM hblocks2 hba ha2
      hadj (by rw [hfree1, hbf, hb2f]; simp) hprevT hnextT hnlW
  · have hbf' : b.free = false := by
      cases h2 : b.free
      · rfl
      · exact absurd h2 hbf
    by_cases hb2f : b2.free = true
    · -- remove b2 from its list
      obtain ⟨_, hblk1, hfree1, hlen1, hshp1, _, _, hinv1⟩ :=
        remove_block_target t hinv a2 b2 (get_mapping b2.len).1
          (get_mapping b2.len).2 Prod.mk.eta.symm hfind2 hb2f
      set T2 := (remove_block t (some a2) (get_mapping b2.len).1
        (get_mapping b2.len).2).1 with hT2
      have hblocks2 : T2.blocks =
          u ++ { b with free := false } :: { b2 with free := false } :: w := by
        rw [hblk1, hbs]
        have hsplit : u ++ b :: b2 :: w = (u ++ [b]) ++ b2 :: w := by simp
        rw [hsplit]
        rw [setFree_decomp (u ++ [b]) w b2 a2 false ha2 ?hu2 ?hv2]
        · rw [blk_set_free_self b false hbf']
          simp
        case hu2 =>
          intro x hx
          rcases List.mem_append.mp hx with hx' | hx'
          · have h1 := (List.pairwise_append.mp hpw).2.2 x hx' b2 (by simp)
            omega
          · rcases List.mem_singleton.mp hx' with rfl
            have h1 := (List.pairwise_cons.mp
              (List.pairwise_append.mp hpw).2.1).1 b2 (by simp)
            omega
        case hv2 =>
          intro x hx
          have h1 := (List.pairwise_cons.mp (List.pairwise_cons.mp
            (List.pairwise_append.mp hpw).2.1).2).1 x hx
          omega
      have hfindT2 : findBlk T2.blocks a = some { b with free := false } := by
        have hpw2 := inv_pairwise T2 hinv1
        have hax : ({ b with free := false } : Blk).addr = a := by
          simpa using hba
        rw [← hax]
        apply findBlk_of_mem_pw _ _ hpw2
        rw [hblocks2]
        simp
      have hM : merge_blocks t a a2 =
          { T2 with blocks := eraseBlk (updLen T2.blocks a
              ((b.len + t.blk_hdr_len + b2.len) % W64)) a2 } := by
        rw [merge_blocks]
        simp only [hfind, hfind2]
        simp only [block_free_p, block_length, hbf', hb2f, if_true,
          Bool.false_eq_true, if_false]
        rw [blkLenAt]
        rw [← hT2, hfindT2]
        rfl
      have hblkeq : { b with free := false } = b := blk_set_free_self b false hbf'
      exact merge_from_t2 t T2 a a2 b b2 u w hinv1 hshp1 hM hblocks2 hba ha2
        hadj (by rw [hfree1, hbf', hb2f]; simp) hprevT hnextT hnlW
    · -- neither block is free
      have hb2f' : b2.free = false := by
        cases h2 : b2.free
        · rfl
        · exact absurd h2 hb2f
      have hblocks2 : t.blocks =
          u ++ { b with free := false } :: { b2 with free := false } :: w := by
        rw [hbs, blk_set_free_self b false hbf', blk_set_free_self b2 false hb2f']
      have hfindT2 : findBlk t.blocks a = some { b with free := false } := by
        rw [blk_set_free_self b false hbf']
        exact hfind
      have hM : merge_blocks t a a2 =
          { t with blocks := eraseBlk (updLen t.blocks a
              ((b.len + t.blk_hdr_len + b2.len) % W64)) a2 } := by
        rw [merge_blocks]
        simp only [hfind, hfind2]
        simp only [block_free_p, block_length, hbf', hb2f', Bool.false_eq_true,
          if_false]
        rw [blkLenAt]
        rw [hfindT2]
        rfl
      exact merge_from_t2 t t a a2 b b2 u w hinv (sameShape_refl t) hM hblocks2
        hba ha2 hadj (by rw [hbf', hb2f']; simp) hprevT hnextT hnlW

theorem freeSum_setFree_true (u v : List Blk) (b : Blk) (a : Nat)
    (hb : b.addr = a) (hfree : b.free = false)
    (hu : ∀ x ∈ u, x.addr ≠ a) (hv : ∀ x ∈ v, x.addr ≠ a) :
    freeSum (setFree (u ++ b :: v) a true) = freeSum (u ++ b :: v) + b.len := by
  rw [setFree_decomp u v b a true hb hu hv]
  rw [freeSum_append, freeSum_append, freeSum_cons, freeSum_cons, hfree]
  simp only [Bool.false_eq_true, if_false, if_true]
  omega

theorem noadj_setFree_true (u v : List Blk) (b : Blk) (a : Nat)
    (hb : b.addr = a)
    (hu : ∀ x ∈ u, x.addr ≠ a) (hv : ∀ x ∈ v, x.addr ≠ a)
    (hnoadj : noAdjFree (u ++ b :: v) = true)
    (hprev : ∀ pb ∈ u.getLast?, pb.free = false)
    (hnext : ∀ nb ∈ v.head?, nb.free = false) :
    noAdjFree (setFree (u ++ b :: v) a true) = true := by
  rw [setFree_decomp u v b a true hb hu hv]
  rw [noAdjFree_iff_chain'] at hnoadj ⊢
  rw [List.chain'_append] at hnoadj ⊢
  obtain ⟨hcu, hcbv, hlink⟩ := hnoadj
  refine ⟨hcu, ?_, ?_⟩
  · rw [List.chain'_cons'] at hcbv ⊢
    refine ⟨?_, hcbv.2⟩
    intro y hy
    have := hnext y hy
    rintro ⟨_, hyf⟩
    rw [this] at hyf
    exact Bool.false_ne_true hyf
  · intro x hx y hy
    have hxf := hprev x hx
    simp only [List.head?_cons, Option.mem_def, Option.some.injEq] at hy
    rintro ⟨hxf', _⟩
    rw [hxf] at hxf'
    exact Bool.false_ne_true hxf'

/-- Anatomy and invariant preservation of `insert_block` on a present,
non-free block whose physical neighbours are not free. -/
theorem insert_block_inv (t : TLSF) (hinv : TlsfInv t) (a : Nat) (b : Blk)
    (hfind : findBlk t.blocks a = some b) (hfree : b.free = false)
    (hprev : ∀ pb ∈ prevPhys t.blocks a, pb.free = false)
    (hnext : ∀ nb ∈ nextPhys t.blocks a, nb.free = false) :
    (insert_block t a).blocks = setFree t.blocks a true ∧
    (insert_block t a).free = t.free + b.len ∧
    SameShape t (insert_block t a) ∧
    (∀ f s, ¬(f = (get_mapping b.len).1 ∧ s = (get_mapping b.len).2) →
        (insert_block t a).smap f s = t.smap f s) ∧
    (insert_block t a).smap (get_mapping b.len).1 (get_mapping b.len).2
      = a :: t.smap (get_mapping b.len).1 (get_mapping b.len).2 ∧
    TlsfInv (insert_block t a) := by
  have hbmem : b ∈ t.blocks := findBlk_mem t.blocks a b hfind
  obtain ⟨hb32, hbW⟩ := inv_len_facts t hinv b hbmem
  obtain ⟨hfl5, hfl64, hsl32⟩ := get_mapping_bounds b.len hb32 hbW
  obtain ⟨hba, u, v, hbs, hu, hv, hcu, hcv⟩ :=
    chain_find_decomp t.blk_hdr_len (t.baseptr + t.size) t.baseptr a
      t.blocks b hinv.chain (inv_lens_pos t hinv) hfind
  have hpw := inv_pairwise t hinv
  set fl := (get_mapping b.len).1 with hfldef
  set sl := (get_mapping b.len).2 with hsldef
  have hshape : insert_block t a =
      { t with
          blocks := setFree t.blocks a true
          smap := updMap t.smap fl sl (a :: t.smap fl sl)
          free := t.free + b.len
          l1_free := t.l1_free ||| (1 <<< fl)
          l2_free := updL2 t.l2_free fl (t.l2_free fl ||| (1 <<< sl)) } := by
    rw [insert_block]
    simp only [hfind]
  rw [hshape]
  simp only
  -- the inserted address is in no list yet
  have hnotin : ∀ f s, f < 64 → s < 32 → a ∉ t.smap f s := by
    intro f s hf hs hmem
    obtain ⟨b', hb'mem, hb'addr, hb'free, _⟩ :=
      (hinv.cells f hf s hs).2.2 a hmem
    have : b' = b := mem_addr_inj t.blocks hpw b' hb'mem b hbmem
      (by rw [hb'addr, hba])
    subst this
    rw [hb'free] at hfree
    exact Bool.true_eq_false ▸ (by simp at hfree)
  have hW2 : (W64 : Nat) = 2 ^ 64 := W64_eq
  have h2fl : (1 : Nat) <<< fl = 2 ^ fl := by
    rw [Nat.shiftLeft_eq, Nat.one_mul]
  have h2sl : (1 : Nat) <<< sl = 2 ^ sl := by
    rw [Nat.shiftLeft_eq, Nat.one_mul]
  refine ⟨by trivial, by trivial, ⟨rfl, rfl, rfl⟩, ?_, ?_, ?_⟩
  · intro f s hne
    simp only [updMap]
    rw [if_neg hne]
  · simp only [updMap, and_self, if_true]
  refine ⟨hinv.mode, hinv.szlt, hinv.endlt, ?_, ?_, ?_, ?_, ?_, ?_, ?_, ?_, ?_, ?_⟩
  · exact setFree_ne_nil t.blocks a true hinv.nonnil
  · rw [chainB_setFree]
    exact hinv.chain
  · intro c hc
    obtain ⟨b0, hb0, hcase⟩ := mem_setFree_elim t.blocks a true c hc
    have hl := hinv.lens b0 hb0
    rcases hcase with ⟨_, hc0⟩ | ⟨_, hc0⟩ <;> rw [hc0] <;> exact hl
  · -- no adjacent free blocks
    rw [hbs]
    apply noadj_setFree_true u v b a hba hu hv (hbs ▸ hinv.noadj)
    · intro pb hpb
      apply hprev
      rw [hbs, prevPhys_decomp u v b a hba hu]
      exact hpb
    · intro nb hnb
      apply hnext
      rw [hbs, nextPhys_decomp u v b a hba hu]
      exact hnb
  · show t.free + b.len = freeSum (setFree t.blocks a true)
    rw [hinv.ctr, hbs, freeSum_setFree_true u v b a hba hfree hu hv]
  · -- l1 bound
    rw [hW2] at *
    apply Nat.or_lt_two_pow hinv.l1lt
    rw [h2fl]
    exact Nat.pow_lt_pow_right (by norm_num) hfl64
  · -- l2 bounds
    intro f hf
    simp only [updL2]
    by_cases hffl : f = fl
    · rw [if_pos hffl]
      apply Nat.or_lt_two_pow (hinv.l2lt fl hfl64)
      rw [h2sl]
      exact Nat.pow_lt_pow_right (by norm_num) hsl32
    · rw [if_neg hffl]
      exact hinv.l2lt f hf
  · -- bit1
    intro f hf hbit
    simp only [updL2]
    rw [Nat.testBit_or] at hbit
    by_cases hffl : f = fl
    · rw [if_pos hffl]
      intro h0
      have : (t.l2_free fl ||| (1 <<< sl)).testBit sl = true := by
        rw [Nat.testBit_or, h2sl, Nat.testBit_two_pow_self]
        simp
      rw [h0] at this
      rw [Nat.zero_testBit] at this
      exact Bool.false_ne_true this
    · rw [if_neg hffl]
      apply hinv.bit1 f hf
      rcases Bool.or_eq_true_iff.mp hbit with h1 | h1
      · exact h1
      · rw [h2fl, Nat.testBit_two_pow] at h1
        simp at h1
        omega
  · -- cells
    intro f hf s hs
    refine ⟨?_, ?_, ?_⟩
    · intro hbit
      by_cases hcell : f = fl ∧ s = sl
      · obtain ⟨rfl, rfl⟩ := hcell
        simp only [updMap, and_self, if_true]
        simp
      · simp only [updMap]
        rw [if_neg hcell]
        apply (hinv.cells f hf s hs).1
        simp only [updL2] at hbit
        by_cases hffl : f = fl
        · subst hffl
          rw [if_pos rfl, Nat.testBit_or] at hbit
          rcases Bool.or_eq_true_iff.mp hbit with h1 | h1
          · exact h1
          · rw [h2sl, Nat.testBit_two_pow] at h1
            simp at h1
            exact absurd ⟨rfl, h1.symm⟩ hcell
        · rw [if_neg hffl] at hbit
          exact hbit
    · by_cases hcell : f = fl ∧ s = sl
      · obtain ⟨rfl, rfl⟩ := hcell
        simp only [updMap, and_self, if_true]
        exact List.Nodup.cons (hnotin fl sl hf hs) (hinv.cells fl hf sl hs).2.1
      · simp only [updMap]
        rw [if_neg hcell]
        exact (hinv.cells f hf s hs).2.1
    · intro a' ha'
      by_cases hcell : f = fl ∧ s = sl
      · obtain ⟨rfl, rfl⟩ := hcell
        simp only [updMap, and_self, if_true] at ha'
        rcases List.mem_cons.mp ha' with h' | hmem'
        · refine ⟨{ b with free := true }, ?_, by rw [h', hba], rfl, ?_⟩
          · rw [hbs, setFree_decomp u v b a true hba hu hv]
            simp
          · show get_mapping b.len = (fl, sl)
            exact Prod.mk.eta.symm
        · obtain ⟨b', hb'mem, hb'addr, hb'free, hb'cell⟩ :=
            (hinv.cells fl hf sl hs).2.2 a' hmem'
          have hne' : a' ≠ a := by
            intro hcon
            subst hcon
            exact hnotin fl sl hf hs hmem'
          exact ⟨b', mem_setFree_of_ne _ _ _ _ hb'mem (by omega), hb'addr,
            hb'free, hb'cell⟩
      · simp only [updMap] at ha'
        rw [if_neg hcell] at ha'
        obtain ⟨b', hb'mem, hb'addr, hb'free, hb'cell⟩ :=
          (hinv.cells f hf s hs).2.2 a' ha'
        have hne' : a' ≠ a := by
          intro hcon
          subst hcon
          have hbb : b' = b := mem_addr_inj t.blocks hpw b' hb'mem b hbmem
            (by rw [hb'addr, hba])
          subst hbb
          rw [hb'free] at hfree
          simp at hfree
        exact ⟨b', mem_setFree_of_ne _ _ _ _ hb'mem (by omega), hb'addr,
          hb'free, hb'cell⟩
  · -- freein
    intro c hc hcfree
    obtain ⟨b0, hb0, hcase⟩ := mem_setFree_elim t.blocks a true c hc
    rcases hcase with ⟨hb0a, hc0⟩ | ⟨hb0a, hc0⟩
    · -- the newly freed block
      have hb0b : b0 = b := mem_addr_inj t.blocks hpw b0 hb0 b hbmem
        (by rw [hb0a, hba])
      subst hb0b
      rw [hc0]
      simp only
      rw [← hfldef, ← hsldef]
      simp only [updMap, and_self, if_true]
      rw [hb0a]
      exact List.mem_cons_self a _
    · rw [hc0] at hcfree ⊢
      have hold := hinv.freein b0 hb0 hcfree
      by_cases hcell : (get_mapping b0.len).1 = fl ∧ (get_mapping b0.len).2 = sl
      · obtain ⟨h1, h2⟩ := hcell
        rw [h1, h2] at hold ⊢
        simp only [updMap, and_self, if_true]
        exact List.mem_cons_of_mem a hold
      · simp only [updMap]
        rw [if_neg hcell]
        exact hold

theorem prevPhys_mem : ∀ (bs : List Blk) (a : Nat) (pb : Blk),
    prevPhys bs a = some pb → pb ∈ bs := by
  intro bs
  induction bs with
  | nil => intro a pb h; simp [prevPhys] at h
  | cons c rest ih =>
    intro a pb h
    cases rest with
    | nil => simp [prevPhys] at h
    | cons d rest' =>
      rw [prevPhys] at h
      by_cases hc : (c.addr == a) = true
      · rw [if_pos hc] at h
        simp at h
      · rw [if_neg hc] at h
        by_cases hd : (d.addr == a) = true
        · rw [if_pos hd] at h
          simp at h
          subst h
          exact List.mem_cons_self c _
        · rw [if_neg hd] at h
          exact List.mem_cons_of_mem c (ih a pb h)

theorem nextPhys_findBlk (t : TLSF) (hinv : TlsfInv t) (a : Nat) (nb : Blk)
    (hnext : nextPhys t.blocks a = some nb) :
    findBlk t.blocks nb.addr = some nb :=
  findBlk_of_mem_pw _ _ (inv_pairwise t hinv) (nextPhys_mem _ _ _ hnext)

theorem prev_next_inverse (t : TLSF) (hinv : TlsfInv t) (a : Nat) (x pb : Blk)
    (hfind : findBlk t.blocks a = some x)
    (hprev : prevPhys t.blocks a = some pb) :
    findBlk t.blocks pb.addr = some pb ∧
      nextPhys t.blocks pb.addr = some x := by
  obtain ⟨hba, u, v, hbs, hu, hv, hcu, hcv⟩ :=
    chain_find_decomp t.blk_hdr_len (t.baseptr + t.size) t.baseptr a
      t.blocks x hinv.chain (inv_lens_pos t hinv) hfind
  have hpv : prevPhys t.blocks a = u.getLast? := by
    rw [hbs]
    exact prevPhys_decomp u v x a hba hu
  rw [hpv] at hprev
  obtain ⟨u0, rfl⟩ := List.getLast?_eq_some_iff.1 hprev
  have hpw := inv_pairwise t hinv
  rw [hbs] at hpw
  constructor
  · apply findBlk_of_mem_pw _ _ (inv_pairwise t hinv)
    rw [hbs]
    simp
  · rw [hbs]
    have hsplit : (u0 ++ [pb]) ++ x :: v = u0 ++ pb :: x :: v := by simp
    rw [hsplit]
    have hu0 : ∀ z ∈ u0, z.addr ≠ pb.addr := by
      intro z hz
      have := (List.pairwise_append.mp
        ((List.pairwise_append.mp hpw).1)).2.2 z hz pb (by simp)
      omega
    have := nextPhys_decomp u0 (x :: v) pb pb.addr rfl hu0
    rw [this]
    simp

/-- The tail of `tlsf_ext_free` after the predecessor phase: possible merge
with the (snapshotted) successor, then insertion. -/
theorem ext_free_stage2 (t tP : TLSF) (a aP : Nat) (y : Blk)
    (hinvP : TlsfInv tP) (hshP : SameShape t tP)
    (hfindP : findBlk tP.blocks aP = some y) (hyfree : y.free = false)
    (hprevP : ∀ pb ∈ prevPhys tP.blocks aP, pb.free = false)
    (hnext_eq : nextPhys tP.blocks aP = nextPhys t.blocks a) :
    SameShape t (insert_block
      (match nextPhys t.blocks a with
        | some nb => if block_free_p nb then merge_blocks tP aP nb.addr else tP
        | none => tP) aP) ∧
    TlsfInv (insert_block
      (match nextPhys t.blocks a with
        | some nb => if block_free_p nb then merge_blocks tP aP nb.addr else tP
        | none => tP) aP) := by
  cases hn : nextPhys t.blocks a with
  | none =>
    simp only
    obtain ⟨_, _, hsh, _, _, hinv'⟩ := insert_block_inv tP hinvP aP y hfindP
      hyfree hprevP
      (by rw [hnext_eq, hn]; intro nb hnb; simp at hnb)
    exact ⟨sameShape_trans t tP _ hshP hsh, hinv'⟩
  | some nb =>
    simp only
    by_cases hnbf : nb.free = true
    · rw [block_free_p, if_pos hnbf]
      have hnextP : nextPhys tP.blocks aP = some nb := by rw [hnext_eq, hn]
      obtain ⟨hshM, _, hfindM, hprevM, hnextM, hinvM⟩ :=
        merge_blocks_inv tP hinvP aP nb.addr y nb hfindP hnextP rfl
      have hnnb : ∀ z ∈ nextPhys tP.blocks nb.addr, z.free = false := by
        intro z hz
        have hfnb : findBlk tP.blocks nb.addr = some nb :=
          nextPhys_findBlk tP hinvP aP nb hnextP
        obtain ⟨_, hnb2, _⟩ := inv_next_facts tP hinvP nb.addr nb z hfnb hz
        cases hzf : z.free
        · rfl
        · exact absurd ⟨hnbf, hzf⟩ hnb2
      obtain ⟨_, _, hsh, _, _, hinv'⟩ :=
        insert_block_inv (merge_blocks tP aP nb.addr) hinvM aP
          ⟨y.addr, y.len + tP.blk_hdr_len + nb.len, false⟩ hfindM rfl
          (by
            rw [hprevM]
            intro pb hpb
            exact hprevP pb hpb)
          (by
            rw [hnextM]
            intro z hz
            exact hnnb z hz)
      exact ⟨sameShape_trans t _ _ hshP (sameShape_trans tP _ _ hshM hsh),
        hinv'⟩
    · rw [block_free_p, if_neg (by simpa using hnbf)]
      obtain ⟨_, _, hsh, _, _, hinv'⟩ := insert_block_inv tP hinvP aP y hfindP
        hyfree hprevP
        (by
          rw [hnext_eq, hn]
          intro z hz
          simp at hz
          subst hz
          cases hzf : nb.free
          · rfl
          · exact absurd hzf hnbf)
      exact ⟨sameShape_trans t tP _ hshP hsh, hinv'⟩

/-- `tlsf_ext_free` preserves the invariant and the allocator shape. -/
theorem ext_free_inv (t : TLSF) (hinv : TlsfInv t) (a : Nat) (x : Blk)
    (hfind : findBlk t.blocks a = some x) (hfree : x.free = false) :
    SameShape t (tlsf_ext_free t a) ∧ TlsfInv (tlsf_ext_free t a) := by
  rw [tlsf_ext_free]
  cases hp : prevPhys t.blocks a with
  | none =>
    simp only
    exact ext_free_stage2 t t a a x hinv (sameShape_refl t) hfind hfree
      (by rw [hp]; intro pb hpb; simp at hpb) rfl
  | some pb =>
    simp only
    by_cases hpbf : pb.free = true
    · rw [block_free_p, if_pos hpbf]
      simp only
      obtain ⟨hfindpb, hnextpb⟩ := prev_next_inverse t hinv a x pb hfind hp
      obtain ⟨hshM, _, hfindM, hprevM, hnextM, hinvM⟩ :=
        merge_blocks_inv t hinv pb.addr a pb x hfindpb hnextpb
          (findBlk_decomp t.blocks a x hfind).1
      have hprevPb : ∀ z ∈ prevPhys t.blocks pb.addr, z.free = false := by
        intro z hz
        have := inv_prev_not_both_free t hinv pb.addr pb z hfindpb hz
        cases hzf : z.free
        · rfl
        · exact absurd ⟨hzf, hpbf⟩ this
      exact ext_free_stage2 t (merge_blocks t pb.addr a) a pb.addr
        ⟨pb.addr, pb.len + t.blk_hdr_len + x.len, false⟩ hinvM hshM hfindM rfl
        (by
          rw [hprevM]
          intro z hz
          exact hprevPb z hz)
        hnextM
    · rw [block_free_p, if_neg (by simpa using hpbf)]
      simp only
      apply ext_free_stage2 t t a a x hinv (sameShape_refl t) hfind hfree _ rfl
      rw [hp]
      intro z hz
      simp at hz
      subst hz
      cases hzf : pb.free
      · rfl
      · exact absurd hzf hpbf

theorem remove_block_none_eq (t : TLSF) (fl sl : Nat) (a : Nat)
    (hhead : (t.smap fl sl).head? = some a) :
    remove_block t none fl sl = remove_block t (some a) fl sl := by
  rw [remove_block, remove_block, hhead]

theorem updLen_updLen (bs : List Blk) (a l1 l2 : Nat) :
    updLen (updLen bs a l1) a l2 = updLen bs a l2 := by
  rw [updLen, updLen, updLen, List.map_map]
  apply List.map_congr_left
  intro b _
  by_cases hb : b.addr = a <;> simp [hb]

theorem updLen_id (bs : List Blk) (a : Nat) (l : Nat)
    (h : ∀ c ∈ bs, c.addr = a → c.len = l) : updLen bs a l = bs := by
  rw [updLen]
  induction bs with
  | nil => rfl
  | cons c rest ih =>
    rw [List.map_cons, ih (fun x hx hxa => h x (List.mem_cons_of_mem c hx) hxa)]
    by_cases hc : c.addr = a
    · have hcl := h c (List.mem_cons_self c rest) hc
      have hb : (c.addr == a) = true := beq_iff_eq.mpr hc
      rw [hb]
      simp only [if_true]
      rw [← hcl]
    · have hb : (c.addr == a) = false := beq_eq_false_iff_ne.mpr hc
      rw [hb]
      rfl

theorem sumLens_setFree (bs : List Blk) (a : Nat) (f : Bool) :
    sumLens (setFree bs a f) = sumLens bs := by
  rw [sumLens, sumLens, setFree, List.map_map]
  congr 1
  apply List.map_congr_left
  intro b _
  by_cases hb : b.addr = a <;> simp [hb]

theorem findBlk_decomp_eq (u v : List Blk) (b : Blk) (a : Nat)
    (hb : b.addr = a) (hu : ∀ x ∈ u, x.addr ≠ a) :
    findBlk (u ++ b :: v) a = some b := by
  have h1 : List.find? (fun c => c.addr == a) u = none := by
    rw [show List.find? (fun c => c.addr == a) u = findBlk u a from rfl,
      findBlk_eq_none_iff]
    exact hu
  rw [findBlk, List.find?_append, h1]
  simp [hb]

/-- Invariant preservation for a successful split: the found block (already
unlinked from the segregated lists, hence non-free) is shrunk to `size` and
a remainder header is laid right after it. -/
theorem split_phase (t1 : TLSF) (hinv1 : TlsfInv t1) (a0 size : Nat)
    (u v : List Blk) (bF : Blk)
    (hblocks : t1.blocks = u ++ bF :: v) (haF : bF.addr = a0)
    (hfF : bF.free = false)
    (hsz : 32 ≤ size) (hsz32 : size % 32 = 0)
    (hrem : size + t1.blk_hdr_len + 32 ≤ bF.len) :
    let child : Blk := ⟨a0 + t1.blk_hdr_len + size,
      bF.len - t1.blk_hdr_len - size, false⟩
    let t2 : TLSF := { t1 with
      blocks := insertAfter (updLen t1.blocks a0 size) a0 child }
    t2.blocks = u ++ { bF with len := size } :: child :: v ∧
    TlsfInv t2 ∧
    findBlk t2.blocks child.addr = some child ∧
    prevPhys t2.blocks child.addr = some { bF with len := size } ∧
    nextPhys t2.blocks child.addr = v.head? := by
  intro child t2
  have hmode := hinv1.mode
  rw [TLSF_BLKHDR_LEN] at hmode
  have hpw := inv_pairwise t1 hinv1
  rw [hblocks] at hpw
  have hbFmem : bF ∈ t1.blocks := by rw [hblocks]; simp
  have hu : ∀ x ∈ u, x.addr ≠ a0 := by
    intro x hx
    have := (List.pairwise_append.mp hpw).2.2 x hx bF (by simp)
    omega
  have hv : ∀ x ∈ v, x.addr ≠ a0 := by
    intro x hx
    have := (List.pairwise_cons.mp (List.pairwise_append.mp hpw).2.1).1 x hx
    omega
  -- chain pieces of t1
  have hch := hinv1.chain
  rw [hblocks] at hch
  obtain ⟨y, hcu, hcv⟩ :=
    (chainB_append t1.blk_hdr_len (t1.baseptr + t1.size) u (bF :: v)
      t1.baseptr).mp hch
  obtain ⟨hby, hcv1⟩ := (chainB_cons_iff _ _ _ _ _).mp hcv
  have hcu2 : chainB t1.blk_hdr_len bF.addr t1.baseptr u = true := by
    rw [hby]; exact hcu
  have hya : y = a0 := by rw [← hby, haF]
  -- address ordering facts
  have hu_lt : ∀ x ∈ u, x.addr < a0 := by
    intro x hx
    have h1 := (chain_mem_bounds _ _ u t1.baseptr hcu2 x hx).2
    have h2 := (inv_len_facts t1 hinv1 x
      (by rw [hblocks]; exact List.mem_append_left _ hx)).1
    rw [haF] at h1
    omega
  have hv_ge : ∀ x ∈ v, a0 + t1.blk_hdr_len + bF.len ≤ x.addr := by
    intro x hx
    have := (chain_mem_bounds _ _ v (y + t1.blk_hdr_len + bF.len) hcv1 x hx).1
    omega
  have hchild_gt : a0 < child.addr := by
    show a0 < a0 + t1.blk_hdr_len + size
    omega
  have hchild_lt : child.addr < a0 + t1.blk_hdr_len + bF.len := by
    show a0 + t1.blk_hdr_len + size < a0 + t1.blk_hdr_len + bF.len
    omega
  -- the shape of the new block list
  have hshape : t2.blocks = u ++ { bF with len := size } :: child :: v := by
    show insertAfter (updLen t1.blocks a0 size) a0 child = _
    rw [hblocks, updLen_decomp u v bF a0 size haF hu hv]
    exact insertAfter_decomp u v { bF with len := size } child a0 haF hu hv
  -- the new chain
  obtain ⟨hl1, hl2, hl3⟩ := hinv1.lens bF hbFmem
  rw [TLSF_MBS] at hl1
  rw [TLSF_BLKHDR_LEN] at hl2
  have hl3m : t1.blk_hdr_len = 0 → bF.len % 32 = 0 := by
    intro hz
    have h3 := hl3 hz
    rw [TLSF_MBS] at h3
    exact h3
  have hch2 : chainB t1.blk_hdr_len (t1.baseptr + t1.size) t1.baseptr
      (u ++ { bF with len := size } :: child :: v) = true := by
    apply chain_reassemble_two t1.blk_hdr_len (t1.baseptr + t1.size)
      t1.baseptr u v { bF with len := size } child hcu2
    · show child.addr = bF.addr + t1.blk_hdr_len + size
      rw [haF]
    · have heq : child.addr + t1.blk_hdr_len + child.len =
          y + t1.blk_hdr_len + bF.len := by
        show a0 + t1.blk_hdr_len + size + t1.blk_hdr_len +
          (bF.len - t1.blk_hdr_len - size) = y + t1.blk_hdr_len + bF.len
        omega
      rw [heq]
      exact hcv1
  -- lengths of the new list
  have hlens2 : ∀ c ∈ u ++ { bF with len := size } :: child :: v,
      lenOk t1.blk_hdr_len c := by
    intro c hc
    rcases List.mem_append.mp hc with hc' | hc'
    · exact hinv1.lens c (by rw [hblocks]; exact List.mem_append_left _ hc')
    · rcases List.mem_cons.mp hc' with rfl | hc''
      · refine ⟨?_, ?_, ?_⟩
        · show TLSF_MBS ≤ size
          rw [TLSF_MBS]
          omega
        · show size % TLSF_BLKHDR_LEN = 0
          rw [TLSF_BLKHDR_LEN]
          omega
        · intro _
          show size % TLSF_MBS = 0
          rw [TLSF_MBS]
          omega
      · rcases List.mem_cons.mp hc'' with rfl | hc3
        · refine ⟨?_, ?_, ?_⟩
          · show TLSF_MBS ≤ bF.len - t1.blk_hdr_len - size
            rw [TLSF_MBS]
            omega
          · show (bF.len - t1.blk_hdr_len - size) % TLSF_BLKHDR_LEN = 0
            rw [TLSF_BLKHDR_LEN]
            rcases hmode with hm | hm <;> omega
          · intro hz
            show (bF.len - t1.blk_hdr_len - size) % TLSF_MBS = 0
            have := hl3m hz
            rw [TLSF_MBS]
            omega
        · exact hinv1.lens c (by rw [hblocks]; simp [hc3])
  have hpw2 : (u ++ { bF with len := size } :: child :: v).Pairwise
      (fun b c => b.addr < c.addr) := by
    apply chain_pairwise_lt t1.blk_hdr_len (t1.baseptr + t1.size) _
      t1.baseptr hch2
    intro b hb
    have := (hlens2 b hb).1
    rw [TLSF_MBS] at this
    omega
  refine ⟨hshape, ?_, ?_, ?_, ?_⟩
  · -- the invariant
    refine ⟨hinv1.mode, hinv1.szlt, hinv1.endlt, ?_, ?_, ?_, ?_, ?_,
      hinv1.l1lt, hinv1.l2lt, hinv1.bit1, ?_, ?_⟩
    · show t2.blocks ≠ []
      rw [hshape]
      simp
    · show chainB _ _ _ t2.blocks = true
      rw [hshape]
      exact hch2
    · intro c hc
      rw [hshape] at hc
      exact hlens2 c hc
    · show noAdjFree t2.blocks = true
      rw [hshape]
      have hna := hinv1.noadj
      rw [hblocks] at hna
      rw [noAdjFree_iff_chain'] at hna ⊢
      obtain ⟨hcu', hcbv, hlink⟩ := List.chain'_append.mp hna
      apply List.chain'_append.mpr
      refine ⟨hcu', ?_, ?_⟩
      · apply List.chain'_cons'.mpr
        refine ⟨?_, ?_⟩
        · intro z hz
          simp only [List.head?_cons, Option.mem_def, Option.some.injEq] at hz
          subst hz
          rintro ⟨hf, _⟩
          simp only at hf
          rw [hfF] at hf
          exact Bool.false_ne_true hf
        · apply List.chain'_cons'.mpr
          refine ⟨?_, (List.chain'_cons'.mp hcbv).2⟩
          intro z _
          rintro ⟨hf, _⟩
          exact Bool.false_ne_true hf
      · intro x hx z hz
        simp only [List.head?_cons, Option.mem_def, Option.some.injEq] at hz
        subst hz
        rintro ⟨_, hf⟩
        simp only at hf
        rw [hfF] at hf
        exact Bool.false_ne_true hf
    · show t2.free = freeSum t2.blocks
      rw [hshape]
      have : t2.free = t1.free := rfl
      rw [this, hinv1.ctr, hblocks, freeSum_append, freeSum_append,
        freeSum_cons, freeSum_cons, freeSum_cons]
      simp [hfF]
    · intro f hf s hs
      obtain ⟨hbit2, hnodup, hmapinv⟩ := hinv1.cells f hf s hs
      refine ⟨hbit2, hnodup, ?_⟩
      intro a' ha'
      obtain ⟨b', hb'mem, hb'addr, hb'free, hb'cell⟩ := hmapinv a' ha'
      refine ⟨b', ?_, hb'addr, hb'free, hb'cell⟩
      show b' ∈ t2.blocks
      rw [hshape]
      rw [hblocks] at hb'mem
      rcases List.mem_append.mp hb'mem with h' | h'
      · exact List.mem_append_left _ h'
      · rcases List.mem_cons.mp h' with rfl | h''
        · rw [hb'free] at hfF
          simp at hfF
        · exact List.mem_append_right _
            (List.mem_cons_of_mem _ (List.mem_cons_of_mem _ h''))
    · intro c hc hcfree
      show c.addr ∈ t2.smap (get_mapping c.len).1 (get_mapping c.len).2
      have : t2.smap = t1.smap := rfl
      rw [this]
      apply hinv1.freein c _ hcfree
      rw [hblocks]
      rw [hshape] at hc
      rcases List.mem_append.mp hc with h' | h'
      · exact List.mem_append_left _ h'
      · rcases List.mem_cons.mp h' with rfl | h''
        · rw [hcfree] at hfF
          simp at hfF
        · rcases List.mem_cons.mp h'' with rfl | h3
          · simp at hcfree
          · simp [h3]
  · rw [hshape]
    exact findBlk_of_mem_pw _ child hpw2 (by simp)
  · rw [hshape]
    have hne : ∀ x ∈ u ++ [{ bF with len := size }], x.addr ≠ child.addr := by
      intro x hx
      rcases List.mem_append.mp hx with hx' | hx'
      · have := hu_lt x hx'
        omega
      · rcases List.mem_singleton.mp hx' with rfl
        show bF.addr ≠ child.addr
        rw [haF]
        omega
    have hsplit : u ++ { bF with len := size } :: child :: v =
        (u ++ [{ bF with len := size }]) ++ child :: v := by simp
    have hprev1 : prevPhys ((u ++ [{ bF with len := size }]) ++ child :: v)
        child.addr = (u ++ [{ bF with len := size }]).getLast? :=
      prevPhys_decomp _ v child child.addr rfl hne
    rw [hsplit, hprev1]
    simp
  · rw [hshape]
    have hne : ∀ x ∈ u ++ [{ bF with len := size }], x.addr ≠ child.addr := by
      intro x hx
      rcases List.mem_append.mp hx with hx' | hx'
      · have := hu_lt x hx'
        omega
      · rcases List.mem_singleton.mp hx' with rfl
        show bF.addr ≠ child.addr
        rw [haF]
        omega
    have hsplit : u ++ { bF with len := size } :: child :: v =
        (u ++ [{ bF with len := size }]) ++ child :: v := by simp
    have hnext1 : nextPhys ((u ++ [{ bF with len := size }]) ++ child :: v)
        child.addr = v.head? :=
      nextPhys_decomp _ v child child.addr rfl hne
    rw [hsplit, hnext1]

/-- A successful split followed by the insertion of the remainder block:
shape, invariant and the lookup of the shrunk block. -/
theorem split_then_insert (t T1 : TLSF) (hinvT1 : TlsfInv T1)
    (hsh : SameShape t T1) (a size : Nat) (u v : List Blk) (b : Blk)
    (hT1blocks : T1.blocks = u ++ { b with free := false } :: v)
    (hba : b.addr = a)
    (hsz32 : 32 ≤ size) (hszm : size % 32 = 0)
    (hrem2 : size + T1.blk_hdr_len + 32 ≤ b.len)
    (hvhead : ∀ nb ∈ v.head?, nb.free = false) :
    SameShape t (insert_block
      { T1 with blocks := (insertAfter (updLen T1.blocks a size) a
          ⟨a + T1.blk_hdr_len + size, b.len - T1.blk_hdr_len - size, false⟩) }
      (a + T1.blk_hdr_len + size)) ∧
    TlsfInv (insert_block
      { T1 with blocks := (insertAfter (updLen T1.blocks a size) a
          ⟨a + T1.blk_hdr_len + size, b.len - T1.blk_hdr_len - size, false⟩) }
      (a + T1.blk_hdr_len + size)) ∧
    findBlk (insert_block
      { T1 with blocks := (insertAfter (updLen T1.blocks a size) a
          ⟨a + T1.blk_hdr_len + size, b.len - T1.blk_hdr_len - size, false⟩) }
      (a + T1.blk_hdr_len + size)).blocks a =
      some ⟨b.addr, size, false⟩ := by
  have hS := split_phase T1 hinvT1 a size u v { b with free := false }
    hT1blocks hba rfl hsz32 hszm hrem2
  obtain ⟨hsh2, hinv2, hfindc, hprevc, hnextc⟩ := hS
  dsimp only at hsh2 hinv2 hfindc hprevc hnextc
  have hprev' : ∀ pb ∈ prevPhys
      ({ T1 with blocks := (insertAfter (updLen T1.blocks a size) a
          ⟨a + T1.blk_hdr_len + size, b.len - T1.blk_hdr_len - size,
            false⟩) } : TLSF).blocks (a + T1.blk_hdr_len + size),
      pb.free = false := by
    intro pb hpb
    have hpb2 : pb ∈ prevPhys (insertAfter (updLen T1.blocks a size) a
        ⟨a + T1.blk_hdr_len + size, b.len - T1.blk_hdr_len - size, false⟩)
        (a + T1.blk_hdr_len + size) := hpb
    rw [hprevc] at hpb2
    simp only [Option.mem_def, Option.some.injEq] at hpb2
    subst hpb2
    rfl
  have hnext' : ∀ nb ∈ nextPhys
      ({ T1 with blocks := (insertAfter (updLen T1.blocks a size) a
          ⟨a + T1.blk_hdr_len + size, b.len - T1.blk_hdr_len - size,
            false⟩) } : TLSF).blocks (a + T1.blk_hdr_len + size),
      nb.free = false := by
    intro nb hnb
    have hnb2 : nb ∈ nextPhys (insertAfter (updLen T1.blocks a size) a
        ⟨a + T1.blk_hdr_len + size, b.len - T1.blk_hdr_len - size, false⟩)
        (a + T1.blk_hdr_len + size) := hnb
    rw [hnextc] at hnb2
    exact hvhead nb hnb2
  obtain ⟨hiBlocks, hiFree, hiShape, _, _, hiInv⟩ :=
    insert_block_inv _ hinv2 (a + T1.blk_hdr_len + size)
      ⟨a + T1.blk_hdr_len + size, b.len - T1.blk_hdr_len - size, false⟩
      hfindc rfl hprev' hnext'
  refine ⟨?_, hiInv, ?_⟩
  · exact sameShape_trans t T1 _ hsh
      (sameShape_trans T1 _ _ ⟨rfl, rfl, rfl⟩ hiShape)
  · -- the block at `a` in the final list
    have hpw2 : List.Pairwise (fun x y => x.addr < y.addr)
        (insertAfter (updLen T1.blocks a size) a
          ⟨a + T1.blk_hdr_len + size, b.len - T1.blk_hdr_len - size,
            false⟩) :=
      inv_pairwise _ hinv2
    rw [hsh2] at hpw2
    have hu_ne : ∀ x ∈ u, x.addr < a + T1.blk_hdr_len + size := by
      intro x hx
      have := (List.pairwise_append.mp hpw2).2.2 x hx
        (⟨a + T1.blk_hdr_len + size, b.len - T1.blk_hdr_len - size, false⟩ :
          Blk) (by simp)
      exact this
    have hbs_lt : b.addr < a + T1.blk_hdr_len + size := by
      have := (List.pairwise_cons.mp
        (List.pairwise_append.mp hpw2).2.1).1
        (⟨a + T1.blk_hdr_len + size, b.len - T1.blk_hdr_len - size, false⟩ :
          Blk) (by simp)
      exact this
    have hv_ne : ∀ x ∈ v, x.addr ≠ a + T1.blk_hdr_len + size := by
      intro x hx
      have h0 := (List.pairwise_cons.mp (List.pairwise_cons.mp
        (List.pairwise_append.mp hpw2).2.1).2).1 x hx
      have h1 : a + T1.blk_hdr_len + size < x.addr := h0
      omega
    have hsetf : setFree
        ({ T1 with blocks := (insertAfter (updLen T1.blocks a size) a
            ⟨a + T1.blk_hdr_len + size, b.len - T1.blk_hdr_len - size,
              false⟩) } : TLSF).blocks (a + T1.blk_hdr_len + size) true =
        u ++ (⟨b.addr, size, false⟩ : Blk) ::
          (⟨a + T1.blk_hdr_len + size, b.len - T1.blk_hdr_len - size,
            true⟩ : Blk) :: v := by
      show setFree (insertAfter (updLen T1.blocks a size) a
        ⟨a + T1.blk_hdr_len + size, b.len - T1.blk_hdr_len - size, false⟩)
        (a + T1.blk_hdr_len + size) true = _
      rw [hsh2]
      have hassoc : u ++ (⟨b.addr, size, false⟩ : Blk) ::
          (⟨a + T1.blk_hdr_len + size, b.len - T1.blk_hdr_len - size,
            false⟩ : Blk) :: v =
          (u ++ [(⟨b.addr, size, false⟩ : Blk)]) ++
          (⟨a + T1.blk_hdr_len + size, b.len - T1.blk_hdr_len - size,
            false⟩ : Blk) :: v := by simp
      rw [hassoc,
        setFree_decomp (u ++ [(⟨b.addr, size, false⟩ : Blk)]) v
          (⟨a + T1.blk_hdr_len + size, b.len - T1.blk_hdr_len - size,
            false⟩ : Blk) (a + T1.blk_hdr_len + size) true rfl
          (by
            intro x hx
            rcases List.mem_append.mp hx with hx' | hx'
            · have := hu_ne x hx'
              omega
            · rcases List.mem_singleton.mp hx' with rfl
              show b.addr ≠ a + T1.blk_hdr_len + size
              omega)
          hv_ne]
      simp
    rw [hiBlocks, hsetf]
    exact findBlk_decomp_eq u
      ((⟨a + T1.blk_hdr_len + size, b.len - T1.blk_hdr_len - size,
        true⟩ : Blk) :: v) _ a (by show b.addr = a; exact hba)
      (by
        intro x hx
        have h0 := (List.pairwise_append.mp hpw2).2.2 x hx
          (⟨b.addr, size, false⟩ : Blk) (by simp)
        have h1 : x.addr < b.addr := h0
        show x.addr ≠ a
        rw [← hba]
        omega)

/-- The allocation path once the search has fixed a cell `(fl, sl)` whose
second-level bit is set and whose cell base is at least the rounded request:
the cell's head block is removed, possibly split, and its address returned;
shape and invariant are preserved, and when the EXT header oracle fails the
final state is exactly the remove result. -/
theorem ext_alloc_from_cell (t : TLSF) (hinv : TlsfInv t) (size : Nat)
    (hsz32 : 32 ≤ size) (hszm : size % 32 = 0)
    (fl sl : Nat) (hfl64 : fl < 64) (hsl32 : sl < 32)
    (hbit : (t.l2_free fl).testBit sl = true)
    (hbase : size ≤ 2 ^ fl + sl * 2 ^ (fl - 5)) :
    ∃ a b, findBlk t.blocks a = some b ∧ b.free = true ∧ size ≤ b.len ∧
      ∀ c : Bool, ∃ t2,
        (match remove_block t none fl sl with
         | (_, none) => none
         | (t1, some a2) =>
           match findBlk t.blocks a2 with
           | none => none
           | some b2 =>
             if TLSF_MBS + t.blk_hdr_len ≤ wsub (block_length b2) size then
               let (t3, rem?) := split_block t1 a2 size c
               match rem? with
               | some ra => some (insert_block t3 ra, a2)
               | none => some (t3, a2)
             else some (t1, a2)) = some (t2, a) ∧
        SameShape t t2 ∧ TlsfInv t2 ∧
        (∃ b2, findBlk t2.blocks a = some b2 ∧ b2.free = false ∧
          size ≤ b2.len ∧ b2.len ≤ b.len) ∧
        (t.blk_hdr_len = 0 → c = false →
          t2.blocks = setFree t.blocks a false ∧
          findBlk t2.blocks a = some { b with free := false } ∧
          t2.free = t.free - b.len) := by
  obtain ⟨hbit2, hnodup, hmapinv⟩ := hinv.cells fl hfl64 sl hsl32
  have hnn : t.smap fl sl ≠ [] := hbit2 hbit
  obtain ⟨a, rest, hlist⟩ := List.exists_cons_of_ne_nil hnn
  have hhd : (t.smap fl sl).head? = some a := by rw [hlist]; rfl
  have hmem : a ∈ t.smap fl sl := by rw [hlist]; simp
  obtain ⟨b, hbmem, hbaddr, hbfree, hbcell⟩ := hmapinv a hmem
  have hfind : findBlk t.blocks a = some b := by
    have h0 := findBlk_of_mem_pw t.blocks b (inv_pairwise t hinv) hbmem
    rw [hbaddr] at h0
    exact h0
  obtain ⟨hb32, hbW⟩ := inv_len_facts t hinv b hbmem
  have hcellb : 2 ^ fl + sl * 2 ^ (fl - 5) ≤ b.len := by
    have h0 := (cell_bounds b.len hb32 hbW).1
    rw [hbcell] at h0
    simpa using h0
  have hble : size ≤ b.len := le_trans hbase hcellb
  refine ⟨a, b, hfind, hbfree, hble, ?_⟩
  intro c
  obtain ⟨hrm2, hrmBlocks, hrmFree, hrmLe, hrmShape, hrmMap1, hrmMap2,
    hrmInv⟩ := remove_block_target t hinv a b fl sl hbcell hfind hbfree
  have hnone_eq := remove_block_none_eq t fl sl a hhd
  have hpair : remove_block t (some a) fl sl =
      ((remove_block t (some a) fl sl).1, some a) :=
    Prod.ext_iff.mpr ⟨rfl, hrm2⟩
  obtain ⟨hba2, u, v, hbs, hu, hv, hcu, hcv⟩ :=
    chain_find_decomp t.blk_hdr_len (t.baseptr + t.size) t.baseptr a
      t.blocks b hinv.chain (inv_lens_pos t hinv) hfind
  have hT1blocks : (remove_block t (some a) fl sl).1.blocks =
      u ++ { b with free := false } :: v := by
    rw [hrmBlocks, hbs]
    exact setFree_decomp u v b a false hba2 hu hv
  have hfindT1 : findBlk (remove_block t (some a) fl sl).1.blocks a =
      some { b with free := false } := by
    rw [hT1blocks]
    exact findBlk_decomp_eq u v _ a hba2 hu
  have hhdr : (remove_block t (some a) fl sl).1.blk_hdr_len =
      t.blk_hdr_len := hrmShape.2.2
  have hvhead : ∀ nb ∈ v.head?, nb.free = false := by
    have hna := hinv.noadj
    rw [hbs, noAdjFree_iff_chain'] at hna
    obtain ⟨_, hcbv, _⟩ := List.chain'_append.mp hna
    have hpairb := (List.chain'_cons'.mp hcbv).1
    intro nb hnb
    have h0 := hpairb nb hnb
    cases hf : nb.free
    · rfl
    · exact absurd ⟨hbfree, hf⟩ h0
  by_cases hthr : TLSF_MBS + t.blk_hdr_len ≤ wsub (block_length b) size
  · -- split path
    have hw : wsub (block_length b) size = b.len - size := by
      rw [block_length]
      exact wsub_eq_sub b.len size hble hbW
    have hthr2 : size + t.blk_hdr_len + 32 ≤ b.len := by
      have h0 := hthr
      rw [hw, TLSF_MBS] at h0
      omega
    have hcbA : a + t.blk_hdr_len + b.len ≤ t.baseptr + t.size := by
      have h0 := (chain_mem_bounds t.blk_hdr_len (t.baseptr + t.size)
        t.blocks t.baseptr hinv.chain b hbmem).2
      rw [hba2] at h0
      exact h0
    have hend := hinv.endlt
    have hfindT1b : findBlk
        (updLen (remove_block t (some a) fl sl).1.blocks a size) a =
        some (⟨b.addr, size, false⟩ : Blk) := by
      rw [hT1blocks, updLen_decomp u v { b with free := false } a size
        hba2 hu hv]
      exact findBlk_decomp_eq u v _ a hba2 hu
    obtain ⟨hstiSh, hstiInv, hstiFind⟩ :=
      split_then_insert t (remove_block t (some a) fl sl).1 hrmInv hrmShape
        a size u v b hT1blocks hba2 hsz32 hszm (by rw [hhdr]; omega) hvhead
    rw [hhdr] at hstiSh hstiInv hstiFind
    rcases hinv.mode with hm16 | hm0
    · -- INT: the header is carved inside the extent, never fails
      rw [TLSF_BLKHDR_LEN] at hm16
      have hfit : a + 16 + size < W64 := by omega
      have hw16a : wsub b.len 16 = b.len - 16 := by
        rw [wsub_eq_sub b.len 16 (by omega) hbW]
      have hw16b : wsub (b.len - 16) size = b.len - 16 - size := by
        rw [wsub_eq_sub (b.len - 16) size (by omega) (by omega)]
      have hmod16 : (a + 16 + size) % W64 = a + 16 + size :=
        Nat.mod_eq_of_lt hfit
      have hsplitEq : split_block (remove_block t (some a) fl sl).1 a size c =
          ({ (remove_block t (some a) fl sl).1 with
              blocks := (insertAfter
                (updLen (remove_block t (some a) fl sl).1.blocks a size) a
                ⟨a + t.blk_hdr_len + size, b.len - t.blk_hdr_len - size,
                  false⟩) },
            some (a + t.blk_hdr_len + size)) := by
        rw [split_block]
        simp only [hfindT1, block_hdr_alloc, hfindT1b, block_length, hhdr,
          hm16, TLSF_BLKHDR_LEN]
        rw [if_pos (show (16:Nat) ≠ 0 by decide)]
        rw [hw16a, hw16b, hmod16]
      refine ⟨_, ?_, hstiSh, hstiInv,
        ⟨⟨b.addr, size, false⟩, hstiFind, rfl, le_refl size, hble⟩, ?_⟩
      · rw [hnone_eq, hpair]
        simp only [hfind, if_pos hthr, hsplitEq, hhdr]
      · intro h0 _
        rw [hm16] at h0
        exact absurd h0 (by decide)
    · -- EXT
      have hfit0 : a + size < W64 := by omega
      have hw0a : wsub b.len 0 = b.len := by
        rw [wsub_eq_sub b.len 0 (Nat.zero_le _) hbW]
        omega
      have hw0b : wsub b.len size = b.len - size := by
        rw [wsub_eq_sub b.len size hble hbW]
      cases c with
      | true =>
        have hmod0 : (b.addr + size) % W64 = a + 0 + size := by
          rw [hba2, Nat.mod_eq_of_lt hfit0]
          omega
        have hsplitEq : split_block (remove_block t (some a) fl sl).1 a size
            true =
            ({ (remove_block t (some a) fl sl).1 with
                blocks := (insertAfter
                  (updLen (remove_block t (some a) fl sl).1.blocks a size) a
                  ⟨a + t.blk_hdr_len + size, b.len - t.blk_hdr_len - size,
                    false⟩) },
              some (a + t.blk_hdr_len + size)) := by
          rw [split_block]
          simp only [hfindT1, block_hdr_alloc, hfindT1b, block_length, hhdr,
            hm0]
          rw [if_neg (show ¬((0:Nat) ≠ 0) by decide)]
          rw [if_pos trivial]
          rw [hw0a, hw0b, hmod0]
          rfl
        refine ⟨_, ?_, hstiSh, hstiInv,
          ⟨⟨b.addr, size, false⟩, hstiFind, rfl, le_refl size, hble⟩, ?_⟩
        · rw [hnone_eq, hpair]
          simp only [hfind, if_pos hthr, hsplitEq, hhdr]
        · intro _ hcf
          exact absurd hcf (by decide)
      | false =>
        have hsum : size + (b.len - size) = b.len := by omega
        have hupdid : updLen (remove_block t (some a) fl sl).1.blocks a
            b.len = (remove_block t (some a) fl sl).1.blocks := by
          apply updLen_id
          intro x hx hxa
          rw [hT1blocks] at hx
          rcases List.mem_append.mp hx with hx' | hx'
          · exact absurd hxa (hu x hx')
          · rcases List.mem_cons.mp hx' with rfl | hx2
            · rfl
            · exact absurd hxa (hv x hx2)
        have hcond : ¬((remove_block t (some a) fl sl).1.blk_hdr_len ≠ 0) := by
          rw [hhdr, hm0]
          decide
        have hREM : wsub (wsub b.len
            (remove_block t (some a) fl sl).1.blk_hdr_len) size =
            b.len - size := by
          rw [hhdr, hm0, hw0a, hw0b]
        have hsplitEq : split_block (remove_block t (some a) fl sl).1 a size
            false = ((remove_block t (some a) fl sl).1, none) := by
          rw [split_block]
          simp only [hfindT1, block_hdr_alloc, hfindT1b, block_length]
          rw [if_neg hcond]
          rw [if_neg (show ¬(false = true) by decide)]
          simp only [hREM, hsum, Nat.mod_eq_of_lt hbW, updLen_updLen, hupdid]
        refine ⟨(remove_block t (some a) fl sl).1, ?_, hrmShape, hrmInv,
          ⟨{ b with free := false }, hfindT1, rfl, hble, le_refl b.len⟩, ?_⟩
        · rw [hnone_eq, hpair]
          simp only [hfind, if_pos hthr, hsplitEq]
        · intro _ _
          exact ⟨hrmBlocks, hfindT1, hrmFree⟩
  · -- no split
    refine ⟨(remove_block t (some a) fl sl).1, ?_, hrmShape, hrmInv,
      ⟨{ b with free := false }, hfindT1, rfl, hble, le_refl b.len⟩, ?_⟩
    · rw [hnone_eq, hpair]
      simp only [hfind, if_neg hthr]
    · intro _ _
      exact ⟨hrmBlocks, hfindT1, hrmFree⟩

/-- Case analysis of `tlsf_ext_alloc` on an invariant state with an in-range
request: either the bitmap search fails for every heap oracle, or a free
block of at least the rounded size is found, and for every oracle the call
returns its address with the invariant and shape preserved; with a failing
EXT header oracle the final state is exactly the remove result. -/
theorem ext_alloc_cases (t : TLSF) (hinv : TlsfInv t) (n : Nat)
    (hn1 : 1 ≤ n) (hn2 : n ≤ 2 ^ 62) :
    (∀ c : Bool, tlsf_ext_alloc t n c = none) ∨
    (∃ a b, findBlk t.blocks a = some b ∧ b.free = true ∧
      roundup2 n TLSF_MBS ≤ b.len ∧
      ∀ c : Bool, ∃ t2, tlsf_ext_alloc t n c = some (t2, a) ∧
        SameShape t t2 ∧ TlsfInv t2 ∧
        (∃ b2, findBlk t2.blocks a = some b2 ∧ b2.free = false ∧
          roundup2 n TLSF_MBS ≤ b2.len ∧ b2.len ≤ b.len) ∧
        (t.blk_hdr_len = 0 → c = false →
          t2.blocks = setFree t.blocks a false ∧
          findBlk t2.blocks a = some { b with free := false } ∧
          t2.free = t.free - b.len)) := by
  have hW := W64_eq
  have hnW : n + 31 < W64 := by omega
  obtain ⟨hszm, hszge, hszlt⟩ := roundup2_MBS_spec n hnW
  have hsz32 : 32 ≤ roundup2 n TLSF_MBS := by omega
  have hszle : roundup2 n TLSF_MBS ≤ 2 ^ 62 := by omega
  have hsz0 : ¬(roundup2 n TLSF_MBS = 0) := by omega
  have hszWlt : roundup2 n TLSF_MBS < W64 := by omega
  obtain ⟨htgt32, htgtlt, htgtbase⟩ :=
    target_cell_base_ge (roundup2 n TLSF_MBS) hsz32 hszle
  have htgtW : roundup2 n TLSF_MBS +
      2 ^ (Nat.log2 (roundup2 n TLSF_MBS) - 5) - 1 < W64 := by
    have h63 : (2:Nat) ^ 63 < 2 ^ 64 := by norm_num
    omega
  have hkey : (roundup2 n TLSF_MBS +
      (1 <<< (ilog2 (roundup2 n TLSF_MBS) - TLSF_SLI_SHIFT)) - 1) % W64
      = roundup2 n TLSF_MBS +
        2 ^ (Nat.log2 (roundup2 n TLSF_MBS) - 5) - 1 := by
    rw [ilog2_eq_log2 _ (by omega) hszWlt, TLSF_SLI_SHIFT, Nat.shiftLeft_eq,
      Nat.one_mul, Nat.mod_eq_of_lt htgtW]
  set SZ := roundup2 n TLSF_MBS with hSZ
  set TG := SZ + 2 ^ (Nat.log2 SZ - 5) - 1 with hTG
  obtain ⟨hfli5, hfli64, hsli32⟩ := get_mapping_bounds TG htgt32 (by omega)
  have hfliv : (get_mapping TG).1 = Nat.log2 TG := by
    rw [get_mapping_eq TG htgt32 (by omega)]
  have hfli62 : (get_mapping TG).1 ≤ 62 := by
    rw [hfliv]
    have h0 := (Nat.log2_lt (by omega : TG ≠ 0)).mpr htgtlt
    omega
  have h64 : ¬((get_mapping TG).1 + 1 ≥ 64) := by omega
  by_cases hs1 : ffs32 (t.l2_free (get_mapping TG).1 &&&
      maskGE (get_mapping TG).2) = 0
  · -- second-stage search on the first-level bitmap
    by_cases hf1 : ffs32 (t.l1_free &&& maskGE ((get_mapping TG).1 + 1)) = 0
    · -- nothing found: the call fails for every oracle
      left
      intro c
      simp only [tlsf_ext_alloc, ← hSZ, hkey, if_neg hsz0, if_pos hs1,
        if_neg h64, if_pos hf1]
    · -- a higher first level serves the request
      obtain ⟨hgef, hlt32f, hbitf⟩ := ffs32_land_spec t.l1_free
        ((get_mapping TG).1 + 1) (by omega) hf1
      have hl2ne : t.l2_free
          (ffs32 (t.l1_free &&& maskGE ((get_mapping TG).1 + 1)) - 1) ≠ 0 :=
        hinv.bit1 _ (by omega) hbitf
      have hl2lt := hinv.l2lt
        (ffs32 (t.l1_free &&& maskGE ((get_mapping TG).1 + 1)) - 1) (by omega)
      have hs2ne : ¬(ffs32 (t.l2_free
          (ffs32 (t.l1_free &&& maskGE ((get_mapping TG).1 + 1)) - 1)) = 0)
          := by
        intro h0
        rw [ffs32_eq_zero_iff] at h0
        have hlt' : t.l2_free
            (ffs32 (t.l1_free &&& maskGE ((get_mapping TG).1 + 1)) - 1) <
            4294967296 := by omega
        rw [Nat.mod_eq_of_lt hlt'] at h0
        exact hl2ne h0
      obtain ⟨hsl2lt, hsl2bit⟩ := ffs32_plain_spec _ hs2ne
      have hbaseF : SZ ≤ 2 ^ (ffs32 (t.l1_free &&&
            maskGE ((get_mapping TG).1 + 1)) - 1) +
          (ffs32 (t.l2_free (ffs32 (t.l1_free &&&
            maskGE ((get_mapping TG).1 + 1)) - 1)) - 1) *
          2 ^ ((ffs32 (t.l1_free &&& maskGE ((get_mapping TG).1 + 1)) - 1)
            - 5) := by
        refine le_trans htgtbase (cellBase_mono (get_mapping TG).1
          (get_mapping TG).2 _ _ hfli5 hsli32 (Or.inl (by omega)))
      obtain ⟨a, b, hfind, hfree, hlen, hall⟩ :=
        ext_alloc_from_cell t hinv SZ hsz32 hszm
          (ffs32 (t.l1_free &&& maskGE ((get_mapping TG).1 + 1)) - 1)
          (ffs32 (t.l2_free (ffs32 (t.l1_free &&&
            maskGE ((get_mapping TG).1 + 1)) - 1)) - 1)
          (by omega) hsl2lt hsl2bit hbaseF
      right
      refine ⟨a, b, hfind, hfree, hlen, ?_⟩
      intro c
      obtain ⟨t2, heq, hss, hin, hb2, hsetf⟩ := hall c
      refine ⟨t2, ?_, hss, hin, hb2, hsetf⟩
      rw [← heq]
      simp only [tlsf_ext_alloc, ← hSZ, hkey, if_neg hsz0, if_pos hs1,
        if_neg h64, if_neg hf1, if_neg hs2ne]
  · -- direct hit in the target first level
    obtain ⟨hge0, hlt0, hbit0⟩ := ffs32_land_spec
      (t.l2_free (get_mapping TG).1) (get_mapping TG).2 (by omega) hs1
    have hbase0 : SZ ≤ 2 ^ (get_mapping TG).1 +
        (ffs32 (t.l2_free (get_mapping TG).1 &&&
          maskGE (get_mapping TG).2) - 1) * 2 ^ ((get_mapping TG).1 - 5) := by
      refine le_trans htgtbase (cellBase_mono (get_mapping TG).1
        (get_mapping TG).2 _ _ hfli5 hsli32 (Or.inr ⟨rfl, hge0⟩))
    obtain ⟨a, b, hfind, hfree, hlen, hall⟩ :=
      ext_alloc_from_cell t hinv SZ hsz32 hszm (get_mapping TG).1
        (ffs32 (t.l2_free (get_mapping TG).1 &&&
          maskGE (get_mapping TG).2) - 1)
        hfli64 hlt0 hbit0 hbase0
    right
    refine ⟨a, b, hfind, hfree, hlen, ?_⟩
    intro c
    obtain ⟨t2, heq, hss, hin, hb2, hsetf⟩ := hall c
    refine ⟨t2, ?_, hss, hin, hb2, hsetf⟩
    rw [← heq]
    simp only [tlsf_ext_alloc, ← hSZ, hkey, if_neg hsz0, if_neg hs1]

/-- One public step preserves the allocator shape and invariant. -/
theorem step_preserves (t : TLSF) (hinv : TlsfInv t) (op : Op) (t' : TLSF)
    (hstep : t.step op = some t') : SameShape t t' ∧ TlsfInv t' := by
  cases op with
  | alloc n c =>
    rw [TLSF.step] at hstep
    by_cases hrange : 1 ≤ n ∧ n ≤ 2 ^ 62
    · rw [if_pos hrange] at hstep
      rcases ext_alloc_cases t hinv n hrange.1 hrange.2 with hnone |
        ⟨a, b, _, _, _, hall⟩
      · rw [hnone c] at hstep
        simp at hstep
        rw [← hstep]
        exact ⟨sameShape_refl t, hinv⟩
      · obtain ⟨t2, heq, hss, hin, _, _⟩ := hall c
        rw [heq] at hstep
        simp at hstep
        rw [← hstep]
        exact ⟨hss, hin⟩
    · rw [if_neg hrange] at hstep
      exact absurd hstep (by simp)
  | free a =>
    rw [TLSF.step] at hstep
    cases hf : findBlk t.blocks a with
    | none =>
      rw [hf] at hstep
      exact absurd hstep (by simp)
    | some x =>
      rw [hf] at hstep
      dsimp only at hstep
      by_cases hxf : x.free = true
      · rw [if_pos hxf] at hstep
        exact absurd hstep (by simp)
      · rw [if_neg hxf] at hstep
        rw [Option.some_inj] at hstep
        subst hstep
        exact ext_free_inv t hinv a x hf (by
          cases h2 : x.free
          · rfl
          · exact absurd h2 hxf)

/-- Valid traces preserve the allocator shape and invariant. -/
theorem runOps_preserves (ops : List Op) : ∀ (t : TLSF), TlsfInv t →
    ∀ t', runOps t ops = some t' → SameShape t t' ∧ TlsfInv t' := by
  induction ops with
  | nil =>
    intro t hinv t' h
    rw [runOps, Option.some_inj] at h
    subst h
    exact ⟨sameShape_refl t, hinv⟩
  | cons op rest ih =>
    intro t hinv t' h
    rw [runOps] at h
    cases hs : t.step op with
    | none =>
      rw [hs] at h
      exact absurd h (by simp)
    | some u =>
      rw [hs] at h
      have h2 : runOps u rest = some t' := h
      obtain ⟨hsh1, hinv1⟩ := step_preserves t hinv op u hs
      obtain ⟨hsh2, hinv2⟩ := ih u hinv1 t' h2
      exact ⟨sameShape_trans t u t' hsh1 hsh2, hinv2⟩

/-- The chain equation summed over the whole list: the extent is exactly
partitioned into per-block headers and payloads. -/
theorem chain_sum (h stop : Nat) : ∀ bs x, chainB h stop x bs = true →
    x + sumLens bs + bs.length * h = stop := by
  intro bs
  induction bs with
  | nil =>
    intro x hx
    have h0 := (chainB_nil_iff h stop x).mp hx
    rw [sumLens]
    simp
    omega
  | cons b rest ih =>
    intro x hx
    obtain ⟨hb, hrest⟩ := (chainB_cons_iff h stop x b rest).mp hx
    have h0 := ih (x + h + b.len) hrest
    rw [sumLens, List.map_cons, List.sum_cons, List.length_cons]
    rw [sumLens] at h0
    have h1 : (rest.length + 1) * h = rest.length * h + h := by ring
    rw [h1]
    omega

/-- `tlsf_create`: field values, all-free initial state, and the
invariant, under the creation preconditions. -/
theorem create_inv (baseptr size0 : Nat) (exthdr : Bool)
    (h : createOk baseptr size0 exthdr) :
    TlsfInv (tlsf_create baseptr size0 exthdr) ∧
    (tlsf_create baseptr size0 exthdr).baseptr = baseptr ∧
    (tlsf_create baseptr size0 exthdr).size = alignedSize size0 ∧
    (tlsf_create baseptr size0 exthdr).blk_hdr_len =
      (if exthdr then 0 else TLSF_BLKHDR_LEN) ∧
    (tlsf_create baseptr size0 exthdr).free +
      (if exthdr then 0 else TLSF_BLKHDR_LEN) = alignedSize size0 ∧
    allFreeB (tlsf_create baseptr size0 exthdr) = true := by
  have hW := W64_eq
  obtain ⟨hov, hbov, hmbs⟩ := h
  rw [TLSF_MBS] at hov
  obtain ⟨hasm, hasle, haslt⟩ := alignedSize_spec size0 (by
    rw [TLSF_MBS]; omega)
  have hmbs2 : (if exthdr then 32 ≤ alignedSize size0
      else 48 ≤ alignedSize size0) := by
    cases exthdr
    · rw [if_neg (show ¬(false = true) by decide)] at hmbs ⊢
      rw [TLSF_MBS, TLSF_BLKHDR_LEN] at hmbs
      omega
    · rw [if_pos (show (true:Bool) = true from rfl)] at hmbs ⊢
      rw [TLSF_MBS] at hmbs
      omega
  have hasW : alignedSize size0 < W64 := by omega
  have hlen : wsub (roundup2 ((size0 + 1) % W64) TLSF_MBS) TLSF_MBS =
      alignedSize size0 := rfl
  cases exthdr with
  | true =>
    rw [if_pos (show (true:Bool) = true from rfl)] at hmbs2
    have hinv0 : TlsfInv
        { baseptr := baseptr, size := alignedSize size0, free := 0,
          blk_hdr_len := 0,
          blocks := [⟨baseptr, alignedSize size0, false⟩],
          l1_free := 0, l2_free := fun _ => 0, smap := fun _ _ => [] } := by
      refine ⟨Or.inr rfl, hasW,
        (by show baseptr + alignedSize size0 < W64; omega), by simp,
        ?_, ?_, rfl, rfl, W64_pos, ?_, ?_, ?_, ?_⟩
      · apply (chainB_cons_iff _ _ _ _ _).mpr
        refine ⟨rfl, (chainB_nil_iff _ _ _).mpr ?_⟩
        show baseptr + 0 + alignedSize size0 = baseptr + alignedSize size0
        omega
      · intro c hc
        simp at hc
        subst hc
        refine ⟨?_, ?_, ?_⟩
        · show TLSF_MBS ≤ alignedSize size0
          rw [TLSF_MBS]
          omega
        · show alignedSize size0 % TLSF_BLKHDR_LEN = 0
          rw [TLSF_BLKHDR_LEN]
          omega
        · intro _
          show alignedSize size0 % TLSF_MBS = 0
          rw [TLSF_MBS]
          omega
      · intro fl _
        exact Nat.pos_pow_of_pos _ (by norm_num)
      · intro fl _ hbit
        rw [Nat.zero_testBit] at hbit
        exact absurd hbit (by simp)
      · intro fl _ sl _
        refine ⟨?_, List.nodup_nil, ?_⟩
        · intro hbit
          rw [Nat.zero_testBit] at hbit
          exact absurd hbit (by simp)
        · intro a ha
          simp at ha
      · intro bb hbb hbf
        simp at hbb
        subst hbb
        simp at hbf
    have hfind0 : findBlk [(⟨baseptr, alignedSize size0, false⟩ : Blk)]
        baseptr = some ⟨baseptr, alignedSize size0, false⟩ := by
      simp [findBlk, List.find?]
    obtain ⟨hiBlocks, hiFree, hiShape, _, _, hiInv⟩ :=
      insert_block_inv _ hinv0 baseptr ⟨baseptr, alignedSize size0, false⟩
        hfind0 rfl (by intro pb hpb; simp [prevPhys] at hpb)
        (by intro nb hnb; simp [nextPhys] at hnb)
    have hcr : tlsf_create baseptr size0 true = insert_block
        { baseptr := baseptr, size := alignedSize size0, free := 0,
          blk_hdr_len := 0,
          blocks := [⟨baseptr, alignedSize size0, false⟩],
          l1_free := 0, l2_free := fun _ => 0, smap := fun _ _ => [] }
        baseptr := by
      rw [tlsf_create]
      simp [hlen]
    rw [hcr]
    refine ⟨hiInv, ?_, ?_, ?_, ?_, ?_⟩
    · exact hiShape.1
    · exact hiShape.2.1
    · exact hiShape.2.2
    · rw [hiFree]
      show 0 + alignedSize size0 + 0 = alignedSize size0
      omega
    · rw [allFreeB, hiBlocks]
      simp [setFree]
  | false =>
    rw [if_neg (show ¬(false = true) by decide)] at hmbs2
    have hsub : wsub (alignedSize size0) TLSF_BLKHDR_LEN =
        alignedSize size0 - 16 := by
      rw [TLSF_BLKHDR_LEN]
      exact wsub_eq_sub _ _ (by omega) hasW
    have hinv0 : TlsfInv
        { baseptr := baseptr, size := alignedSize size0, free := 0,
          blk_hdr_len := TLSF_BLKHDR_LEN,
          blocks := [⟨baseptr, alignedSize size0 - 16, false⟩],
          l1_free := 0, l2_free := fun _ => 0, smap := fun _ _ => [] } := by
      refine ⟨Or.inl rfl, hasW,
        (by show baseptr + alignedSize size0 < W64; omega), by simp,
        ?_, ?_, rfl, rfl, W64_pos, ?_, ?_, ?_, ?_⟩
      · apply (chainB_cons_iff _ _ _ _ _).mpr
        refine ⟨rfl, (chainB_nil_iff _ _ _).mpr ?_⟩
        show baseptr + TLSF_BLKHDR_LEN + (alignedSize size0 - 16) =
          baseptr + alignedSize size0
        rw [TLSF_BLKHDR_LEN]
        omega
      · intro c hc
        simp at hc
        subst hc
        refine ⟨?_, ?_, ?_⟩
        · show TLSF_MBS ≤ alignedSize size0 - 16
          rw [TLSF_MBS]
          omega
        · show (alignedSize size0 - 16) % TLSF_BLKHDR_LEN = 0
          rw [TLSF_BLKHDR_LEN]
          omega
        · intro h0
          have h1 : (16:Nat) = 0 := h0
          exact absurd h1 (by decide)
      · intro fl _
        exact Nat.pos_pow_of_pos _ (by norm_num)
      · intro fl _ hbit
        rw [Nat.zero_testBit] at hbit
        exact absurd hbit (by simp)
      · intro fl _ sl _
        refine ⟨?_, List.nodup_nil, ?_⟩
        · intro hbit
          rw [Nat.zero_testBit] at hbit
          exact absurd hbit (by simp)
        · intro a ha
          simp at ha
      · intro bb hbb hbf
        simp at hbb
        subst hbb
        simp at hbf
    have hfind0 : findBlk [(⟨baseptr, alignedSize size0 - 16, false⟩ : Blk)]
        baseptr = some ⟨baseptr, alignedSize size0 - 16, false⟩ := by
      simp [findBlk, List.find?]
    obtain ⟨hiBlocks, hiFree, hiShape, _, _, hiInv⟩ :=
      insert_block_inv _ hinv0 baseptr
        ⟨baseptr, alignedSize size0 - 16, false⟩
        hfind0 rfl (by intro pb hpb; simp [prevPhys] at hpb)
        (by intro nb hnb; simp [nextPhys] at hnb)
    have hcr : tlsf_create baseptr size0 false = insert_block
        { baseptr := baseptr, size := alignedSize size0, free := 0,
          blk_hdr_len := TLSF_BLKHDR_LEN,
          blocks := [⟨baseptr, alignedSize size0 - 16, false⟩],
          l1_free := 0, l2_free := fun _ => 0, smap := fun _ _ => [] }
        baseptr := by
      rw [tlsf_create]
      simp [hlen, hsub]
    rw [hcr]
    refine ⟨hiInv, ?_, ?_, ?_, ?_, ?_⟩
    · exact hiShape.1
    · exact hiShape.2.1
    · exact hiShape.2.2
    · rw [hiFree]
      show 0 + (alignedSize size0 - 16) + 16 = alignedSize size0
      omega
    · rw [allFreeB, hiBlocks]
      simp [setFree]

theorem testBit_log2 (x : Nat) (h : x ≠ 0) :
    x.testBit (Nat.log2 x) = true := by
  have h0 : 0 < x := Nat.pos_of_ne_zero h
  have h1 := log2_ge_pow x h0
  have h2 := log2_lt_pow x
  have hp : 0 < 2 ^ Nat.log2 x := Nat.pos_pow_of_pos _ (by norm_num)
  have hdiv : x / 2 ^ Nat.log2 x = 1 := by
    have hle : 1 ≤ x / 2 ^ Nat.log2 x := (Nat.one_le_div_iff hp).mpr h1
    have hlt : x / 2 ^ Nat.log2 x < 2 := by
      apply Nat.div_lt_of_lt_mul
      rw [Nat.pow_succ] at h2
      omega
    omega
  rw [Nat.testBit_to_div_mod, hdiv]
  decide

/-- The `avail_space` computation on an invariant state with a non-empty
first-level bitmap: it returns exactly one more than the value the
specification describes (which omits the `+ 1` in the code's
`(len + 1) - (1 << (ilog2(len) - SLI_SHIFT))`). -/
theorem avail_succ_claim (t : TLSF) (hinv : TlsfInv t)
    (hszb : t.size + TLSF_MBS < W64)
    (hne : t.l1_free ≠ 0) :
    tlsf_avail_space t = availClaimValue t + 1 := by
  have hW := W64_eq
  have hM0 : TLSF_MBS = 32 := rfl
  have hl1lt := hinv.l1lt
  have hfl : flsl t.l1_free = Nat.log2 t.l1_free + 1 :=
    flsl_eq_log2 _ (Nat.pos_of_ne_zero hne) hl1lt
  have hlog64 : Nat.log2 t.l1_free < 64 := by
    apply (Nat.log2_lt hne).mpr
    omega
  have hbit1 : t.l1_free.testBit (Nat.log2 t.l1_free) = true :=
    testBit_log2 _ hne
  have hl2ne : t.l2_free (Nat.log2 t.l1_free) ≠ 0 :=
    hinv.bit1 _ hlog64 hbit1
  have hl2lt := hinv.l2lt (Nat.log2 t.l1_free) hlog64
  have hsl : flsl (t.l2_free (Nat.log2 t.l1_free)) =
      Nat.log2 (t.l2_free (Nat.log2 t.l1_free)) + 1 := by
    apply flsl_eq_log2 _ (Nat.pos_of_ne_zero hl2ne)
    have : (2:Nat) ^ 32 < 2 ^ 64 := by norm_num
    omega
  have hsl32 : Nat.log2 (t.l2_free (Nat.log2 t.l1_free)) < 32 :=
    (Nat.log2_lt hl2ne).mpr hl2lt
  have hbit2 : (t.l2_free (Nat.log2 t.l1_free)).testBit
      (Nat.log2 (t.l2_free (Nat.log2 t.l1_free))) = true :=
    testBit_log2 _ hl2ne
  obtain ⟨hbit2f, _, hmapinv⟩ := hinv.cells (Nat.log2 t.l1_free) hlog64
    (Nat.log2 (t.l2_free (Nat.log2 t.l1_free))) hsl32
  have hnn := hbit2f hbit2
  obtain ⟨a, rest, hlist⟩ := List.exists_cons_of_ne_nil hnn
  have hhd2 : (t.smap (Nat.log2 t.l1_free)
      (Nat.log2 (t.l2_free (Nat.log2 t.l1_free)))).head? = some a := by
    rw [hlist]
    rfl
  obtain ⟨b, hbmem, hbaddr, hbfree, hbcell⟩ := hmapinv a
    (by rw [hlist]; simp)
  have hfindb : findBlk t.blocks a = some b := by
    have h0 := findBlk_of_mem_pw t.blocks b (inv_pairwise t hinv) hbmem
    rw [hbaddr] at h0
    exact h0
  obtain ⟨hb32, hbW⟩ := inv_len_facts t hinv b hbmem
  have hb16 : b.len % 16 = 0 := by
    have := (hinv.lens b hbmem).2.1
    rw [TLSF_BLKHDR_LEN] at this
    exact this
  have hbsz : b.len ≤ t.size := by
    have h0 := chain_mem_bounds t.blk_hdr_len (t.baseptr + t.size) t.blocks
      t.baseptr hinv.chain b hbmem
    omega
  have hblW : b.len + 32 < W64 := by omega
  have hmodb : (b.len + 1) % W64 = b.len + 1 := Nat.mod_eq_of_lt (by omega)
  obtain ⟨hRm, hRge, hRlt⟩ := roundup2_MBS_spec (b.len + 1) (by omega)
  have hM : TLSF_MBS = 32 := rfl
  have hw1 : wsub (roundup2 (b.len + 1) TLSF_MBS) TLSF_MBS =
      roundup2 (b.len + 1) TLSF_MBS - TLSF_MBS :=
    wsub_eq_sub _ _ (by omega) (by omega)
  have hL32 : 32 ≤ roundup2 (b.len + 1) TLSF_MBS - TLSF_MBS := by omega
  have hLle : roundup2 (b.len + 1) TLSF_MBS - TLSF_MBS ≤ b.len := by omega
  have hLW : roundup2 (b.len + 1) TLSF_MBS - TLSF_MBS < W64 := by omega
  have hLpos : 0 < roundup2 (b.len + 1) TLSF_MBS - TLSF_MBS := by omega
  have hE : 2 ^ (Nat.log2 (roundup2 (b.len + 1) TLSF_MBS - TLSF_MBS) - 5) ≤
      roundup2 (b.len + 1) TLSF_MBS - TLSF_MBS := by
    refine le_trans (Nat.pow_le_pow_right (by norm_num) ?_)
      (log2_ge_pow _ hLpos)
    omega
  have hmodL : (roundup2 (b.len + 1) TLSF_MBS - TLSF_MBS + 1) % W64 =
      roundup2 (b.len + 1) TLSF_MBS - TLSF_MBS + 1 :=
    Nat.mod_eq_of_lt (by omega)
  have hshift : (1:Nat) <<< (ilog2 (roundup2 (b.len + 1) TLSF_MBS -
      TLSF_MBS) - TLSF_SLI_SHIFT) =
      2 ^ (Nat.log2 (roundup2 (b.len + 1) TLSF_MBS - TLSF_MBS) - 5) := by
    rw [ilog2_eq_log2 _ hLpos hLW, TLSF_SLI_SHIFT, Nat.shiftLeft_eq,
      Nat.one_mul]
  have hmodE : 2 ^ (Nat.log2 (roundup2 (b.len + 1) TLSF_MBS - TLSF_MBS) - 5)
      % W64 = 2 ^ (Nat.log2 (roundup2 (b.len + 1) TLSF_MBS - TLSF_MBS) - 5)
      := Nat.mod_eq_of_lt (by omega)
  have hne1 : ¬(Nat.log2 t.l1_free + 1 = 0) := by omega
  have hne2 : ¬(Nat.log2 (t.l2_free (Nat.log2 t.l1_free)) + 1 = 0) := by
    omega
  rw [tlsf_avail_space, availClaimValue]
  simp only [hfl, Nat.add_sub_cancel, hsl, if_neg hne1, if_neg hne2, hhd2,
    hfindb, block_length, hmodb, hw1, hshift, hmodL, hmodE]
  rw [wsub_eq_sub _ _ (by omega) (by omega)]
  omega

/-! ## Theorems

First the concrete refutations and failing traces; the invariant-preservation
development and the claims that rest on it follow. -/

/-- **C3** (code bug): after the valid trace `c3ops` (ten 32-unit
allocations, then freeing the blocks at 32, 160 and 64), the segregated list
of cell (5,0) still holds the block at address 160, yet bit 0 of
`l2_free[5]` is clear — `remove_block` cleared it because the merged-away
block at 32 was the *last node* of the list, not because the list became
empty.  This refutes "l2_free[fl][sl] is set iff map[fl][sl] is non-empty"
after a public operation. -/
theorem C3_bitmap_desync_trace :
    (runOps exState0 c3ops).isSome = true ∧
    c3final.smap 5 0 = [160] ∧
    ((c3final.l2_free 5).testBit 0 = false) := by
  refine ⟨by decide, by decide, by decide⟩

/-- **C4** (counterexample): immediately after the public operation
`tlsf_create 0 96 false` (INT mode), the single block has length
`96 - TLSF_BLKHDR_LEN = 80`, which is not a multiple of `TLSF_MBS = 32`. -/
theorem C4_counterexample :
    (tlsf_create 0 96 false).blocks.map block_length = [80] ∧
    ¬(80 % TLSF_MBS = 0) := by
  refine ⟨by decide, by decide⟩

/-- **C5** (counterexample): on the post-create EXT state over 320 units,
`tlsf_avail_space` returns 313 — `(len + 1) - (1 << (ilog2 len - 5))` for
`len = 320` — while the value described by the claim (the same without the
`+ 1`) is 312. -/
theorem C5_counterexample :
    tlsf_avail_space exState0 = 313 ∧ availClaimValue exState0 = 312 := by
  refine ⟨by decide, by decide⟩

/-- **C8** (counterexample): for `tlsf_create 64 96 true`, the initial
block's `tlsf_ext_getaddr` is 64 — the absolute base pointer — not the
base-relative offset 0 the claim asserts. -/
theorem C8_counterexample :
    ((tlsf_create 64 96 true).blocks.map tlsf_ext_getaddr) = [(64, 96)] ∧
    (64 : Nat) ≠ 0 := by
  refine ⟨by decide, by decide⟩

/-- **C8** (amended): `tlsf_ext_getaddr` returns the block's *absolute*
address (`blk->addr`, i.e. base plus offset) and writes the block's length
through the length pointer; on the initial block of `create(base, size,
EXT)` it returns `base` itself and the aligned size. -/
theorem C8_amended (base size0 : Nat) :
    ((tlsf_create base size0 true).blocks.map tlsf_ext_getaddr)
      = [(base, alignedSize size0)] ∧
    (∀ b : Blk, tlsf_ext_getaddr b = (b.addr, block_length b)) := by
  constructor
  · simp [tlsf_create, insert_block, findBlk, List.find?, setFree,
      tlsf_ext_getaddr, block_length, alignedSize]
  · intro b; rfl

/-- **C9** (code bug): `roundup2(0, TLSF_MBS) = 0`: a zero-size request is
*not* rounded up to `TLSF_MBS` (while 1 is), and `flsl 0 = 0`, so the C
proceeds to evaluate `1UL << (ilog2(0) - TLSF_SLI_SHIFT)` with a negative
shift count — undefined behaviour — instead of handling the request like an
MBS-sized one. -/
theorem C9_zero_not_rounded :
    roundup2 0 TLSF_MBS = 0 ∧ roundup2 1 TLSF_MBS = TLSF_MBS ∧ flsl 0 = 0 := by
  refine ⟨by decide, by decide, by decide⟩

/-- **C1** (counterexample): in the EXT arena `c1state` (extent `2^57 - 32`),
the request `c1req = 2^64 - 2^57 ≥ 1` makes the size-class target overflow
`size_t` (it wraps to `2^57 - 1`, cell (56,31) — the cell of the free
block), and when the side-arena `malloc` fails during the split,
`tlsf_ext_alloc` returns the block at address 0 *non-null* with length
`2^57 - 32 < c1req`. -/
theorem C1_counterexample :
    1 ≤ c1req ∧
    ((tlsf_ext_alloc c1state c1req false).map (fun p => p.2)) = some 0 ∧
    ((tlsf_ext_alloc c1state c1req false).bind
        (fun p => findBlk p.1.blocks p.2)).map block_length
      = some (2 ^ 57 - 32) ∧
    2 ^ 57 - 32 < c1req := by
  refine ⟨by decide, by decide, by decide, by decide⟩

/-- **C1** (amended): at-least-requested holds on every invariant state for
in-range requests `1 ≤ n ≤ 2^62` (the counterexample above shows the
unbounded claim is false): whenever `tlsf_ext_alloc` returns non-null, the
returned address names a block of length at least `n`, and whenever
`tlsf_alloc` returns non-null, the payload pointer sits `TLSF_BLKHDR_LEN`
past such a block. -/
theorem C1_amended (t : TLSF) (hinv : TlsfInv t) (n : Nat) (c : Bool)
    (hn1 : 1 ≤ n) (hn2 : n ≤ 2 ^ 62) :
    (∀ t' a, tlsf_ext_alloc t n c = some (t', a) →
      ∃ b, findBlk t'.blocks a = some b ∧ n ≤ b.len) ∧
    (∀ t' p, tlsf_alloc t n c = some (t', p) →
      ∃ b, findBlk t'.blocks (wsub p TLSF_BLKHDR_LEN) = some b ∧
        n ≤ b.len) := by
  have hW := W64_eq
  have hnr : n ≤ roundup2 n TLSF_MBS :=
    (roundup2_MBS_spec n (by omega)).2.1
  rcases ext_alloc_cases t hinv n hn1 hn2 with hnone |
    ⟨A, B, _, _, _, hall⟩
  · constructor
    · intro t' a h
      rw [hnone c] at h
      exact absurd h (by simp)
    · intro t' p h
      rw [tlsf_alloc, hnone c] at h
      exact absurd h (by simp)
  · obtain ⟨t2, heq, hsh2, hin2, ⟨b2, hf2, _, hsz2, _⟩, _⟩ := hall c
    have hnb2 : n ≤ b2.len := by omega
    constructor
    · intro t' a h
      rw [heq, Option.some_inj] at h
      injection h with h1 h2
      subst h1
      subst h2
      exact ⟨b2, hf2, hnb2⟩
    · intro t' p h
      rw [tlsf_alloc, heq] at h
      dsimp only at h
      rw [Option.some_inj] at h
      injection h with h1 h2
      subst h1
      subst h2
      have hb2mem := findBlk_mem t2.blocks A b2 hf2
      have hb2addr := (findBlk_decomp t2.blocks A b2 hf2).1
      have hcb := (chain_mem_bounds t2.blk_hdr_len
        (t2.baseptr + t2.size) t2.blocks t2.baseptr hin2.chain b2 hb2mem).2
      have hend := hin2.endlt
      obtain ⟨hb32, _⟩ := inv_len_facts t2 hin2 b2 hb2mem
      have hfit : A + 16 < W64 := by omega
      have hmod : (A + TLSF_BLKHDR_LEN) % W64 = A + 16 := by
        rw [TLSF_BLKHDR_LEN]
        exact Nat.mod_eq_of_lt hfit
      have hws : wsub ((A + TLSF_BLKHDR_LEN) % W64) TLSF_BLKHDR_LEN = A := by
        rw [hmod, TLSF_BLKHDR_LEN, wsub_eq_sub (A + 16) 16 (by omega)
          (by omega)]
        omega
      rw [hws]
      exact ⟨b2, hf2, hnb2⟩

theorem C1_amended_witness :
    ∃ t' a b, tlsf_ext_alloc exState0 1 true = some (t', a) ∧
      findBlk t'.blocks a = some b ∧ 1 ≤ b.len := by
  cases hE : tlsf_ext_alloc exState0 1 true with
  | none =>
    have hS : (tlsf_ext_alloc exState0 1 true).isSome = true := by decide
    rw [hE] at hS
    exact absurd hS (by simp)
  | some pr =>
    obtain ⟨t', a⟩ := pr
    obtain ⟨b, hb, hnb⟩ := (C1_amended exState0 (by constructor <;> decide)
      1 true (by decide) (by decide)).1 t' a hE
    exact ⟨t', a, b, rfl, hb, hnb⟩

/-- **C2**: conservation.  For any valid trace from a created allocator
whose final state has every block free (every successful allocation was
freed again), `tlsf_unused_space` equals its post-create value exactly. -/
theorem C2_conservation (bp s0 : Nat) (e : Bool) (hok : createOk bp s0 e)
    (ops : List Op) (t : TLSF)
    (hrun : runOps (tlsf_create bp s0 e) ops = some t)
    (hall : allFreeB t = true) :
    tlsf_unused_space t = tlsf_unused_space (tlsf_create bp s0 e) := by
  obtain ⟨hinv0, hbase0, hsize0, hhdr0, hfree0, _⟩ := create_inv bp s0 e hok
  obtain ⟨hsh, hinv⟩ := runOps_preserves ops _ hinv0 t hrun
  obtain ⟨bb, hbb⟩ : ∃ bb, t.blocks = [bb] := by
    cases hbl : t.blocks with
    | nil => exact absurd hbl hinv.nonnil
    | cons x rest =>
      cases rest with
      | nil => exact ⟨x, rfl⟩
      | cons y rest2 =>
        rw [allFreeB, hbl] at hall
        simp at hall
        have hna := hinv.noadj
        rw [hbl, noAdjFree, Bool.and_eq_true] at hna
        rw [hall.1, hall.2.1] at hna
        simp at hna
  have hbbfree : bb.free = true := by
    rw [allFreeB, hbb] at hall
    simpa using hall
  have hch := hinv.chain
  rw [hbb] at hch
  obtain ⟨hbaddr, hnil⟩ := (chainB_cons_iff _ _ _ _ _).mp hch
  have hstop := (chainB_nil_iff _ _ _).mp hnil
  have hctr := hinv.ctr
  rw [hbb, freeSum_cons, hbbfree] at hctr
  simp [freeSum] at hctr
  have hs1 : t.size = alignedSize s0 := by rw [hsh.2.1, hsize0]
  have hs2 : t.blk_hdr_len = (if e then 0 else TLSF_BLKHDR_LEN) := by
    rw [hsh.2.2, hhdr0]
  rw [tlsf_unused_space, tlsf_unused_space]
  omega

theorem C2_witness :
    ∃ t, runOps (tlsf_create 0 320 true) [Op.alloc 32 true, Op.free 0] =
      some t ∧ allFreeB t = true ∧
      tlsf_unused_space t = tlsf_unused_space (tlsf_create 0 320 true) := by
  cases hE : runOps (tlsf_create 0 320 true) [Op.alloc 32 true, Op.free 0]
    with
  | none =>
    have hS : (runOps (tlsf_create 0 320 true)
        [Op.alloc 32 true, Op.free 0]).isSome = true := by decide
    rw [hE] at hS
    exact absurd hS (by simp)
  | some t =>
    have hA : (runOps (tlsf_create 0 320 true)
        [Op.alloc 32 true, Op.free 0]).map allFreeB = some true := by decide
    rw [hE] at hA
    simp at hA
    exact ⟨t, rfl, hA,
      C2_conservation 0 320 true (by decide) [Op.alloc 32 true, Op.free 0]
        t hE hA⟩

/-- **C4** (amended): on every state reachable from a created allocator,
every block's length is at least `TLSF_MBS` and a multiple of
`TLSF_BLKHDR_LEN`; in EXT mode it is moreover a multiple of `TLSF_MBS`.
(The counterexample above shows the INT-mode multiple-of-MBS claim is
false.) -/
theorem C4_amended (bp s0 : Nat) (e : Bool) (hok : createOk bp s0 e)
    (ops : List Op) (t : TLSF)
    (hrun : runOps (tlsf_create bp s0 e) ops = some t) :
    ∀ b ∈ t.blocks, TLSF_MBS ≤ b.len ∧ b.len % TLSF_BLKHDR_LEN = 0 ∧
      (e = true → b.len % TLSF_MBS = 0) := by
  obtain ⟨hinv0, _, _, hhdr0, _, _⟩ := create_inv bp s0 e hok
  obtain ⟨hsh, hinv⟩ := runOps_preserves ops _ hinv0 t hrun
  intro b hb
  obtain ⟨h1, h2, h3⟩ := hinv.lens b hb
  refine ⟨h1, h2, ?_⟩
  intro he
  apply h3
  rw [hsh.2.2, hhdr0, he]
  simp

theorem C4_amended_witness :
    TLSF_MBS ≤ (⟨0, 80, true⟩ : Blk).len ∧
    (⟨0, 80, true⟩ : Blk).len % TLSF_BLKHDR_LEN = 0 ∧
    (false = true → (⟨0, 80, true⟩ : Blk).len % TLSF_MBS = 0) :=
  C4_amended 0 96 false (by decide) [] (tlsf_create 0 96 false) rfl
    ⟨0, 80, true⟩ (by decide)

/-- **C5** (amended): on an invariant state whose extent is not flush
against the top of the address space and whose first-level bitmap is
non-empty, `tlsf_avail_space` returns exactly *one more* than the value the
claim describes (find-last-set on both bitmaps, head length, inverse
rounding, minus `1 << (log2 len - SLI_SHIFT)`): the code computes
`(len + 1) - (1 << (ilog2 len - SLI_SHIFT))`, not `len - ...`. -/
theorem C5_amended (t : TLSF) (hinv : TlsfInv t)
    (hszb : t.size + TLSF_MBS < W64) (hne : t.l1_free ≠ 0) :
    tlsf_avail_space t = availClaimValue t + 1 :=
  avail_succ_claim t hinv hszb hne

theorem C5_amended_witness :
    tlsf_avail_space exState0 = availClaimValue exState0 + 1 :=
  C5_amended exState0 (by constructor <;> decide) (by decide) (by decide)

/-- **C6**: no-adjacent-free invariant: on every state reachable by public
operations from a created allocator, no two physically adjacent blocks are
both free. -/
theorem C6_no_adjacent_free (bp s0 : Nat) (e : Bool) (hok : createOk bp s0 e)
    (ops : List Op) (t : TLSF)
    (hrun : runOps (tlsf_create bp s0 e) ops = some t) :
    noAdjFree t.blocks = true := by
  obtain ⟨hinv0, _⟩ := create_inv bp s0 e hok
  exact (runOps_preserves ops _ hinv0 t hrun).2.noadj

theorem C6_witness : noAdjFree (tlsf_create 0 320 true).blocks = true :=
  C6_no_adjacent_free 0 320 true (by decide) [] (tlsf_create 0 320 true) rfl

/-- **C7**: EXT split abandonment atomicity: on an invariant EXT state, if
the run with a working header heap returns a block, then the run whose
side-arena allocation fails also succeeds (never fatal), returns the *same
address*, hands back the found block un-split with its full original length
(only its free mark changes), and loses no space and no block (the sum of
block lengths and the block count are unchanged). -/
theorem C7_split_abandonment (t : TLSF) (hinv : TlsfInv t)
    (hext : t.blk_hdr_len = 0) (n : Nat) (hn1 : 1 ≤ n) (hn2 : n ≤ 2 ^ 62)
    (t1 : TLSF) (a : Nat) (h : tlsf_ext_alloc t n true = some (t1, a)) :
    ∃ t2 b, tlsf_ext_alloc t n false = some (t2, a) ∧
      findBlk t.blocks a = some b ∧ b.free = true ∧
      findBlk t2.blocks a = some { b with free := false } ∧
      sumLens t2.blocks = sumLens t.blocks ∧
      t2.blocks.length = t.blocks.length := by
  rcases ext_alloc_cases t hinv n hn1 hn2 with hnone |
    ⟨a0, b0, hfind0, hfree0, _, hall⟩
  · rw [hnone true] at h
    exact absurd h (by simp)
  · obtain ⟨tT, heqT, _, _, _, _⟩ := hall true
    rw [heqT, Option.some_inj] at h
    injection h with h1 h2
    subst h2
    obtain ⟨t2, heqF, _, _, _, hsetf⟩ := hall false
    obtain ⟨hblocks2, hfind2, _⟩ := hsetf hext rfl
    refine ⟨t2, b0, heqF, hfind0, hfree0, hfind2, ?_, ?_⟩
    · rw [hblocks2]
      exact sumLens_setFree t.blocks a0 false
    · rw [hblocks2, setFree]
      exact List.length_map t.blocks _

theorem C7_witness :
    ∃ t2 b, tlsf_ext_alloc exState0 32 false = some (t2, 0) ∧
      findBlk exState0.blocks 0 = some b ∧ b.free = true ∧
      findBlk t2.blocks 0 = some { b with free := false } ∧
      sumLens t2.blocks = sumLens exState0.blocks ∧
      t2.blocks.length = exState0.blocks.length := by
  cases hE : tlsf_ext_alloc exState0 32 true with
  | none =>
    have hS : (tlsf_ext_alloc exState0 32 true).isSome = true := by decide
    rw [hE] at hS
    exact absurd hS (by simp)
  | some pr =>
    obtain ⟨t1, a⟩ := pr
    have ha : a = 0 := by
      have hA : (tlsf_ext_alloc exState0 32 true).map Prod.snd = some 0 :=
        by decide
      rw [hE] at hA
      simpa using hA
    subst ha
    exact C7_split_abandonment exState0 (by constructor <;> decide)
      (by decide) 32 (by decide) (by decide) t1 0 hE

/-- **C10**: extent partition: on every state reachable from a created
allocator, the physical chain runs contiguously from the base — each
block's address is the previous block's address advanced by the header
length plus its length — and ends exactly at base plus the aligned size, so
the per-block headers and lengths sum to the aligned extent size (in EXT
mode the header length is 0, so the lengths alone partition the extent). -/
theorem C10_partition (bp s0 : Nat) (e : Bool) (hok : createOk bp s0 e)
    (ops : List Op) (t : TLSF)
    (hrun : runOps (tlsf_create bp s0 e) ops = some t) :
    chainB t.blk_hdr_len (bp + alignedSize s0) bp t.blocks = true ∧
    t.blk_hdr_len = (if e then 0 else TLSF_BLKHDR_LEN) ∧
    sumLens t.blocks + t.blocks.length * t.blk_hdr_len = alignedSize s0 := by
  obtain ⟨hinv0, hb0, hs0, hh0, _, _⟩ := create_inv bp s0 e hok
  obtain ⟨hsh, hinv⟩ := runOps_preserves ops _ hinv0 t hrun
  have hch := hinv.chain
  have hbase : t.baseptr = bp := by rw [hsh.1, hb0]
  have hsize : t.size = alignedSize s0 := by rw [hsh.2.1, hs0]
  rw [hbase, hsize] at hch
  refine ⟨hch, ?_, ?_⟩
  · rw [hsh.2.2, hh0]
  · have h0 := chain_sum t.blk_hdr_len (bp + alignedSize s0) t.blocks bp hch
    omega

theorem C10_witness :
    chainB (tlsf_create 0 320 true).blk_hdr_len (0 + alignedSize 320) 0
      (tlsf_create 0 320 true).blocks = true ∧
    (tlsf_create 0 320 true).blk_hdr_len =
      (if true then 0 else TLSF_BLKHDR_LEN) ∧
    sumLens (tlsf_create 0 320 true).blocks +
      (tlsf_create 0 320 true).blocks.length *
        (tlsf_create 0 320 true).blk_hdr_len = alignedSize 320 :=
  C10_partition 0 320 true (by decide) [] (tlsf_create 0 320 true) rfl
